import Mathlib

/-!
# Hash table benchmark driver (`src/search.cpp`): embedding and properties

The driver tokenises a dictionary buffer (`lexis_array_init`), loads the keys
into a chained hash table (`hash_table_init`), moves every key into one fresh
arena (`hash_table_rebuild`) and then looks every key up (`hash_table_search`).

Memory is a list of blocks, a block is a list of bytes, a pointer is a block
index with an offset.  An access outside a live block, or through the null
pointer, is undefined behaviour in C and is reported here as a `Fault`.
Loops whose termination depends on the data (`while (dup_cur != dup_fict)`)
take a fuel argument that bounds the number of loop tests.
-/

namespace HashTableOpt

/-! ## Memory -/

/-- Ways in which a run leaves defined behaviour (or exhausts its fuel). -/
inductive Fault
  | assertion
  | null_deref
  | oob_read
  | oob_write
  | no_fuel
  deriving DecidableEq, Repr

/-- A non-null address: a block and a byte offset inside it. -/
structure Ptr where
  blk : Nat
  off : Nat
  deriving DecidableEq, Repr

/-- The heap: block `i` is `m[i]`, a list of bytes. -/
abbrev Mem := List (List Nat)

/-- The type `hash_key` (`typedef const char *hash_key`); `none` is `nullptr`. -/
abbrev hash_key := Option Ptr

/-- The bytes before the first zero byte, if there is a zero byte. -/
def cstr : List Nat → Option (List Nat)
  | [] => none
  | b :: bs => if b = 0 then some [] else (cstr bs).map (fun s => b :: s)

/-- The null-terminated byte sequence a pointer denotes. -/
def read_cstr (m : Mem) (p : Ptr) : Option (List Nat) :=
  match m[p.blk]? with
  | none => none
  | some b => cstr (b.drop p.off)

/-- The byte sequence a key reference denotes (`none` for a null or dangling key). -/
def key_bytes (m : Mem) (k : hash_key) : Option (List Nat) :=
  match k with
  | none => none
  | some p => read_cstr m p

/-- C `strlen`. -/
def strlen (m : Mem) (s : hash_key) : Except Fault Nat :=
  match s with
  | none => .error .null_deref
  | some p =>
    match read_cstr m p with
    | none => .error .oob_read
    | some bs => .ok bs.length

/-- C `memcpy(dst, src, n)`: both ranges must lie inside their blocks. -/
def memcpy (m : Mem) (dst : Option Ptr) (src : Option Ptr) (n : Nat) : Except Fault Mem :=
  match src with
  | none => .error .null_deref
  | some sp =>
    match m[sp.blk]? with
    | none => .error .oob_read
    | some sb =>
      if sp.off + n ≤ sb.length then
        match dst with
        | none => .error .null_deref
        | some dp =>
          match m[dp.blk]? with
          | none => .error .oob_write
          | some db =>
            if dp.off + n ≤ db.length then
              .ok (m.set dp.blk (db.take dp.off ++ (sb.drop sp.off).take n ++ db.drop (dp.off + n)))
            else .error .oob_write
      else .error .oob_read

/-- Library `log_calloc(n, 1)`: a fresh zeroed block of `n` bytes, or the null
pointer when the allocation fails (`succeeds = false`). -/
def log_calloc (succeeds : Bool) (m : Mem) (n : Nat) : Mem × Option Ptr :=
  if succeeds then (m ++ [List.replicate n 0], some ⟨m.length, 0⟩) else (m, none)

/-! ## Settings (`search.cpp`, lines 28-35) -/

def HASH_TABLE_SIZE : Nat := 1907

def RUN_SEARCH_NUM : Nat := 5000

def MAX_DICTIONARY_SIZE : Nat := 60000

/-! ## Table layout

The headers `hash/hash_table.h` and the list library are not part of the
sources at hand; the fields below are the ones `search.cpp` touches
(`store->data[chain].fictional`, `node->next`, `node->data`) together with the
construction arguments of `hash_table_new`. -/

/-- A list node: key reference and the indices of its neighbours in the node
array of its chain (`dup_fict + dup_cur->next`). -/
structure list_node where
  data : hash_key
  next : Nat
  prev : Nat
  deriving DecidableEq, Repr

/-- A chain: `fictional` addresses the node array, whose element 0 is the
sentinel. -/
structure list where
  fictional : List list_node
  deriving DecidableEq, Repr

/-- The table: `size` chains and the hash / compare strategy. -/
structure hash_table where
  data : List list
  size : Nat
  hash_calc : List Nat → Nat
  key_cmp : List Nat → List Nat → Int

/-! ## `hash_table_rebuild` (`search.cpp`, lines 137-164) -/

/-- The inner `while (dup_cur != dup_fict)` loop of `hash_table_rebuild` on the
node array of one chain; `cur` is `dup_cur - dup_fict`. -/
def rebuild_chain : Nat → Mem → List list_node → Nat → Option Ptr →
    Except Fault (Mem × List list_node × Option Ptr)
  | 0, _, _, _, _ => .error .no_fuel
  | fuel + 1, m, nodes, cur, next_key_addr =>
    if cur = 0 then .ok (m, nodes, next_key_addr)
    else
      match nodes[cur]? with
      | none => .error .oob_read
      | some dup_cur =>
        match strlen m dup_cur.data with
        | .error e => .error e
        | .ok len =>
          let key_len := len + 1
          match memcpy m next_key_addr dup_cur.data key_len with
          | .error e => .error e
          | .ok m' =>
            rebuild_chain fuel m' (nodes.set cur { dup_cur with data := next_key_addr })
              dup_cur.next (next_key_addr.map (fun a => { a with off := a.off + key_len }))

/-- The outer `for (chain = 0; chain < HASH_TABLE_SIZE; ++chain)` loop;
`remaining` is `HASH_TABLE_SIZE - chain`. -/
def rebuild_loop (fuel : Nat) : Nat → Nat → Mem → List list → Option Ptr →
    Except Fault (Mem × List list × Option Ptr)
  | 0, _, m, data, next_key_addr => .ok (m, data, next_key_addr)
  | remaining + 1, chain, m, data, next_key_addr =>
    match data[chain]? with
    | none => .error .oob_read
    | some l =>
      match l.fictional[0]? with
      | none => .error .oob_read
      | some dup_fict =>
        match rebuild_chain fuel m l.fictional dup_fict.next next_key_addr with
        | .error e => .error e
        | .ok (m', nodes', addr') =>
          rebuild_loop fuel remaining (chain + 1) m'
            (data.set chain { l with fictional := nodes' }) addr'

/-- The function `hash_table_rebuild`.  `asserts` tells whether `log_assert`
expands to a check (it is defined in the absent `log.h`, included after
`#define NDEBUG`); `calloc_ok` is the outcome of the arena allocation.
The result is the table, the heap and the returned `new_key_store`. -/
def hash_table_rebuild (asserts calloc_ok : Bool) (fuel : Nat) (store : hash_table)
    (total_key_size : Nat) (m : Mem) : Except Fault (hash_table × Mem × Option Ptr) :=
  let a := log_calloc calloc_ok m total_key_size
  let new_key_store := a.2
  if asserts && new_key_store.isNone then .error .assertion
  else
    match rebuild_loop fuel HASH_TABLE_SIZE 0 a.1 store.data new_key_store with
    | .error e => .error e
    | .ok (m', data', _) => .ok ({ store with data := data' }, m', new_key_store)

/-! ## The table operations used by the driver

`hash_table_new`, `hash_table_push_forced`, `hash_table_find` and `hash_crc32`
live in `hash/hash_table.h` and `hash/hash.h`, which are not among the sources;
they are modelled from the specification (section 4.1 and 4.3). -/

/-- C `strcmp` on two null-terminated byte sequences (given without their
terminators). -/
def strcmp : List Nat → List Nat → Int
  | [], [] => 0
  | [], b :: _ => 0 - (b : Int)
  | a :: _, [] => (a : Int)
  | a :: as, b :: bs => if a = b then strcmp as bs else (a : Int) - (b : Int)

/-- One byte step of the bitwise reflected CRC-32 (polynomial `0xEDB88320`). -/
def crc32_step (crc b : Nat) : Nat :=
  let shift := fun (c : Nat) => if c % 2 = 1 then (c >>> 1) ^^^ 0xEDB88320 else c >>> 1
  shift (shift (shift (shift (shift (shift (shift (shift ((crc ^^^ (b % 256)) % 2 ^ 32))))))))

/-- Modelled from the spec: `hash_crc32` ("the reference choice is a CRC-32
checksum", section 4.3); the function itself is in the absent `hash/hash.h`. -/
def hash_crc32 (key : List Nat) : Nat :=
  (key.foldl crc32_step 0xFFFFFFFF) ^^^ 0xFFFFFFFF

/-- An empty chain: the sentinel alone, linked to itself. -/
def list_empty : list := ⟨[⟨none, 0, 0⟩]⟩

/-- Modelled from the spec: `hash_table_new` ("allocates `size` empty Chains
(each just a self-referencing sentinel). Fails if `size == 0` or allocation
fails"); the function is in the absent `hash/hash_table.h`. -/
def hash_table_new (alloc_ok : Bool) (size : Nat) (hash_calc : List Nat → Nat)
    (key_cmp : List Nat → List Nat → Int) : Option hash_table :=
  if size = 0 ∨ alloc_ok = false then none
  else some ⟨List.replicate size list_empty, size, hash_calc, key_cmp⟩

/-- Apply `f` to node `i` of a node array (nothing happens outside the array). -/
def node_update (nodes : List list_node) (i : Nat) (f : list_node → list_node) :
    List list_node :=
  match nodes[i]? with
  | none => nodes
  | some nd => nodes.set i (f nd)

/-- Modelled from the spec: the chain part of `insert_forced` ("prepends a new
Node referencing `key` onto that Chain, without checking for an existing equal
key").  The new node takes the next free slot of the node array and is linked
between the sentinel and the former first node. -/
def list_push_front (l : list) (key : hash_key) : list :=
  match l.fictional[0]? with
  | none => l
  | some fict =>
    let idx := l.fictional.length
    let nodes := l.fictional ++ [⟨key, fict.next, 0⟩]
    let nodes := node_update nodes fict.next (fun nd => { nd with prev := idx })
    ⟨node_update nodes 0 (fun nd => { nd with next := idx })⟩

/-- Modelled from the spec: `hash_table_push_forced`, the spec's `insert_forced`
("computes `bucket = hash_fn(key) mod size`; prepends a new Node"); the
function is in the absent `hash/hash_table.h`. -/
def hash_table_push_forced (store : hash_table) (m : Mem) (key : hash_key) :
    Except Fault hash_table :=
  match key with
  | none => .error .null_deref
  | some p =>
    match read_cstr m p with
    | none => .error .oob_read
    | some bytes =>
      let bucket := store.hash_calc bytes % store.size
      match store.data[bucket]? with
      | none => .error .oob_read
      | some l => .ok { store with data := store.data.set bucket (list_push_front l key) }

/-- The chain walk of `find`: from `cur` along `next` until a node compares
equal to `key` or the sentinel (index 0) is reached. -/
def find_chain (m : Mem) (key_cmp : List Nat → List Nat → Int) (key : List Nat) :
    Nat → List list_node → Nat → Except Fault Bool
  | 0, _, _ => .error .no_fuel
  | fuel + 1, nodes, cur =>
    if cur = 0 then .ok false
    else
      match nodes[cur]? with
      | none => .error .oob_read
      | some nd =>
        match nd.data with
        | none => .error .null_deref
        | some q =>
          match read_cstr m q with
          | none => .error .oob_read
          | some stored =>
            if key_cmp stored key = 0 then .ok true
            else find_chain m key_cmp key fuel nodes nd.next

/-- Modelled from the spec: `hash_table_find`, the spec's `find` ("computes the
same bucket index; walks the Chain from the sentinel's successor, comparing
each Node's key to `key` via `cmp_fn`, stopping at the first match (success) or
on returning to the sentinel (not found)"); the function is in the absent
`hash/hash_table.h`. -/
def hash_table_find (fuel : Nat) (store : hash_table) (m : Mem) (key : hash_key) :
    Except Fault Bool :=
  match key with
  | none => .error .null_deref
  | some p =>
    match read_cstr m p with
    | none => .error .oob_read
    | some bytes =>
      let bucket := store.hash_calc bytes % store.size
      match store.data[bucket]? with
      | none => .error .oob_read
      | some l =>
        match l.fictional[0]? with
        | none => .error .oob_read
        | some fict => find_chain m store.key_cmp bytes fuel l.fictional fict.next

/-! ## `hash_table_init` and `hash_table_search` (`search.cpp`, lines 107-133) -/

/-- The loop `for (i = 0; lexis_array[i] != nullptr; ++i) hash_table_push_forced(...)`
over the entries `lexis_array[i], lexis_array[i+1], ...`; reading past the end
of the array is a fault. -/
def push_loop (m : Mem) : hash_table → List hash_key → Except Fault hash_table
  | _, [] => .error .oob_read
  | store, none :: _ => .ok store
  | store, some p :: rest =>
    match hash_table_push_forced store m (some p) with
    | .error e => .error e
    | .ok store' => push_loop m store' rest

/-- The function `hash_table_init`; the result `none` is `nullptr`.  `verifies`
tells whether `log_verify` expands to a check (absent `log.h`, included after
`#define NVERIFY`); `hash` stands for `HASH_TABLE_HASH_CALC`. -/
def hash_table_init (verifies alloc_ok : Bool) (hash : List Nat → Nat) (m : Mem)
    (lexis_array : List hash_key) : Except Fault (Option hash_table) :=
  match hash_table_new alloc_ok HASH_TABLE_SIZE hash strcmp with
  | none =>
    if verifies then .ok none
    else
      match lexis_array with
      | [] => .error .oob_read
      | none :: _ => .ok none
      | some _ :: _ => .error .null_deref
  | some store =>
    match push_loop m store lexis_array with
    | .error e => .error e
    | .ok store' => .ok (some store')

/-- The function `hash_table_search`: one `hash_table_find` per entry up to the
end marker.  The C function discards the outcomes; they are collected here. -/
def hash_table_search (fuel : Nat) (store : hash_table) (m : Mem) :
    List hash_key → Except Fault (List Bool)
  | [] => .error .oob_read
  | none :: _ => .ok []
  | some p :: rest =>
    match hash_table_find fuel store m (some p) with
    | .error e => .error e
    | .ok found =>
      match hash_table_search fuel store m rest with
      | .error e => .error e
      | .ok founds => .ok (found :: founds)

/-! ## `lexis_array_init` (`search.cpp`, lines 168-186) -/

/-- The text buffer of the library (`buffer`): start address and size. -/
structure buffer where
  buff_beg : Option Ptr
  buff_size : Nat
  deriving DecidableEq, Repr

/-- C `strspn(s, "\n")` on the bytes from `s` to the end of its block. -/
def strspn_nl : List Nat → Option Nat
  | [] => none
  | b :: bs => if b = 10 then (strspn_nl bs).map (fun k => k + 1) else some 0

/-- C `strcspn(s, "\n")` on the bytes from `s` to the end of its block. -/
def strcspn_nl : List Nat → Option Nat
  | [] => none
  | b :: bs => if b = 0 ∨ b = 10 then some 0 else (strcspn_nl bs).map (fun k => k + 1)

/-- C `strtok(s, "\n")` with its hidden state `save` made explicit: the result
is the heap, the token (or `nullptr`) and the new saved position. -/
def strtok (m : Mem) (s : Option Ptr) (save : Option Ptr) :
    Except Fault (Mem × Option Ptr × Option Ptr) :=
  match (match s with | some p => some p | none => save) with
  | none => .error .null_deref
  | some p =>
    match m[p.blk]? with
    | none => .error .oob_read
    | some b =>
      match strspn_nl (b.drop p.off) with
      | none => .error .oob_read
      | some k =>
        let tok := p.off + k
        match b[tok]? with
        | none => .error .oob_read
        | some c =>
          if c = 0 then .ok (m, none, some ⟨p.blk, tok⟩)
          else
            match strcspn_nl (b.drop tok) with
            | none => .error .oob_read
            | some j =>
              let e := tok + j
              match b[e]? with
              | none => .error .oob_read
              | some d =>
                if d = 0 then .ok (m, some ⟨p.blk, tok⟩, some ⟨p.blk, e⟩)
                else .ok (m.set p.blk (b.set e 0), some ⟨p.blk, tok⟩, some ⟨p.blk, e + 1⟩)

/-- The assignment `lexis_array[array_ind] = lexis` on the pointer array of
`capacity` elements (`none` when the array was not allocated). -/
def lexis_write (capacity : Nat) (lexis_array : Option (List hash_key)) (array_ind : Nat)
    (lexis : hash_key) : Except Fault (List hash_key) :=
  match lexis_array with
  | none => .error .null_deref
  | some arr => if array_ind < capacity then .ok (arr.set array_ind lexis) else .error .oob_write

/-- The loop `while (lexis != nullptr)` of `lexis_array_init`, followed by the
write of the end marker. -/
def lexis_loop (capacity : Nat) : Nat → Mem → Option (List hash_key) → Nat → hash_key →
    Option Ptr → Except Fault (Mem × List hash_key)
  | 0, _, _, _, _, _ => .error .no_fuel
  | fuel + 1, m, lexis_array, array_ind, lexis, save =>
    match lexis with
    | none =>
      match lexis_write capacity lexis_array array_ind none with
      | .error e => .error e
      | .ok arr => .ok (m, arr)
    | some p =>
      match lexis_write capacity lexis_array array_ind (some p) with
      | .error e => .error e
      | .ok arr =>
        match strtok m none save with
        | .error e => .error e
        | .ok (m', lexis', save') =>
          lexis_loop capacity fuel m' (some arr) (array_ind + 1) lexis' save'

/-- The function `lexis_array_init` for an array of `capacity` pointers;
`calloc_ok` is the outcome of the allocation of the array. -/
def lexis_array_init_cap (capacity : Nat) (calloc_ok : Bool) (fuel : Nat) (m : Mem)
    (dictionary : buffer) : Except Fault (Mem × List hash_key) :=
  let lexis_array := if calloc_ok then some (List.replicate capacity (none : hash_key)) else none
  match strtok m dictionary.buff_beg none with
  | .error e => .error e
  | .ok (m', lexis, save) => lexis_loop capacity fuel m' lexis_array 0 lexis save

/-- The function `lexis_array_init`: the array holds `MAX_DICTIONARY_SIZE`
pointers. -/
def lexis_array_init (calloc_ok : Bool) (fuel : Nat) (m : Mem) (dictionary : buffer) :
    Except Fault (Mem × List hash_key) :=
  lexis_array_init_cap MAX_DICTIONARY_SIZE calloc_ok fuel m dictionary

/-- The keys of a pointer array: the entries before the first `nullptr`. -/
def lexis_keys : List hash_key → List Ptr
  | [] => []
  | none :: _ => []
  | some p :: rest => p :: lexis_keys rest

/-! ## Observations on a table

Functions that read off what a table holds: the nodes of a chain in link
order, the byte sequences their keys denote, and the bytes they occupy once
stored one after the other with their terminators. -/

/-- The node indices met from `cur` along `next` before the sentinel (index 0)
is reached; `none` if the walk leaves the node array or needs more than `fuel`
loop tests. -/
def chain_walk : Nat → List list_node → Nat → Option (List Nat)
  | 0, _, _ => none
  | fuel + 1, nodes, cur =>
    if cur = 0 then some []
    else
      match nodes[cur]? with
      | none => none
      | some nd => (chain_walk fuel nodes nd.next).map (fun p => cur :: p)

/-- The nodes of a chain in link order, starting at the sentinel's successor. -/
def list_walk (fuel : Nat) (l : list) : Option (List Nat) :=
  match l.fictional[0]? with
  | none => none
  | some fict => chain_walk fuel l.fictional fict.next

/-- The byte sequence denoted by the key of node `i`. -/
def node_key (m : Mem) (nodes : List list_node) (i : Nat) : Option (List Nat) :=
  match nodes[i]? with
  | none => none
  | some nd => key_bytes m nd.data

/-- The byte sequences denoted by the keys of the nodes `p`, in that order. -/
def walk_keys (m : Mem) (nodes : List list_node) : List Nat → Option (List (List Nat))
  | [] => some []
  | i :: p =>
    match node_key m nodes i with
    | none => none
    | some s => (walk_keys m nodes p).map (fun ss => s :: ss)

/-- The keys stored in a chain, in link order; `none` when the chain is not a
finite walk back to the sentinel over nodes with readable keys. -/
def chain_keys (m : Mem) (fuel : Nat) (l : list) : Option (List (List Nat)) :=
  match list_walk fuel l with
  | none => none
  | some p => walk_keys m l.fictional p

/-- The keys stored in a sequence of chains: chain after chain, each in link
order. -/
def table_keys (m : Mem) (fuel : Nat) : List list → Option (List (List Nat))
  | [] => some []
  | l :: ls =>
    match chain_keys m fuel l with
    | none => none
    | some ss => (table_keys m fuel ls).map (fun rest => ss ++ rest)

/-- The keys laid out one after the other, each followed by its terminator. -/
def encode : List (List Nat) → List Nat
  | [] => []
  | s :: ss => s ++ 0 :: encode ss

/-- The sum of the encoded lengths (length plus terminator) of some keys. -/
def encoded_size : List (List Nat) → Nat
  | [] => 0
  | s :: ss => s.length + 1 + encoded_size ss

/-- Node `i` gets the key reference `k`. -/
def set_key (nodes : List list_node) (i : Nat) (k : hash_key) : List list_node :=
  node_update nodes i (fun nd => { nd with data := k })

/-- The node array of a chain after its nodes `p`, holding the keys `ss`, were
given consecutive places in block `a` from offset `off` on. -/
def repoint (a : Nat) : Nat → List Nat → List (List Nat) → List list_node → List list_node
  | _, [], _, nodes => nodes
  | _, _ :: _, [], nodes => nodes
  | off, i :: p, s :: ss, nodes =>
    repoint a (off + (s.length + 1)) p ss (set_key nodes i (some ⟨a, off⟩))

/-- The chains after all their nodes were given consecutive places in block `a`
from offset `off` on, chain after chain (keys read in heap `m`). -/
def repoint_chains (m : Mem) (fuel : Nat) (a : Nat) : Nat → List list → List list
  | _, [] => []
  | off, l :: ls =>
    match list_walk fuel l, chain_keys m fuel l with
    | some p, some ss =>
      ⟨repoint a off p ss l.fictional⟩ :: repoint_chains m fuel a (off + encoded_size ss) ls
    | _, _ => l :: repoint_chains m fuel a off ls

/-- The key references held by the nodes `p`, in that order. -/
def walk_refs (nodes : List list_node) : List Nat → Option (List hash_key)
  | [] => some []
  | i :: p =>
    match nodes[i]? with
    | none => none
    | some nd => (walk_refs nodes p).map (fun ks => nd.data :: ks)

/-- The key references held by the nodes of a chain, in link order. -/
def chain_refs (fuel : Nat) (l : list) : Option (List hash_key) :=
  match list_walk fuel l with
  | none => none
  | some p => walk_refs l.fictional p

/-- The key references held by the nodes of a sequence of chains: chain after
chain, each in link order. -/
def table_refs (fuel : Nat) : List list → Option (List hash_key)
  | [] => some []
  | l :: ls =>
    match chain_refs fuel l with
    | none => none
    | some ks => (table_refs fuel ls).map (fun rest => ks ++ rest)

/-- The places of keys stored one after the other from offset `off` on. -/
def offsets : Nat → List (List Nat) → List Nat
  | _, [] => []
  | off, s :: ss => off :: offsets (off + (s.length + 1)) ss

/-! ## A small dictionary

The text `cat\ndog\ncow\nox\n`, tokenised, loaded and ready for compaction. -/

/-- The bytes of `cat\ndog\ncow\nox\n`. -/
def demo_text : List Nat := [99, 97, 116, 10, 100, 111, 103, 10, 99, 111, 119, 10, 111, 120, 10]

/-- A heap whose only block holds the text and its terminator. -/
def demo_mem : Mem := [demo_text ++ [0]]

/-- The buffer describing that block. -/
def demo_buffer : buffer := ⟨some ⟨0, 0⟩, 16⟩

/-- The heap and the pointer array after `lexis_array_init`. -/
def demo_lexis : Mem × List hash_key :=
  match lexis_array_init true 16 demo_mem demo_buffer with
  | .ok r => r
  | .error _ => ([], [])

/-- The table `hash_table_init` builds from the four keys. -/
def demo_store : hash_table :=
  match hash_table_init true true hash_crc32 demo_lexis.1 demo_lexis.2 with
  | .ok (some store) => store
  | _ => ⟨[], 0, hash_crc32, strcmp⟩

/-- The fault a run ended in, if it ended in one. -/
def fault_of {α : Type} : Except Fault α → Option Fault
  | .error e => some e
  | .ok _ => none

/-- A heap whose only block holds `cat` and its terminator. -/
def cat_mem : Mem := [[99, 97, 116, 0]]

/-- A table of one chain that holds the key `cat`, as `hash_table_new` with
size 1 and one `hash_table_push_forced` leave it. -/
def one_chain_store : hash_table :=
  match hash_table_new true 1 hash_crc32 strcmp with
  | none => ⟨[], 0, hash_crc32, strcmp⟩
  | some store =>
    match hash_table_push_forced store cat_mem (some ⟨0, 0⟩) with
    | .ok store' => store'
    | .error _ => store

/-- A heap whose only block holds `mut` and its terminator; the CRC-32 of `mut`
is `HASH_TABLE_SIZE` modulo `HASH_TABLE_SIZE + 1`. -/
def mut_mem : Mem := [[109, 117, 116, 0]]

/-- A table of `HASH_TABLE_SIZE + 1` chains, as `hash_table_new` with that size
and one `hash_table_push_forced` of `mut` leave it: the key sits in the last
chain. -/
def long_store : hash_table :=
  match hash_table_new true (HASH_TABLE_SIZE + 1) hash_crc32 strcmp with
  | none => ⟨[], 0, hash_crc32, strcmp⟩
  | some store =>
    match hash_table_push_forced store mut_mem (some ⟨0, 0⟩) with
    | .ok store' => store'
    | .error _ => store

/-- The table `hash_table_init` builds, with CRC-32, from the single key
`cat`. -/
def cat_store : hash_table :=
  match hash_table_init true true hash_crc32 cat_mem [some ⟨0, 0⟩, none] with
  | .ok (some store) => store
  | _ => ⟨[], 0, hash_crc32, strcmp⟩

/-- The table of `HASH_TABLE_SIZE` empty chains, as `hash_table_new` leaves
it. -/
def empty_store : hash_table :=
  match hash_table_new true HASH_TABLE_SIZE hash_crc32 strcmp with
  | none => ⟨[], 0, hash_crc32, strcmp⟩
  | some store => store

/-- The byte sequences denoted by some key pointers, in order; `none` if one of
them is not readable. -/
def read_keys (m : Mem) : List Ptr → Option (List (List Nat))
  | [] => some []
  | k :: ks =>
    match read_cstr m k with
    | none => none
    | some s => (read_keys m ks).map (fun ss => s :: ss)

/-- One `hash_table_push_forced` per key, in order. -/
def push_seq (m : Mem) : hash_table → List Ptr → Except Fault hash_table
  | store, [] => .ok store
  | store, k :: ks =>
    match hash_table_push_forced store m (some k) with
    | .error e => .error e
    | .ok store' => push_seq m store' ks

/-- Bucket discipline of a table that holds the keys `inserted`: it has `size`
chains, `size` is positive, and chain `c` is a finite walk over exactly the
inserted keys whose hash is `c` modulo `size`. -/
def Buckets (m : Mem) (fuel : Nat) (store : hash_table) (inserted : List (List Nat)) : Prop :=
  0 < store.size ∧ store.data.length = store.size ∧
  ∀ (c : Nat) (l : list), store.data[c]? = some l →
    ∃ ss, chain_keys m fuel l = some ss ∧
      ∀ s, s ∈ ss ↔ (s ∈ inserted ∧ store.hash_calc s % store.size = c)

/-- The value a run returned, if it returned. -/
def result_of {α : Type} : Except Fault α → Option α
  | .ok a => some a
  | .error _ => none

/-- The heap after the text `cat\ndog\ncow\nox\n` was tokenised, with a second
block that holds the key `pig`. -/
def tok_mem : Mem :=
  [[99, 97, 116, 0, 100, 111, 103, 0, 99, 111, 119, 0, 111, 120, 0, 0], [112, 105, 103, 0]]

/-- The four tokens `cat`, `dog`, `cow`, `ox` in that heap. -/
def tok_keys : List Ptr := [⟨0, 0⟩, ⟨0, 4⟩, ⟨0, 8⟩, ⟨0, 12⟩]

/-- The bytes of `cat`, `dog`, `cow`, `ox`. -/
def tok_strs : List (List Nat) := [[99, 97, 116], [100, 111, 103], [99, 111, 119], [111, 120]]

/-- The table of `size` chains with CRC-32 and `strcmp` after the four tokens
were pushed. -/
def tok_store (size : Nat) : hash_table :=
  match hash_table_new true size hash_crc32 strcmp with
  | none => ⟨[], 0, hash_crc32, strcmp⟩
  | some store =>
    match push_seq tok_mem store tok_keys with
    | .ok store' => store'
    | .error _ => store

/-- The tokens of the null-terminated text at the start of `bs`, with `\n` as
the only delimiter: the maximal runs of bytes other than `\n` before the first
zero byte. `cur` is the run read so far. -/
def tokens_aux : List Nat → List Nat → List (List Nat)
  | cur, [] => if cur = [] then [] else [cur]
  | cur, b :: bs =>
    if b = 0 then (if cur = [] then [] else [cur])
    else if b = 10 then (if cur = [] then tokens_aux [] bs else cur :: tokens_aux [] bs)
    else tokens_aux (cur ++ [b]) bs

/-- The tokens of a text. -/
def tokens (bs : List Nat) : List (List Nat) := tokens_aux [] bs

/-- The text made of the given lines, each ended by one `\n`. -/
def lines_text : List (List Nat) → List Nat
  | [] => []
  | k :: ks => k ++ 10 :: lines_text ks

/-- The pieces of a text between its newlines: the text is cut at every `\n`
(so a text with `k` newlines has `k + 1` pieces, some of them possibly
empty). -/
def split_lines : List Nat → List (List Nat)
  | [] => [[]]
  | b :: bs =>
    if b = 10 then [] :: split_lines bs
    else
      match split_lines bs with
      | [] => [[b]]
      | l :: ls => (b :: l) :: ls

/-- The pieces put together again, with one `\n` between neighbours. -/
def join_lines : List (List Nat) → List Nat
  | [] => []
  | [l] => l
  | l :: l' :: ls => l ++ 10 :: join_lines (l' :: ls)

/-- The maximal non-empty newline-free segments of a text, in text order: the
non-empty pieces between its newlines. -/
def segments (text : List Nat) : List (List Nat) :=
  (split_lines text).filter (fun l => decide (l ≠ []))

/-- A text of `MAX_DICTIONARY_SIZE` lines `a`. -/
def full_text : List Nat := lines_text (List.replicate MAX_DICTIONARY_SIZE [97])

/-- Two node arrays that differ at most in key references: they have the same
length, the same sentinel and, node by node, the same links. -/
def same_links (nodes nodes' : List list_node) : Prop :=
  nodes'.length = nodes.length ∧ nodes'[0]? = nodes[0]? ∧
  ∀ j : Nat, (nodes'[j]?).map (fun nd => (nd.next, nd.prev))
    = (nodes[j]?).map (fun nd => (nd.next, nd.prev))

/-- The table `hash_table_rebuild` makes of the table of the small
dictionary. -/
def demo_rebuilt : hash_table :=
  { demo_store with
    data := repoint_chains demo_lexis.1 2 demo_lexis.1.length 0
        (demo_store.data.take HASH_TABLE_SIZE) ++ demo_store.data.drop HASH_TABLE_SIZE }

/-! ## The copies of a run

The loops of `hash_table_rebuild` once more, with a record of the copies they
make: every `memcpy` adds the node it copies the key of (its chain and its
index in the node array) to a list. Forgetting the list gives the functions
above (`forget_copies`). -/

/-- The inner loop of `hash_table_rebuild` with the list of the nodes whose key
it copied, in the order of the copies. -/
def rebuild_chain_copies : Nat → Mem → List list_node → Nat → Option Ptr →
    Except Fault (Mem × List list_node × Option Ptr × List Nat)
  | 0, _, _, _, _ => .error .no_fuel
  | fuel + 1, m, nodes, cur, next_key_addr =>
    if cur = 0 then .ok (m, nodes, next_key_addr, [])
    else
      match nodes[cur]? with
      | none => .error .oob_read
      | some dup_cur =>
        match strlen m dup_cur.data with
        | .error e => .error e
        | .ok len =>
          let key_len := len + 1
          match memcpy m next_key_addr dup_cur.data key_len with
          | .error e => .error e
          | .ok m' =>
            match rebuild_chain_copies fuel m'
                (nodes.set cur { dup_cur with data := next_key_addr }) dup_cur.next
                (next_key_addr.map (fun a => { a with off := a.off + key_len })) with
            | .error e => .error e
            | .ok (m'', nodes'', addr'', copies) => .ok (m'', nodes'', addr'', cur :: copies)

/-- The outer loop of `hash_table_rebuild` with the list of the copies, each
given as chain and node index. -/
def rebuild_loop_copies (fuel : Nat) : Nat → Nat → Mem → List list → Option Ptr →
    Except Fault (Mem × List list × Option Ptr × List (Nat × Nat))
  | 0, _, m, data, next_key_addr => .ok (m, data, next_key_addr, [])
  | remaining + 1, chain, m, data, next_key_addr =>
    match data[chain]? with
    | none => .error .oob_read
    | some l =>
      match l.fictional[0]? with
      | none => .error .oob_read
      | some dup_fict =>
        match rebuild_chain_copies fuel m l.fictional dup_fict.next next_key_addr with
        | .error e => .error e
        | .ok (m', nodes', addr', copies) =>
          match rebuild_loop_copies fuel remaining (chain + 1) m'
              (data.set chain { l with fictional := nodes' }) addr' with
          | .error e => .error e
          | .ok (m'', data'', addr'', rest) =>
            .ok (m'', data'', addr'', copies.map (fun i => (chain, i)) ++ rest)

/-- The function `hash_table_rebuild` with the list of the copies it made. -/
def hash_table_rebuild_copies (asserts calloc_ok : Bool) (fuel : Nat) (store : hash_table)
    (total_key_size : Nat) (m : Mem) :
    Except Fault (hash_table × Mem × Option Ptr × List (Nat × Nat)) :=
  let a := log_calloc calloc_ok m total_key_size
  let new_key_store := a.2
  if asserts && new_key_store.isNone then .error .assertion
  else
    match rebuild_loop_copies fuel HASH_TABLE_SIZE 0 a.1 store.data new_key_store with
    | .error e => .error e
    | .ok (m', data', _, copies) => .ok ({ store with data := data' }, m', new_key_store, copies)

/-- A run without its record of copies. -/
def forget_copies {α β γ δ : Type} :
    Except Fault (α × β × γ × δ) → Except Fault (α × β × γ)
  | .error e => .error e
  | .ok (a, b, c, _) => .ok (a, b, c)

/-- The stored nodes of a sequence of chains, the first of which has index
`c`: chain after chain, each in link order, every node given as chain and node
index. -/
def table_nodes (fuel : Nat) : Nat → List list → Option (List (Nat × Nat))
  | _, [] => some []
  | c, l :: ls =>
    match list_walk fuel l with
    | none => none
    | some p => (table_nodes fuel (c + 1) ls).map (fun rest => p.map (fun i => (c, i)) ++ rest)

/-! ## Basic facts -/

theorem encode_length (ss : List (List Nat)) : (encode ss).length = encoded_size ss := by
  induction ss with
  | nil => rfl
  | cons s ss ih => simp [encode, encoded_size, ih]; omega

theorem encode_append (xs ys : List (List Nat)) : encode (xs ++ ys) = encode xs ++ encode ys := by
  induction xs with
  | nil => rfl
  | cons s ss ih => simp [encode, ih]

theorem encoded_size_append (xs ys : List (List Nat)) :
    encoded_size (xs ++ ys) = encoded_size xs + encoded_size ys := by
  induction xs with
  | nil => simp [encoded_size]
  | cons s ss ih => simp [encoded_size, ih]; omega

theorem cstr_append_zero (s rest : List Nat) (h : 0 ∉ s) : cstr (s ++ 0 :: rest) = some s := by
  induction s with
  | nil => simp [cstr]
  | cons b bs ih =>
    have hb : b ≠ 0 := fun hb => h (by simp [hb])
    have hbs : 0 ∉ bs := fun hm => h (List.mem_cons_of_mem _ hm)
    simp [cstr, hb, ih hbs]

theorem cstr_eq_some {bs s : List Nat} (h : cstr bs = some s) :
    0 ∉ s ∧ ∃ rest, bs = s ++ 0 :: rest := by
  induction bs generalizing s with
  | nil => simp [cstr] at h
  | cons b bs ih =>
    unfold cstr at h
    by_cases hb : b = 0
    · simp [hb] at h
      subst h
      exact ⟨by simp, bs, by simp [hb]⟩
    · simp only [hb, if_false] at h
      cases hc : cstr bs with
      | none => simp [hc] at h
      | some t =>
        simp [hc] at h
        subst h
        obtain ⟨h0, rest, hrest⟩ := ih hc
        refine ⟨?_, rest, by simp [hrest]⟩
        intro hm
        rcases List.mem_cons.mp hm with h1 | h1
        · exact hb h1.symm
        · exact h0 h1

theorem read_cstr_zero_free {m : Mem} {p : Ptr} {s : List Nat} (h : read_cstr m p = some s) :
    0 ∉ s := by
  unfold read_cstr at h
  cases hb : m[p.blk]? with
  | none => simp [hb] at h
  | some b => simp [hb] at h; exact (cstr_eq_some h).1

theorem read_cstr_blk_lt {m : Mem} {p : Ptr} {s : List Nat} (h : read_cstr m p = some s) :
    p.blk < m.length := by
  unfold read_cstr at h
  cases hb : m[p.blk]? with
  | none => simp [hb] at h
  | some b =>
    rcases Nat.lt_or_ge p.blk m.length with hlt | hge
    · exact hlt
    · simp [List.getElem?_eq_none hge] at hb

/-- Reading a key of the old heap is not affected by appending a block. -/
theorem read_cstr_append (m0 : Mem) (A : List Nat) {p : Ptr} {s : List Nat}
    (h : read_cstr m0 p = some s) : read_cstr (m0 ++ [A]) p = some s := by
  have hlt := read_cstr_blk_lt h
  unfold read_cstr at h ⊢
  rw [List.getElem?_append_left hlt]
  exact h

/-- Reading in the appended block at the start of an encoded key. -/
theorem read_cstr_arena (m0 : Mem) (W s T : List Nat) (h0 : 0 ∉ s) :
    read_cstr (m0 ++ [W ++ (s ++ 0 :: T)]) ⟨m0.length, W.length⟩ = some s := by
  unfold read_cstr
  simp [cstr_append_zero s T h0]

theorem strlen_append (m0 : Mem) (A : List Nat) {p : Ptr} {s : List Nat}
    (h : read_cstr m0 p = some s) : strlen (m0 ++ [A]) (some p) = .ok s.length := by
  simp [strlen, read_cstr_append m0 A h]

/-- The copy of one key to the free part `Z` of the arena `W ++ Z`. -/
theorem memcpy_arena (m0 : Mem) (W Z : List Nat) {q : Ptr} {s : List Nat}
    (hq : read_cstr m0 q = some s) (hfit : s.length + 1 ≤ Z.length) :
    memcpy (m0 ++ [W ++ Z]) (some ⟨m0.length, W.length⟩) (some q) (s.length + 1)
      = .ok (m0 ++ [W ++ (s ++ 0 :: Z.drop (s.length + 1))]) := by
  have hlt := read_cstr_blk_lt hq
  unfold read_cstr at hq
  cases hb : m0[q.blk]? with
  | none => simp [hb] at hq
  | some sb =>
    simp [hb] at hq
    obtain ⟨_, rest, hrest⟩ := cstr_eq_some hq
    have hlen : q.off + (s.length + 1) ≤ sb.length := by
      have h1 := congrArg List.length hrest
      simp at h1
      omega
    have htake : (sb.drop q.off).take (s.length + 1) = s ++ [0] := by
      rw [hrest]
      have : s ++ 0 :: rest = (s ++ [0]) ++ rest := by simp
      rw [this, List.take_left' (by simp)]
    unfold memcpy
    simp only [List.getElem?_append_left hlt, hb, hlen, if_true]
    have hdst : (m0 ++ [W ++ Z])[m0.length]? = some (W ++ Z) := by simp
    simp only [hdst]
    have hfit' : W.length + (s.length + 1) ≤ (W ++ Z).length := by simp; omega
    simp only [hfit', if_true, htake]
    congr 1
    simp [List.take_left', List.drop_append]

/-! ## Walks -/

theorem getElem?_set_key (nodes : List list_node) (i j : Nat) (k : hash_key) :
    (set_key nodes i k)[j]? =
      (nodes[j]?).map (fun nd => if i = j then { nd with data := k } else nd) := by
  unfold set_key node_update
  cases hi : nodes[i]? with
  | none =>
    by_cases hij : i = j
    · subst hij; simp [hi]
    · cases hj : nodes[j]? <;> simp [hij, hj]
  | some nd =>
    by_cases hij : i = j
    · subst hij
      have hlt : i < nodes.length := by
        rcases Nat.lt_or_ge i nodes.length with h | h
        · exact h
        · simp [List.getElem?_eq_none h] at hi
      simp [hi, List.getElem?_set_self hlt]
    · cases hj : nodes[j]? <;> simp [hij, hj, List.getElem?_set_ne hij]

theorem set_key_eq_set {nodes : List list_node} {i : Nat} {nd : list_node}
    (h : nodes[i]? = some nd) (k : hash_key) :
    nodes.set i { nd with data := k } = set_key nodes i k := by
  simp [set_key, node_update, h]

theorem set_key_length (nodes : List list_node) (i : Nat) (k : hash_key) :
    (set_key nodes i k).length = nodes.length := by
  unfold set_key node_update
  cases nodes[i]? <;> simp

theorem chain_walk_set_key (fuel : Nat) (nodes : List list_node) (i : Nat) (k : hash_key)
    (cur : Nat) : chain_walk fuel (set_key nodes i k) cur = chain_walk fuel nodes cur := by
  induction fuel generalizing cur with
  | zero => rfl
  | succ f ih =>
    unfold chain_walk
    by_cases hc : cur = 0
    · simp [hc]
    · simp only [hc, if_false, getElem?_set_key]
      cases hn : nodes[cur]? with
      | none => simp
      | some nd =>
        by_cases hij : i = cur
        · subst hij; simp [ih]
        · simp [hij, ih]

theorem chain_walk_det {f f' : Nat} {nodes : List list_node} {cur : Nat} {p p' : List Nat}
    (h : chain_walk f nodes cur = some p) (h' : chain_walk f' nodes cur = some p') : p = p' := by
  induction f generalizing f' cur p p' with
  | zero => simp [chain_walk] at h
  | succ f ih =>
    cases f' with
    | zero => simp [chain_walk] at h'
    | succ f' =>
      unfold chain_walk at h h'
      by_cases hc : cur = 0
      · simp [hc] at h h'; rw [h, h']
      · simp only [hc, if_false] at h h'
        cases hn : nodes[cur]? with
        | none => simp [hn] at h
        | some nd =>
          simp only [hn] at h h'
          cases hw : chain_walk f nodes nd.next with
          | none => simp [hw] at h
          | some q =>
            cases hw' : chain_walk f' nodes nd.next with
            | none => simp [hw'] at h'
            | some q' =>
              simp [hw] at h; simp [hw'] at h'
              rw [← h, ← h', ih hw hw']

/-- More fuel does not change a walk that succeeded. -/
theorem chain_walk_mono {f : Nat} {nodes : List list_node} {cur : Nat} {p : List Nat}
    (h : chain_walk f nodes cur = some p) (f' : Nat) (hf : f ≤ f') :
    chain_walk f' nodes cur = some p := by
  induction f generalizing f' cur p with
  | zero => simp [chain_walk] at h
  | succ f ih =>
    cases f' with
    | zero => omega
    | succ f' =>
      unfold chain_walk at h ⊢
      by_cases hc : cur = 0
      · simp [hc] at h ⊢; exact h
      · simp only [hc, if_false] at h ⊢
        cases hn : nodes[cur]? with
        | none => simp [hn] at h
        | some nd =>
          simp only [hn] at h ⊢
          cases hw : chain_walk f nodes nd.next with
          | none => simp [hw] at h
          | some q =>
            simp [hw] at h
            simp [ih hw f' (by omega), h]

/-- A walk needs one loop test per node and one for the sentinel. -/
theorem chain_walk_fuel {f : Nat} {nodes : List list_node} {cur : Nat} {p : List Nat}
    (h : chain_walk f nodes cur = some p) : chain_walk (p.length + 1) nodes cur = some p := by
  induction f generalizing cur p with
  | zero => simp [chain_walk] at h
  | succ f ih =>
    unfold chain_walk at h
    by_cases hc : cur = 0
    · simp [hc] at h; subst h; simp [chain_walk, hc]
    · simp only [hc, if_false] at h
      cases hn : nodes[cur]? with
      | none => simp [hn] at h
      | some nd =>
        simp only [hn] at h
        cases hw : chain_walk f nodes nd.next with
        | none => simp [hw] at h
        | some q =>
          simp [hw] at h
          subst h
          have := ih hw
          unfold chain_walk
          simp [hc, hn, this]

theorem chain_walk_suffix {f : Nat} {nodes : List list_node} {cur : Nat} {p : List Nat}
    (h : chain_walk f nodes cur = some p) {j : Nat} (hj : j ∈ p) :
    ∃ f' q, chain_walk f' nodes j = some (j :: q) ∧ q.length < p.length := by
  induction f generalizing cur p with
  | zero => simp [chain_walk] at h
  | succ f ih =>
    have h0 := h
    unfold chain_walk at h
    by_cases hc : cur = 0
    · simp [hc] at h; subst h; simp at hj
    · simp only [hc, if_false] at h
      cases hn : nodes[cur]? with
      | none => simp [hn] at h
      | some nd =>
        simp only [hn] at h
        cases hw : chain_walk f nodes nd.next with
        | none => simp [hw] at h
        | some q =>
          simp [hw] at h
          subst h
          rcases List.mem_cons.mp hj with hjc | hjq
          · subst hjc
            exact ⟨f + 1, q, h0, by simp⟩
          · obtain ⟨f', q', h1, h2⟩ := ih hw hjq
            exact ⟨f', q', h1, by simp; omega⟩

theorem chain_walk_nodup {f : Nat} {nodes : List list_node} {cur : Nat} {p : List Nat}
    (h : chain_walk f nodes cur = some p) : p.Nodup := by
  induction f generalizing cur p with
  | zero => simp [chain_walk] at h
  | succ f ih =>
    have h0 := h
    unfold chain_walk at h
    by_cases hc : cur = 0
    · simp [hc] at h; subst h; simp
    · simp only [hc, if_false] at h
      cases hn : nodes[cur]? with
      | none => simp [hn] at h
      | some nd =>
        simp only [hn] at h
        cases hw : chain_walk f nodes nd.next with
        | none => simp [hw] at h
        | some q =>
          simp [hw] at h
          subst h
          refine List.nodup_cons.mpr ⟨?_, ih hw⟩
          intro hmem
          obtain ⟨f', q', h1, h2⟩ := chain_walk_suffix hw hmem
          have := chain_walk_det h0 h1
          simp at this
          subst this
          omega

theorem chain_walk_ne_zero {f : Nat} {nodes : List list_node} {cur : Nat} {p : List Nat}
    (h : chain_walk f nodes cur = some p) : 0 ∉ p := by
  induction f generalizing cur p with
  | zero => simp [chain_walk] at h
  | succ f ih =>
    unfold chain_walk at h
    by_cases hc : cur = 0
    · simp [hc] at h; subst h; simp
    · simp only [hc, if_false] at h
      cases hn : nodes[cur]? with
      | none => simp [hn] at h
      | some nd =>
        simp only [hn] at h
        cases hw : chain_walk f nodes nd.next with
        | none => simp [hw] at h
        | some q =>
          simp [hw] at h
          subst h
          intro hmem
          rcases List.mem_cons.mp hmem with h1 | h1
          · exact hc h1.symm
          · exact ih hw h1

theorem node_key_set_key_ne (m : Mem) (nodes : List list_node) {i j : Nat} (k : hash_key)
    (h : i ≠ j) : node_key m (set_key nodes i k) j = node_key m nodes j := by
  unfold node_key
  rw [getElem?_set_key]
  cases nodes[j]? <;> simp [h]

theorem walk_keys_set_key (m : Mem) (nodes : List list_node) (i : Nat) (k : hash_key)
    (p : List Nat) (h : i ∉ p) : walk_keys m (set_key nodes i k) p = walk_keys m nodes p := by
  induction p with
  | nil => rfl
  | cons j p ih =>
    have hij : i ≠ j := fun e => h (by simp [e])
    have hp : i ∉ p := fun e => h (List.mem_cons_of_mem _ e)
    simp [walk_keys, node_key_set_key_ne m nodes k hij, ih hp]

theorem walk_keys_length {m : Mem} {nodes : List list_node} {p : List Nat}
    {ss : List (List Nat)} (h : walk_keys m nodes p = some ss) : ss.length = p.length := by
  induction p generalizing ss with
  | nil => simp [walk_keys] at h; subst h; rfl
  | cons i p ih =>
    unfold walk_keys at h
    cases hk : node_key m nodes i with
    | none => simp [hk] at h
    | some s =>
      simp only [hk] at h
      cases hw : walk_keys m nodes p with
      | none => simp [hw] at h
      | some ss' =>
        simp [hw] at h
        subst h
        simp [ih hw]

/-! ## The copy loop of one chain -/

/-- The inner loop of `hash_table_rebuild` on a chain whose walk is `p` and whose
keys, read in the old heap `m0`, are `ss`: the keys are appended to the written
part `W` of the arena and the nodes are repointed. -/
theorem rebuild_chain_spec (m0 : Mem) (fuel : Nat) :
    ∀ (nodes : List list_node) (cur : Nat) (W Z : List Nat) (p : List Nat)
      (ss : List (List Nat)),
      chain_walk fuel nodes cur = some p → walk_keys m0 nodes p = some ss →
      encoded_size ss ≤ Z.length →
      rebuild_chain fuel (m0 ++ [W ++ Z]) nodes cur (some ⟨m0.length, W.length⟩)
        = .ok (m0 ++ [W ++ (encode ss ++ Z.drop (encoded_size ss))],
            repoint m0.length W.length p ss nodes,
            some ⟨m0.length, W.length + encoded_size ss⟩) := by
  induction fuel with
  | zero => intro nodes cur W Z p ss h; simp [chain_walk] at h
  | succ f ih =>
    intro nodes cur W Z p ss hwalk hkeys hfit
    have hnd := chain_walk_nodup hwalk
    unfold chain_walk at hwalk
    unfold rebuild_chain
    by_cases hc : cur = 0
    · simp [hc] at hwalk
      subst hwalk
      simp [walk_keys] at hkeys
      subst hkeys
      simp [hc, repoint, encode, encoded_size]
    · simp only [hc, if_false] at hwalk ⊢
      cases hn : nodes[cur]? with
      | none => simp [hn] at hwalk
      | some nd =>
        simp only [hn] at hwalk ⊢
        cases hw : chain_walk f nodes nd.next with
        | none => simp [hw] at hwalk
        | some p' =>
          simp [hw] at hwalk
          subst hwalk
          unfold walk_keys at hkeys
          cases hk : node_key m0 nodes cur with
          | none => simp [hk] at hkeys
          | some s =>
            simp only [hk] at hkeys
            cases hks : walk_keys m0 nodes p' with
            | none => simp [hks] at hkeys
            | some ss' =>
              simp [hks] at hkeys
              subst hkeys
              simp only [node_key, hn, key_bytes] at hk
              cases hd : nd.data with
              | none => simp [hd] at hk
              | some q =>
                simp only [hd] at hk
                have hcur : cur ∉ p' := (List.nodup_cons.mp hnd).1
                simp only [encoded_size] at hfit
                rw [strlen_append m0 _ hk]
                simp only []
                rw [memcpy_arena m0 W Z hk (by omega)]
                simp only [Option.map]
                have hset : nodes.set cur { nd with data := some ⟨m0.length, W.length⟩ }
                    = set_key nodes cur (some ⟨m0.length, W.length⟩) := set_key_eq_set hn _
                have hmem : m0 ++ [W ++ (s ++ 0 :: Z.drop (s.length + 1))]
                    = m0 ++ [(W ++ (s ++ [0])) ++ Z.drop (s.length + 1)] := by simp
                have hlen : W.length + (s.length + 1) = (W ++ (s ++ [0])).length := by simp
                rw [hmem, hlen]
                have := ih (set_key nodes cur (some ⟨m0.length, W.length⟩)) nd.next
                  (W ++ (s ++ [0])) (Z.drop (s.length + 1)) p' ss'
                  (by rw [chain_walk_set_key]; exact hw)
                  (by rw [walk_keys_set_key _ _ _ _ _ hcur]; exact hks)
                  (by simp; omega)
                rw [hset] at *
                rw [this]
                simp [repoint, encode, encoded_size, List.drop_drop]
                omega

/-! ## The copy loop over the chains -/

theorem chain_keys_some {m : Mem} {fuel : Nat} {l : list} {ss : List (List Nat)}
    (h : chain_keys m fuel l = some ss) :
    ∃ fict p, l.fictional[0]? = some fict ∧ chain_walk fuel l.fictional fict.next = some p ∧
      list_walk fuel l = some p ∧ walk_keys m l.fictional p = some ss := by
  unfold chain_keys at h
  cases hw : list_walk fuel l with
  | none => simp [hw] at h
  | some p =>
    simp only [hw] at h
    have hw0 := hw
    unfold list_walk at hw
    cases hf : l.fictional[0]? with
    | none => simp [hf] at hw
    | some fict =>
      simp only [hf] at hw
      exact ⟨fict, p, rfl, hw, by simp [list_walk, hf, hw], h⟩

theorem table_keys_cons {m : Mem} {fuel : Nat} {l : list} {ls : List list}
    {all : List (List Nat)} (h : table_keys m fuel (l :: ls) = some all) :
    ∃ ss rest, chain_keys m fuel l = some ss ∧ table_keys m fuel ls = some rest ∧
      all = ss ++ rest := by
  unfold table_keys at h
  cases hc : chain_keys m fuel l with
  | none => simp [hc] at h
  | some ss =>
    simp only [hc] at h
    cases ht : table_keys m fuel ls with
    | none => simp [ht] at h
    | some rest =>
      simp [ht] at h
      exact ⟨ss, rest, rfl, rfl, h.symm⟩

/-- The outer loop of `hash_table_rebuild` over the chains `mid` that follow the
already treated chains `pre`. -/
theorem rebuild_loop_spec (m0 : Mem) (fuel : Nat) :
    ∀ (mid pre post : List list) (W Z : List Nat) (all : List (List Nat)),
      table_keys m0 fuel mid = some all → encoded_size all ≤ Z.length →
      rebuild_loop fuel mid.length pre.length (m0 ++ [W ++ Z]) (pre ++ (mid ++ post))
          (some ⟨m0.length, W.length⟩)
        = .ok (m0 ++ [W ++ (encode all ++ Z.drop (encoded_size all))],
            pre ++ (repoint_chains m0 fuel m0.length W.length mid ++ post),
            some ⟨m0.length, W.length + encoded_size all⟩) := by
  intro mid
  induction mid with
  | nil =>
    intro pre post W Z all hk _
    simp [table_keys] at hk
    subst hk
    simp [rebuild_loop, repoint_chains, encode, encoded_size]
  | cons l mid ih =>
    intro pre post W Z all hk hfit
    obtain ⟨ss, rest, hc, ht, hall⟩ := table_keys_cons hk
    subst hall
    obtain ⟨fict, p, hf, hw, hlw, hwk⟩ := chain_keys_some hc
    rw [encoded_size_append] at hfit
    have hget : (pre ++ (l :: mid ++ post))[pre.length]? = some l := by
      rw [List.getElem?_append_right (Nat.le_refl _)]
      simp
    simp only [List.length_cons, rebuild_loop, hget, hf]
    rw [rebuild_chain_spec m0 fuel l.fictional fict.next W Z p ss hw hwk (by omega)]
    simp only []
    have hset : (pre ++ (l :: mid ++ post)).set pre.length
          ⟨repoint m0.length W.length p ss l.fictional⟩
        = (pre ++ [⟨repoint m0.length W.length p ss l.fictional⟩]) ++ (mid ++ post) := by
      simp
    have hmem : m0 ++ [W ++ (encode ss ++ Z.drop (encoded_size ss))]
        = m0 ++ [(W ++ encode ss) ++ Z.drop (encoded_size ss)] := by simp
    have hlen : W.length + encoded_size ss = (W ++ encode ss).length := by
      simp [encode_length]
    have hpre : pre.length + 1
        = (pre ++ [(⟨repoint m0.length W.length p ss l.fictional⟩ : list)]).length := by simp
    rw [hset, hmem, hlen, hpre]
    rw [ih _ post (W ++ encode ss) (Z.drop (encoded_size ss)) rest ht (by simp; omega)]
    simp [repoint_chains, hlw, hc, encode_append, encoded_size_append, encode_length,
      List.drop_drop]
    omega

/-- What `hash_table_rebuild` computes on a table whose first `HASH_TABLE_SIZE`
chains are finite walks over readable keys `all`, when the arena can hold them:
the keys are laid out at the start of a fresh block and the nodes of those
chains are repointed into it. -/
theorem hash_table_rebuild_spec (asserts : Bool) (fuel : Nat) (store : hash_table) (n : Nat)
    (m : Mem) (all : List (List Nat)) (hsize : HASH_TABLE_SIZE ≤ store.data.length)
    (hkeys : table_keys m fuel (store.data.take HASH_TABLE_SIZE) = some all)
    (hfit : encoded_size all ≤ n) :
    hash_table_rebuild asserts true fuel store n m
      = .ok ({ store with
                data := repoint_chains m fuel m.length 0 (store.data.take HASH_TABLE_SIZE)
                  ++ store.data.drop HASH_TABLE_SIZE },
          m ++ [encode all ++ List.replicate (n - encoded_size all) 0],
          some ⟨m.length, 0⟩) := by
  have h := rebuild_loop_spec m fuel (store.data.take HASH_TABLE_SIZE) []
    (store.data.drop HASH_TABLE_SIZE) [] (List.replicate n 0) all hkeys (by simpa using hfit)
  simp only [List.length_take, Nat.min_eq_left hsize, List.nil_append, List.length_nil,
    List.take_append_drop] at h
  unfold hash_table_rebuild log_calloc
  simp only [if_true, Option.isNone_some, Bool.and_false, Bool.false_eq_true, if_false, h]
  simp

/-! ## Repointed chains -/

theorem repoint_getElem?_not_mem (a : Nat) :
    ∀ (p : List Nat) (off : Nat) (ss : List (List Nat)) (nodes : List list_node) (j : Nat),
      j ∉ p → (repoint a off p ss nodes)[j]? = nodes[j]? := by
  intro p
  induction p with
  | nil => intro off ss nodes j _; rfl
  | cons i p ih =>
    intro off ss nodes j hj
    cases ss with
    | nil => rfl
    | cons s ss =>
      have hij : i ≠ j := fun e => hj (by simp [e])
      have hp : j ∉ p := fun e => hj (List.mem_cons_of_mem _ e)
      simp only [repoint]
      rw [ih _ _ _ _ hp, getElem?_set_key]
      cases nodes[j]? <;> simp [hij]

theorem chain_walk_repoint (a fuel : Nat) :
    ∀ (p : List Nat) (off : Nat) (ss : List (List Nat)) (nodes : List list_node) (cur : Nat),
      chain_walk fuel (repoint a off p ss nodes) cur = chain_walk fuel nodes cur := by
  intro p
  induction p with
  | nil => intro off ss nodes cur; rfl
  | cons i p ih =>
    intro off ss nodes cur
    cases ss with
    | nil => rfl
    | cons s ss => simp only [repoint]; rw [ih, chain_walk_set_key]

/-- The links of a repointed node array are those of the original. -/
theorem repoint_links (a : Nat) :
    ∀ (p : List Nat) (off : Nat) (ss : List (List Nat)) (nodes : List list_node) (j : Nat),
      ((repoint a off p ss nodes)[j]?).map (fun nd => (nd.next, nd.prev))
        = (nodes[j]?).map (fun nd => (nd.next, nd.prev)) := by
  intro p
  induction p with
  | nil => intro off ss nodes j; rfl
  | cons i p ih =>
    intro off ss nodes j
    cases ss with
    | nil => rfl
    | cons s ss =>
      simp only [repoint]
      rw [ih, getElem?_set_key]
      cases nodes[j]? with
      | none => rfl
      | some nd => by_cases hij : i = j <;> simp [hij]

theorem repoint_length (a : Nat) :
    ∀ (p : List Nat) (off : Nat) (ss : List (List Nat)) (nodes : List list_node),
      (repoint a off p ss nodes).length = nodes.length := by
  intro p
  induction p with
  | nil => intro off ss nodes; rfl
  | cons i p ih =>
    intro off ss nodes
    cases ss with
    | nil => rfl
    | cons s ss => simp only [repoint]; rw [ih, set_key_length]

theorem list_walk_repoint (a fuel : Nat) (l : list) (p : List Nat) (off : Nat)
    (ss : List (List Nat)) (h : list_walk fuel l = some p) :
    list_walk fuel ⟨repoint a off p ss l.fictional⟩ = some p := by
  unfold list_walk at h ⊢
  cases hf : l.fictional[0]? with
  | none => simp [hf] at h
  | some fict =>
    simp only [hf] at h
    have h0 : 0 ∉ p := chain_walk_ne_zero h
    simp only [repoint_getElem?_not_mem a p off ss l.fictional 0 h0, hf, chain_walk_repoint]
    exact h

theorem walk_keys_cons {m : Mem} {nodes : List list_node} {i : Nat} {p : List Nat}
    {ss : List (List Nat)} (h : walk_keys m nodes (i :: p) = some ss) :
    ∃ nd q s ss', nodes[i]? = some nd ∧ nd.data = some q ∧ read_cstr m q = some s ∧
      walk_keys m nodes p = some ss' ∧ ss = s :: ss' := by
  unfold walk_keys at h
  cases hk : node_key m nodes i with
  | none => simp [hk] at h
  | some s =>
    simp only [hk] at h
    cases hw : walk_keys m nodes p with
    | none => simp [hw] at h
    | some ss' =>
      simp [hw] at h
      unfold node_key at hk
      cases hn : nodes[i]? with
      | none => simp [hn] at hk
      | some nd =>
        simp only [hn, key_bytes] at hk
        cases hd : nd.data with
        | none => simp [hd] at hk
        | some q =>
          simp only [hd] at hk
          exact ⟨nd, q, s, ss', rfl, hd, hk, rfl, h.symm⟩

/-- After the copy, the repointed nodes denote the keys they denoted in the old
heap: the arena holds `encode ss` right after its part `W`. -/
theorem walk_keys_repoint (m0 : Mem) :
    ∀ (p : List Nat) (ss : List (List Nat)) (nodes : List list_node) (W T : List Nat),
      p.Nodup → walk_keys m0 nodes p = some ss →
      walk_keys (m0 ++ [W ++ (encode ss ++ T)]) (repoint m0.length W.length p ss nodes) p
        = some ss := by
  intro p
  induction p with
  | nil =>
    intro ss nodes W T _ hk
    simp [walk_keys] at hk
    subst hk
    rfl
  | cons i p ih =>
    intro ss nodes W T hnd hk
    obtain ⟨nd, q, s, ss', hn, hd, hq, hk', hss⟩ := walk_keys_cons hk
    subst hss
    have hi : i ∉ p := (List.nodup_cons.mp hnd).1
    have hp : p.Nodup := (List.nodup_cons.mp hnd).2
    have h0 : 0 ∉ s := read_cstr_zero_free hq
    simp only [repoint, walk_keys, node_key]
    rw [repoint_getElem?_not_mem _ _ _ _ _ _ hi, getElem?_set_key, hn]
    simp only [Option.map, if_true, key_bytes]
    have hmem : m0 ++ [W ++ (encode (s :: ss') ++ T)]
        = m0 ++ [W ++ (s ++ 0 :: (encode ss' ++ T))] := by simp [encode]
    rw [hmem, read_cstr_arena m0 W s _ h0]
    have hmem2 : m0 ++ [W ++ (s ++ 0 :: (encode ss' ++ T))]
        = m0 ++ [(W ++ (s ++ [0])) ++ (encode ss' ++ T)] := by simp
    have hlen : W.length + (s.length + 1) = (W ++ (s ++ [0])).length := by simp
    rw [hmem2, hlen]
    rw [ih ss' _ (W ++ (s ++ [0])) T hp (by rw [walk_keys_set_key _ _ _ _ _ hi]; exact hk')]

/-- The repointed nodes hold consecutive places of block `a`. -/
theorem walk_refs_repoint (m0 : Mem) (a : Nat) :
    ∀ (p : List Nat) (ss : List (List Nat)) (nodes : List list_node) (off : Nat),
      p.Nodup → walk_keys m0 nodes p = some ss →
      walk_refs (repoint a off p ss nodes) p
        = some ((offsets off ss).map (fun o => some ⟨a, o⟩)) := by
  intro p
  induction p with
  | nil =>
    intro ss nodes off _ hk
    simp [walk_keys] at hk
    subst hk
    rfl
  | cons i p ih =>
    intro ss nodes off hnd hk
    obtain ⟨nd, q, s, ss', hn, hd, hq, hk', hss⟩ := walk_keys_cons hk
    subst hss
    have hi : i ∉ p := (List.nodup_cons.mp hnd).1
    have hp : p.Nodup := (List.nodup_cons.mp hnd).2
    simp only [repoint, walk_refs]
    rw [repoint_getElem?_not_mem _ _ _ _ _ _ hi, getElem?_set_key, hn]
    simp only [Option.map, if_true]
    rw [ih ss' _ _ hp (by rw [walk_keys_set_key _ _ _ _ _ hi]; exact hk')]
    simp [offsets]

/-- Chain `c` of a repointed table: its keys `ss` sit in the arena after the
keys `before` of the chains in front of it. -/
theorem repoint_chains_getElem? (m0 : Mem) (fuel a : Nat) :
    ∀ (data : List list) (off : Nat) (all : List (List Nat)) (c : Nat) (l : list),
      table_keys m0 fuel data = some all → data[c]? = some l →
      ∃ before ss after p, all = before ++ (ss ++ after) ∧ list_walk fuel l = some p ∧
        walk_keys m0 l.fictional p = some ss ∧
        (repoint_chains m0 fuel a off data)[c]?
          = some ⟨repoint a (off + encoded_size before) p ss l.fictional⟩ := by
  intro data
  induction data with
  | nil => intro off all c l _ hc; simp at hc
  | cons l0 ls ih =>
    intro off all c l hk hc
    obtain ⟨ss0, rest, hc0, ht, hall⟩ := table_keys_cons hk
    obtain ⟨fict, p0, hf, hw, hlw, hwk⟩ := chain_keys_some hc0
    cases c with
    | zero =>
      simp at hc
      subst hc
      exact ⟨[], ss0, rest, p0, by simp [hall], hlw, hwk,
        by simp [repoint_chains, hlw, hc0, encoded_size]⟩
    | succ c =>
      simp at hc
      obtain ⟨before, ss, after, p, h1, h2, h3, h4⟩ :=
        ih (off + encoded_size ss0) rest c l ht hc
      refine ⟨ss0 ++ before, ss, after, p, by simp [hall, h1], h2, h3, ?_⟩
      simp [repoint_chains, hlw, hc0, h4, encoded_size_append, Nat.add_assoc]

theorem repoint_chains_length (m0 : Mem) (fuel a : Nat) :
    ∀ (data : List list) (off : Nat),
      (repoint_chains m0 fuel a off data).length = data.length := by
  intro data
  induction data with
  | nil => intro off; rfl
  | cons l ls ih =>
    intro off
    unfold repoint_chains
    cases list_walk fuel l <;> cases chain_keys m0 fuel l <;> simp [ih]

/-! ## Whole tables -/

theorem table_keys_append {m : Mem} {fuel : Nat} :
    ∀ {xs ys : List list} {all : List (List Nat)}, table_keys m fuel (xs ++ ys) = some all →
      ∃ a b, table_keys m fuel xs = some a ∧ table_keys m fuel ys = some b ∧ all = a ++ b := by
  intro xs
  induction xs with
  | nil => intro ys all h; exact ⟨[], all, rfl, h, rfl⟩
  | cons l ls ih =>
    intro ys all h
    obtain ⟨ss, rest, hc, ht, hall⟩ := table_keys_cons h
    obtain ⟨a, b, ha, hb, hab⟩ := ih ht
    exact ⟨ss ++ a, b, by simp [table_keys, hc, ha], hb, by simp [hall, hab]⟩

theorem table_keys_getElem? {m : Mem} {fuel : Nat} :
    ∀ {data : List list} {all : List (List Nat)} {c : Nat} {l : list},
      table_keys m fuel data = some all → data[c]? = some l →
      ∃ ss, chain_keys m fuel l = some ss := by
  intro data
  induction data with
  | nil => intro all c l _ hc; simp at hc
  | cons l0 ls ih =>
    intro all c l hk hc
    obtain ⟨ss0, rest, hc0, ht, _⟩ := table_keys_cons hk
    cases c with
    | zero => simp at hc; subst hc; exact ⟨ss0, hc0⟩
    | succ c => simp at hc; exact ih ht hc

theorem walk_keys_agree {m m' : Mem} {nodes nodes' : List list_node} :
    ∀ {p : List Nat} {ss : List (List Nat)}, walk_keys m nodes p = some ss →
      walk_keys m' nodes' p = some ss →
      ∀ i ∈ p, ∃ s, node_key m nodes i = some s ∧ node_key m' nodes' i = some s := by
  intro p
  induction p with
  | nil => intro ss _ _ i hi; simp at hi
  | cons j p ih =>
    intro ss h h' i hi
    unfold walk_keys at h h'
    cases hk : node_key m nodes j with
    | none => simp [hk] at h
    | some s =>
      cases hk' : node_key m' nodes' j with
      | none => simp [hk'] at h'
      | some s' =>
        simp only [hk] at h
        simp only [hk'] at h'
        cases hw : walk_keys m nodes p with
        | none => simp [hw] at h
        | some t =>
          cases hw' : walk_keys m' nodes' p with
          | none => simp [hw'] at h'
          | some t' =>
            simp [hw] at h
            simp [hw'] at h'
            subst h
            simp at h'
            rcases List.mem_cons.mp hi with e | e
            · subst e
              exact ⟨s, hk, by rw [hk', h'.1]⟩
            · exact ih hw (by rw [hw', h'.2]) i e

theorem walk_keys_append_mem (m0 : Mem) (A : List Nat) (nodes : List list_node) :
    ∀ {p : List Nat} {ss : List (List Nat)}, walk_keys m0 nodes p = some ss →
      walk_keys (m0 ++ [A]) nodes p = some ss := by
  intro p
  induction p with
  | nil => intro ss h; exact h
  | cons i p ih =>
    intro ss h
    obtain ⟨nd, q, s, ss', hn, hd, hq, hk', hss⟩ := walk_keys_cons h
    subst hss
    simp [walk_keys, node_key, hn, key_bytes, hd, read_cstr_append m0 A hq, ih hk']

/-- The table after `hash_table_rebuild`, chain by chain: a chain in front of
`HASH_TABLE_SIZE` has its nodes repointed behind the keys `before` of the chains
in front of it. -/
theorem rebuilt_chain (m : Mem) (fuel : Nat) (data : List list) (all : List (List Nat))
    (hkeys : table_keys m fuel (data.take HASH_TABLE_SIZE) = some all) (c : Nat) (l : list)
    (hc : c < HASH_TABLE_SIZE) (hl : data[c]? = some l) :
    ∃ before ss after p, all = before ++ (ss ++ after) ∧ list_walk fuel l = some p ∧
      walk_keys m l.fictional p = some ss ∧
      (repoint_chains m fuel m.length 0 (data.take HASH_TABLE_SIZE)
          ++ data.drop HASH_TABLE_SIZE)[c]?
        = some ⟨repoint m.length (encoded_size before) p ss l.fictional⟩ := by
  have hl' : (data.take HASH_TABLE_SIZE)[c]? = some l := by
    rw [List.getElem?_take_of_lt hc]; exact hl
  obtain ⟨before, ss, after, p, h1, h2, h3, h4⟩ :=
    repoint_chains_getElem? m fuel m.length _ 0 all c l hkeys hl'
  refine ⟨before, ss, after, p, h1, h2, h3, ?_⟩
  have hlt : c < (repoint_chains m fuel m.length 0 (data.take HASH_TABLE_SIZE)).length := by
    rw [repoint_chains_length]
    rcases Nat.lt_or_ge c (data.take HASH_TABLE_SIZE).length with h | h
    · exact h
    · simp [List.getElem?_eq_none h] at hl'
  rw [List.getElem?_append_left hlt, h4]
  simp

/-- A chain at or behind `HASH_TABLE_SIZE` is not touched. -/
theorem rebuilt_chain_behind (m : Mem) (fuel : Nat) (data : List list) (c : Nat)
    (hc : HASH_TABLE_SIZE ≤ c) (hsize : HASH_TABLE_SIZE ≤ data.length) :
    (repoint_chains m fuel m.length 0 (data.take HASH_TABLE_SIZE)
        ++ data.drop HASH_TABLE_SIZE)[c]? = data[c]? := by
  generalize HASH_TABLE_SIZE = N at hc hsize ⊢
  have hlen : (repoint_chains m fuel m.length 0 (data.take N)).length
      = N := by
    rw [repoint_chains_length, List.length_take, Nat.min_eq_left hsize]
  have hle : (repoint_chains m fuel m.length 0 (data.take N)).length ≤ c := by
    rw [hlen]; exact hc
  rw [List.getElem?_append_right hle, hlen, List.getElem?_drop]
  congr 1
  exact Nat.add_sub_cancel' hc

/-! ## C1: compaction round trip -/

/-- C1. Compaction round trip: on a table with at least `HASH_TABLE_SIZE`
chains, each a finite walk over readable keys (`table_keys` is defined), and
with a size hint not below the sum of the encoded key lengths,
`hash_table_rebuild` returns, every chain has the same walk as before, and every
node on it denotes after the call the byte sequence it denoted before. -/
theorem compaction_round_trip (asserts : Bool) (fuel : Nat) (store : hash_table)
    (total_key_size : Nat) (m : Mem) (all : List (List Nat))
    (hsize : HASH_TABLE_SIZE ≤ store.data.length)
    (hkeys : table_keys m fuel store.data = some all)
    (hfit : encoded_size all ≤ total_key_size) :
    ∃ store' m' arena,
      hash_table_rebuild asserts true fuel store total_key_size m = .ok (store', m', arena) ∧
      ∀ (c : Nat) (l : list), store.data[c]? = some l →
        ∃ l', store'.data[c]? = some l' ∧ list_walk fuel l' = list_walk fuel l ∧
          ∀ p, list_walk fuel l = some p → ∀ i ∈ p,
            ∃ s, node_key m l.fictional i = some s ∧ node_key m' l'.fictional i = some s := by
  have hsplit : table_keys m fuel
      (store.data.take HASH_TABLE_SIZE ++ store.data.drop HASH_TABLE_SIZE) = some all := by
    rw [List.take_append_drop]; exact hkeys
  obtain ⟨a, b, ha, _, hab⟩ := table_keys_append hsplit
  have hfit' : encoded_size a ≤ total_key_size := by
    rw [hab, encoded_size_append] at hfit; omega
  refine ⟨_, _, _, hash_table_rebuild_spec asserts fuel store total_key_size m a hsize ha hfit',
    ?_⟩
  intro c l hl
  rcases Nat.lt_or_ge c HASH_TABLE_SIZE with hc | hc
  · obtain ⟨before, ss, after, p, h1, h2, h3, h4⟩ :=
      rebuilt_chain m fuel store.data a ha c l hc hl
    refine ⟨_, h4, ?_, ?_⟩
    · rw [h2]; exact list_walk_repoint _ _ _ _ _ _ h2
    · intro p' hp' i hi
      rw [h2] at hp'
      simp at hp'
      subst hp'
      have hnd : p.Nodup := by
        unfold list_walk at h2
        cases hf : l.fictional[0]? with
        | none => simp [hf] at h2
        | some fict => simp only [hf] at h2; exact chain_walk_nodup h2
      have hw := walk_keys_repoint m p ss l.fictional (encode before)
        (encode after ++ List.replicate (total_key_size - encoded_size a) 0) hnd h3
      have hmem : m ++ [encode a ++ List.replicate (total_key_size - encoded_size a) 0]
          = m ++ [encode before ++ (encode ss ++
              (encode after ++ List.replicate (total_key_size - encoded_size a) 0))] := by
        rw [h1]; simp [encode_append]
      rw [encode_length] at hw
      rw [hmem]
      exact walk_keys_agree h3 hw i hi
  · refine ⟨l, ?_, rfl, ?_⟩
    · show (repoint_chains m fuel m.length 0 (store.data.take HASH_TABLE_SIZE)
        ++ store.data.drop HASH_TABLE_SIZE)[c]? = some l
      rw [rebuilt_chain_behind m fuel store.data c hc hsize]; exact hl
    · intro p hp i hi
      obtain ⟨ss, hss⟩ := table_keys_getElem? hkeys hl
      unfold chain_keys at hss
      rw [hp] at hss
      exact walk_keys_agree hss (walk_keys_append_mem m _ l.fictional hss) i hi

/-- C1 at the small dictionary: the table of `cat`, `dog`, `cow`, `ox` with an
arena of 15 bytes. -/
theorem compaction_round_trip_witness :
    (HASH_TABLE_SIZE ≤ demo_store.data.length ∧
      table_keys demo_lexis.1 2 demo_store.data
        = some [[99, 97, 116], [100, 111, 103], [111, 120], [99, 111, 119]] ∧
      encoded_size [[99, 97, 116], [100, 111, 103], [111, 120], [99, 111, 119]] ≤ 15) ∧
    ∃ store' m' arena,
      hash_table_rebuild false true 2 demo_store 15 demo_lexis.1 = .ok (store', m', arena) ∧
      ∀ (c : Nat) (l : list), demo_store.data[c]? = some l →
        ∃ l', store'.data[c]? = some l' ∧ list_walk 2 l' = list_walk 2 l ∧
          ∀ p, list_walk 2 l = some p → ∀ i ∈ p,
            ∃ s, node_key demo_lexis.1 l.fictional i = some s ∧
              node_key m' l'.fictional i = some s :=
  ⟨⟨by decide!, by decide!, by decide!⟩,
    compaction_round_trip false 2 demo_store 15 demo_lexis.1
      [[99, 97, 116], [100, 111, 103], [111, 120], [99, 111, 119]] (by decide!) (by decide!)
      (by decide!)⟩

/-! ## C4: key references lie inside the arena -/

theorem offsets_append (xs ys : List (List Nat)) (off : Nat) :
    offsets off (xs ++ ys) = offsets off xs ++ offsets (off + encoded_size xs) ys := by
  induction xs generalizing off with
  | nil => simp [offsets, encoded_size]
  | cons s ss ih => simp [offsets, encoded_size, ih, Nat.add_assoc]

theorem offsets_length (ss : List (List Nat)) (off : Nat) :
    (offsets off ss).length = ss.length := by
  induction ss generalizing off with
  | nil => rfl
  | cons s ss ih => simp [offsets, ih]

theorem offsets_getElem? (ss : List (List Nat)) (off i : Nat) (hi : i < ss.length) :
    (offsets off ss)[i]? = some (off + encoded_size (ss.take i)) := by
  induction ss generalizing off i with
  | nil => simp at hi
  | cons s ss ih =>
    cases i with
    | zero => simp [offsets, encoded_size]
    | succ i =>
      simp at hi
      simp [offsets, encoded_size, ih _ _ hi, Nat.add_assoc]

theorem walk_keys_zero_free {m : Mem} {nodes : List list_node} :
    ∀ {p : List Nat} {ss : List (List Nat)}, walk_keys m nodes p = some ss →
      ∀ s ∈ ss, 0 ∉ s := by
  intro p
  induction p with
  | nil => intro ss h s hs; simp [walk_keys] at h; subst h; simp at hs
  | cons i p ih =>
    intro ss h s hs
    obtain ⟨nd, q, s0, ss', hn, hd, hq, hk', hss⟩ := walk_keys_cons h
    subst hss
    rcases List.mem_cons.mp hs with e | e
    · subst e; exact read_cstr_zero_free hq
    · exact ih hk' s e

theorem table_keys_zero_free {m : Mem} {fuel : Nat} :
    ∀ {data : List list} {all : List (List Nat)}, table_keys m fuel data = some all →
      ∀ s ∈ all, 0 ∉ s := by
  intro data
  induction data with
  | nil => intro all h s hs; simp [table_keys] at h; subst h; simp at hs
  | cons l ls ih =>
    intro all h s hs
    obtain ⟨ss, rest, hc, ht, hall⟩ := table_keys_cons h
    obtain ⟨_, p, _, _, _, hwk⟩ := chain_keys_some hc
    subst hall
    rcases List.mem_append.mp hs with e | e
    · exact walk_keys_zero_free hwk s e
    · exact ih ht s e

/-- Every place of `offsets` in an arena that holds `encode ss` after `W` is
the start of one of the keys, and the key with its terminator ends inside
`W ++ encode ss`. -/
theorem offsets_read (m0 : Mem) :
    ∀ (ss : List (List Nat)) (W T : List Nat), (∀ s ∈ ss, 0 ∉ s) →
      ∀ o ∈ offsets W.length ss, ∃ s ∈ ss,
        read_cstr (m0 ++ [W ++ (encode ss ++ T)]) ⟨m0.length, o⟩ = some s ∧
        o + (s.length + 1) ≤ W.length + encoded_size ss := by
  intro ss
  induction ss with
  | nil => intro W T _ o ho; simp [offsets] at ho
  | cons s ss ih =>
    intro W T hz o ho
    simp only [offsets] at ho
    have hmem : m0 ++ [W ++ (encode (s :: ss) ++ T)]
        = m0 ++ [W ++ (s ++ 0 :: (encode ss ++ T))] := by simp [encode]
    rcases List.mem_cons.mp ho with e | e
    · subst e
      refine ⟨s, by simp, ?_, by simp [encoded_size]⟩
      rw [hmem]
      exact read_cstr_arena m0 W s _ (hz s (by simp))
    · have hlen : W.length + (s.length + 1) = (W ++ (s ++ [0])).length := by simp
      rw [hlen] at e
      obtain ⟨s', hs', hr, hb⟩ := ih (W ++ (s ++ [0])) T
        (fun t ht => hz t (List.mem_cons_of_mem _ ht)) o e
      refine ⟨s', List.mem_cons_of_mem _ hs', ?_, ?_⟩
      · rw [hmem]
        have hmem2 : m0 ++ [W ++ (s ++ 0 :: (encode ss ++ T))]
            = m0 ++ [(W ++ (s ++ [0])) ++ (encode ss ++ T)] := by simp
        rw [hmem2]; exact hr
      · simp [encoded_size] at hb ⊢; omega

theorem chain_refs_repoint (m0 : Mem) (fuel a off : Nat) (l : list) (p : List Nat)
    (ss : List (List Nat)) (hw : list_walk fuel l = some p)
    (hk : walk_keys m0 l.fictional p = some ss) :
    chain_refs fuel ⟨repoint a off p ss l.fictional⟩
      = some ((offsets off ss).map (fun o => some ⟨a, o⟩)) := by
  have hnd : p.Nodup := by
    unfold list_walk at hw
    cases hf : l.fictional[0]? with
    | none => simp [hf] at hw
    | some fict => simp only [hf] at hw; exact chain_walk_nodup hw
  unfold chain_refs
  rw [list_walk_repoint a fuel l p off ss hw]
  exact walk_refs_repoint m0 a p ss l.fictional off hnd hk

/-- The key references of a repointed table are the consecutive places of its
keys. -/
theorem table_refs_repoint (m0 : Mem) (fuel a : Nat) :
    ∀ (data : List list) (off : Nat) (all : List (List Nat)),
      table_keys m0 fuel data = some all →
      table_refs fuel (repoint_chains m0 fuel a off data)
        = some ((offsets off all).map (fun o => some ⟨a, o⟩)) := by
  intro data
  induction data with
  | nil => intro off all h; simp [table_keys] at h; subst h; rfl
  | cons l ls ih =>
    intro off all h
    obtain ⟨ss, rest, hc, ht, hall⟩ := table_keys_cons h
    obtain ⟨_, p, _, _, hlw, hwk⟩ := chain_keys_some hc
    subst hall
    simp only [repoint_chains, hlw, hc, table_refs]
    rw [chain_refs_repoint m0 fuel a off l p ss hlw hwk, ih _ _ ht]
    simp [offsets_append]

/-- The keys of a repointed table, read in the heap that holds the arena. -/
theorem table_keys_repoint (m0 : Mem) (fuel : Nat) :
    ∀ (data : List list) (W T : List Nat) (all : List (List Nat)),
      table_keys m0 fuel data = some all →
      table_keys (m0 ++ [W ++ (encode all ++ T)]) fuel
          (repoint_chains m0 fuel m0.length W.length data) = some all := by
  intro data
  induction data with
  | nil => intro W T all h; simp [table_keys] at h; subst h; rfl
  | cons l ls ih =>
    intro W T all h
    obtain ⟨ss, rest, hc, ht, hall⟩ := table_keys_cons h
    obtain ⟨fict, p, hf, hcw, hlw, hwk⟩ := chain_keys_some hc
    subst hall
    have hnd : p.Nodup := chain_walk_nodup hcw
    simp only [repoint_chains, hlw, hc]
    simp only [table_keys, chain_keys]
    rw [list_walk_repoint m0.length fuel l p W.length ss hlw]
    simp only []
    have hmem : m0 ++ [W ++ (encode (ss ++ rest) ++ T)]
        = m0 ++ [W ++ (encode ss ++ (encode rest ++ T))] := by simp [encode_append]
    rw [hmem, walk_keys_repoint m0 p ss l.fictional W (encode rest ++ T) hnd hwk]
    have hmem2 : m0 ++ [W ++ (encode ss ++ (encode rest ++ T))]
        = m0 ++ [(W ++ encode ss) ++ (encode rest ++ T)] := by simp
    have hlen : W.length + encoded_size ss = (W ++ encode ss).length := by
      simp [encode_length]
    rw [hmem2, hlen, ih (W ++ encode ss) T rest ht]
    simp

/-- C4, as the code has it. On a table of exactly `HASH_TABLE_SIZE` chains
(finite walks over readable keys) and with a size hint not below the sum of the
encoded key lengths, `hash_table_rebuild` returns the start of a fresh block of
`total_key_size` bytes, and every node of every chain then holds a key
reference into that block whose key, terminator included, ends inside it. -/
theorem rebuilt_keys_inside_arena (asserts : Bool) (fuel : Nat) (store : hash_table)
    (total_key_size : Nat) (m : Mem) (all : List (List Nat))
    (hsize : store.data.length = HASH_TABLE_SIZE)
    (hkeys : table_keys m fuel store.data = some all)
    (hfit : encoded_size all ≤ total_key_size) :
    ∃ store' m' block refs,
      hash_table_rebuild asserts true fuel store total_key_size m
        = .ok (store', m', some ⟨m.length, 0⟩) ∧
      m'[m.length]? = some block ∧ block.length = total_key_size ∧
      table_refs fuel store'.data = some refs ∧ refs.length = all.length ∧
      ∀ k ∈ refs, ∃ off s, k = some ⟨m.length, off⟩ ∧
        read_cstr m' ⟨m.length, off⟩ = some s ∧ off + (s.length + 1) ≤ total_key_size := by
  have htake : store.data.take HASH_TABLE_SIZE = store.data := by
    rw [← hsize]; exact List.take_length _
  have hdrop : store.data.drop HASH_TABLE_SIZE = [] := by
    rw [← hsize]; exact List.drop_length _
  have hspec := hash_table_rebuild_spec asserts fuel store total_key_size m all
    (Nat.le_of_eq hsize.symm) (by rw [htake]; exact hkeys) hfit
  rw [htake, hdrop, List.append_nil] at hspec
  refine ⟨_, _, encode all ++ List.replicate (total_key_size - encoded_size all) 0,
    (offsets 0 all).map (fun o => some ⟨m.length, o⟩), hspec, by simp, ?_,
    table_refs_repoint m fuel m.length store.data 0 all hkeys, by simp [offsets_length], ?_⟩
  · simp [encode_length]; omega
  · intro k hk
    obtain ⟨o, ho, hko⟩ := List.mem_map.mp hk
    obtain ⟨s, _, hr, hb⟩ := offsets_read m all []
      (List.replicate (total_key_size - encoded_size all) 0) (table_keys_zero_free hkeys) o ho
    refine ⟨o, s, hko.symm, ?_, ?_⟩
    · simpa using hr
    · simp at hb; omega

/-- C4 at the small dictionary: the table of `cat`, `dog`, `cow`, `ox` with an
arena of 15 bytes. -/
theorem rebuilt_keys_inside_arena_witness :
    (demo_store.data.length = HASH_TABLE_SIZE ∧
      table_keys demo_lexis.1 2 demo_store.data
        = some [[99, 97, 116], [100, 111, 103], [111, 120], [99, 111, 119]] ∧
      encoded_size [[99, 97, 116], [100, 111, 103], [111, 120], [99, 111, 119]] ≤ 15) ∧
    ∃ store' m' block refs,
      hash_table_rebuild false true 2 demo_store 15 demo_lexis.1
        = .ok (store', m', some ⟨demo_lexis.1.length, 0⟩) ∧
      m'[demo_lexis.1.length]? = some block ∧ block.length = 15 ∧
      table_refs 2 store'.data = some refs ∧
      refs.length = [[99, 97, 116], [100, 111, 103], [111, 120], [99, 111, 119]].length ∧
      ∀ k ∈ refs, ∃ off s, k = some ⟨demo_lexis.1.length, off⟩ ∧
        read_cstr m' ⟨demo_lexis.1.length, off⟩ = some s ∧ off + (s.length + 1) ≤ 15 :=
  ⟨⟨by decide!, by decide!, by decide!⟩,
    rebuilt_keys_inside_arena false 2 demo_store 15 demo_lexis.1
      [[99, 97, 116], [100, 111, 103], [111, 120], [99, 111, 119]] (by decide!) (by decide!)
      (by decide!)⟩

/-- C4 as stated fails for a table whose number of chains is not
`HASH_TABLE_SIZE`.  With one chain (holding `cat`, arena of 4 bytes) the loop
goes on to `store->data[1]`, outside the table; with `HASH_TABLE_SIZE + 1`
chains (the last one holding `mut`) the call returns the arena (block 1) but
the node of the last chain still refers to the original storage (block 0). -/
theorem rebuilt_keys_inside_arena_counterexample :
    (one_chain_store.data.length = 1 ∧
      table_keys cat_mem 2 one_chain_store.data = some [[99, 97, 116]] ∧
      fault_of (hash_table_rebuild false true 2 one_chain_store 4 cat_mem)
        = some Fault.oob_read) ∧
    (long_store.data.length = HASH_TABLE_SIZE + 1 ∧
      table_keys mut_mem 2 long_store.data = some [[109, 117, 116]] ∧
      ∃ store' m',
        hash_table_rebuild false true 2 long_store 4 mut_mem = .ok (store', m', some ⟨1, 0⟩) ∧
        table_refs 2 store'.data = some [some ⟨0, 0⟩]) := by
  refine ⟨⟨by decide!, by decide!, by decide!⟩, by decide!, by decide!, ?_⟩
  have hspec := hash_table_rebuild_spec false 2 long_store 4 mut_mem []
    (by decide!) (by decide!) (by decide!)
  exact ⟨_, _, hspec, by decide!⟩

/-! ## C5: arena layout -/

theorem list_walk_repoint_chains (m0 : Mem) (fuel a : Nat) :
    ∀ (data : List list) (off : Nat) (all : List (List Nat)),
      table_keys m0 fuel data = some all →
      (repoint_chains m0 fuel a off data).map (list_walk fuel) = data.map (list_walk fuel) := by
  intro data
  induction data with
  | nil => intro off all _; rfl
  | cons l ls ih =>
    intro off all h
    obtain ⟨ss, rest, hc, ht, hall⟩ := table_keys_cons h
    obtain ⟨_, p, _, _, hlw, hwk⟩ := chain_keys_some hc
    simp only [repoint_chains, hlw, hc, List.map_cons]
    rw [list_walk_repoint a fuel l p off ss hlw, ih _ _ ht]

/-- C5. Arena layout: on a table of `HASH_TABLE_SIZE` chains holding the keys
`all` (listed chain after chain, each chain in link order from the sentinel's
successor) and with a sufficient size hint, the first `encoded_size all` bytes
of the arena returned by `hash_table_rebuild` are the keys in that order, each
followed by its terminator; the chains keep their walks, and the `i`-th node in
that order refers to the arena offset that is the sum of the encoded lengths of
the keys before it. -/
theorem arena_layout (asserts : Bool) (fuel : Nat) (store : hash_table)
    (total_key_size : Nat) (m : Mem) (all : List (List Nat))
    (hsize : store.data.length = HASH_TABLE_SIZE)
    (hkeys : table_keys m fuel store.data = some all)
    (hfit : encoded_size all ≤ total_key_size) :
    ∃ store' m' block refs,
      hash_table_rebuild asserts true fuel store total_key_size m
        = .ok (store', m', some ⟨m.length, 0⟩) ∧
      m'[m.length]? = some block ∧ block.take (encoded_size all) = encode all ∧
      store'.data.map (list_walk fuel) = store.data.map (list_walk fuel) ∧
      table_refs fuel store'.data = some refs ∧
      ∀ i, i < all.length → refs[i]? = some (some ⟨m.length, encoded_size (all.take i)⟩) := by
  have htake : store.data.take HASH_TABLE_SIZE = store.data := by
    rw [← hsize]; exact List.take_length _
  have hdrop : store.data.drop HASH_TABLE_SIZE = [] := by
    rw [← hsize]; exact List.drop_length _
  have hspec := hash_table_rebuild_spec asserts fuel store total_key_size m all
    (Nat.le_of_eq hsize.symm) (by rw [htake]; exact hkeys) hfit
  rw [htake, hdrop, List.append_nil] at hspec
  refine ⟨_, _, encode all ++ List.replicate (total_key_size - encoded_size all) 0,
    (offsets 0 all).map (fun o => some ⟨m.length, o⟩), hspec, by simp, ?_,
    list_walk_repoint_chains m fuel m.length store.data 0 all hkeys,
    table_refs_repoint m fuel m.length store.data 0 all hkeys, ?_⟩
  · rw [← encode_length]; exact List.take_left' rfl
  · intro i hi
    simp [offsets_getElem? all 0 i hi]

/-- C5 at the small dictionary: the table of `cat`, `dog`, `cow`, `ox` (chains
500, 504, 516 and 770 hold `cat`, `dog`, `ox`, `cow`) with an arena of 15
bytes. -/
theorem arena_layout_witness :
    (demo_store.data.length = HASH_TABLE_SIZE ∧
      table_keys demo_lexis.1 2 demo_store.data
        = some [[99, 97, 116], [100, 111, 103], [111, 120], [99, 111, 119]] ∧
      encoded_size [[99, 97, 116], [100, 111, 103], [111, 120], [99, 111, 119]] ≤ 15) ∧
    ∃ store' m' block refs,
      hash_table_rebuild false true 2 demo_store 15 demo_lexis.1
        = .ok (store', m', some ⟨demo_lexis.1.length, 0⟩) ∧
      m'[demo_lexis.1.length]? = some block ∧
      block.take (encoded_size [[99, 97, 116], [100, 111, 103], [111, 120], [99, 111, 119]])
        = encode [[99, 97, 116], [100, 111, 103], [111, 120], [99, 111, 119]] ∧
      store'.data.map (list_walk 2) = demo_store.data.map (list_walk 2) ∧
      table_refs 2 store'.data = some refs ∧
      ∀ i, i < [[99, 97, 116], [100, 111, 103], [111, 120], [99, 111, 119]].length →
        refs[i]? = some (some ⟨demo_lexis.1.length,
          encoded_size ([[99, 97, 116], [100, 111, 103], [111, 120], [99, 111, 119]].take i)⟩) :=
  ⟨⟨by decide!, by decide!, by decide!⟩,
    arena_layout false 2 demo_store 15 demo_lexis.1
      [[99, 97, 116], [100, 111, 103], [111, 120], [99, 111, 119]] (by decide!) (by decide!)
      (by decide!)⟩

/-! ## C6: an arena that is too small -/

theorem chain_walk_succ {f : Nat} {nodes : List list_node} {cur : Nat} {p : List Nat}
    (h : chain_walk (f + 1) nodes cur = some p) :
    (cur = 0 ∧ p = []) ∨
      (cur ≠ 0 ∧ ∃ nd p', nodes[cur]? = some nd ∧ chain_walk f nodes nd.next = some p' ∧
        p = cur :: p') := by
  unfold chain_walk at h
  by_cases hc : cur = 0
  · simp [hc] at h; exact Or.inl ⟨hc, h⟩
  · simp only [hc, if_false] at h
    cases hn : nodes[cur]? with
    | none => simp [hn] at h
    | some nd =>
      simp only [hn] at h
      cases hw : chain_walk f nodes nd.next with
      | none => simp [hw] at h
      | some p' =>
        simp [hw] at h
        exact Or.inr ⟨hc, nd, p', rfl, hw, h.symm⟩

theorem memcpy_arena_overflow (m0 : Mem) (W Z : List Nat) {q : Ptr} {s : List Nat}
    (hq : read_cstr m0 q = some s) (hbig : Z.length < s.length + 1) :
    memcpy (m0 ++ [W ++ Z]) (some ⟨m0.length, W.length⟩) (some q) (s.length + 1)
      = .error .oob_write := by
  have hlt := read_cstr_blk_lt hq
  unfold read_cstr at hq
  cases hb : m0[q.blk]? with
  | none => simp [hb] at hq
  | some sb =>
    simp [hb] at hq
    obtain ⟨_, rest, hrest⟩ := cstr_eq_some hq
    have hlen : q.off + (s.length + 1) ≤ sb.length := by
      have h1 := congrArg List.length hrest
      simp at h1
      omega
    unfold memcpy
    simp only [List.getElem?_append_left hlt, hb, hlen, if_true]
    have hdst : (m0 ++ [W ++ Z])[m0.length]? = some (W ++ Z) := by simp
    simp only [hdst]
    have hfit' : ¬ (W.length + (s.length + 1) ≤ (W ++ Z).length) := by simp; omega
    simp only [hfit', if_false]

/-- The inner loop on a chain whose keys do not fit in the free part `Z` of the
arena: some `memcpy` writes past the end of the block. -/
theorem rebuild_chain_overflow (m0 : Mem) (fuel : Nat) :
    ∀ (nodes : List list_node) (cur : Nat) (W Z : List Nat) (p : List Nat)
      (ss : List (List Nat)),
      chain_walk fuel nodes cur = some p → walk_keys m0 nodes p = some ss →
      Z.length < encoded_size ss →
      rebuild_chain fuel (m0 ++ [W ++ Z]) nodes cur (some ⟨m0.length, W.length⟩)
        = .error .oob_write := by
  induction fuel with
  | zero => intro nodes cur W Z p ss h; simp [chain_walk] at h
  | succ f ih =>
    intro nodes cur W Z p ss hwalk hkeys hbig
    have hnd := chain_walk_nodup hwalk
    rcases chain_walk_succ hwalk with ⟨_, hp⟩ | ⟨hc, nd, p', hn, hw, hp⟩
    · subst hp
      simp [walk_keys] at hkeys
      subst hkeys
      simp [encoded_size] at hbig
    · subst hp
      obtain ⟨nd', q, s, ss', hn', hd, hq, hk', hss⟩ := walk_keys_cons hkeys
      rw [hn] at hn'
      simp at hn'
      subst hn' hss
      have hcur : cur ∉ p' := (List.nodup_cons.mp hnd).1
      simp only [encoded_size] at hbig
      unfold rebuild_chain
      simp only [hc, if_false, hn, hd]
      rw [strlen_append m0 _ hq]
      simp only []
      rcases Nat.lt_or_ge Z.length (s.length + 1) with hs | hs
      · rw [memcpy_arena_overflow m0 W Z hq hs]
      · rw [memcpy_arena m0 W Z hq hs]
        simp only [Option.map]
        have hset : nodes.set cur { nd with data := some ⟨m0.length, W.length⟩ }
            = set_key nodes cur (some ⟨m0.length, W.length⟩) := set_key_eq_set hn _
        have hmem : m0 ++ [W ++ (s ++ 0 :: Z.drop (s.length + 1))]
            = m0 ++ [(W ++ (s ++ [0])) ++ Z.drop (s.length + 1)] := by simp
        have hlen : W.length + (s.length + 1) = (W ++ (s ++ [0])).length := by simp
        rw [hmem, hlen]
        have := ih (set_key nodes cur (some ⟨m0.length, W.length⟩)) nd.next
          (W ++ (s ++ [0])) (Z.drop (s.length + 1)) p' ss'
          (by rw [chain_walk_set_key]; exact hw)
          (by rw [walk_keys_set_key _ _ _ _ _ hcur]; exact hk')
          (by simp; omega)
        rw [hset] at *
        rw [this]

/-- The outer loop on chains whose keys do not fit in the free part of the
arena. -/
theorem rebuild_loop_overflow (m0 : Mem) (fuel : Nat) :
    ∀ (mid pre post : List list) (W Z : List Nat) (all : List (List Nat)),
      table_keys m0 fuel mid = some all → Z.length < encoded_size all →
      rebuild_loop fuel mid.length pre.length (m0 ++ [W ++ Z]) (pre ++ (mid ++ post))
          (some ⟨m0.length, W.length⟩)
        = .error .oob_write := by
  intro mid
  induction mid with
  | nil =>
    intro pre post W Z all hk hbig
    simp [table_keys] at hk
    subst hk
    simp [encoded_size] at hbig
  | cons l mid ih =>
    intro pre post W Z all hk hbig
    obtain ⟨ss, rest, hc, ht, hall⟩ := table_keys_cons hk
    subst hall
    obtain ⟨fict, p, hf, hw, hlw, hwk⟩ := chain_keys_some hc
    rw [encoded_size_append] at hbig
    have hget : (pre ++ (l :: mid ++ post))[pre.length]? = some l := by
      rw [List.getElem?_append_right (Nat.le_refl _)]
      simp
    simp only [List.length_cons, rebuild_loop, hget, hf]
    rcases Nat.lt_or_ge Z.length (encoded_size ss) with hs | hs
    · rw [rebuild_chain_overflow m0 fuel l.fictional fict.next W Z p ss hw hwk hs]
    · rw [rebuild_chain_spec m0 fuel l.fictional fict.next W Z p ss hw hwk hs]
      simp only []
      have hset : (pre ++ (l :: mid ++ post)).set pre.length
            ⟨repoint m0.length W.length p ss l.fictional⟩
          = (pre ++ [⟨repoint m0.length W.length p ss l.fictional⟩]) ++ (mid ++ post) := by
        simp
      have hmem : m0 ++ [W ++ (encode ss ++ Z.drop (encoded_size ss))]
          = m0 ++ [(W ++ encode ss) ++ Z.drop (encoded_size ss)] := by simp
      have hlen : W.length + encoded_size ss = (W ++ encode ss).length := by
        simp [encode_length]
      have hpre : pre.length + 1
          = (pre ++ [(⟨repoint m0.length W.length p ss l.fictional⟩ : list)]).length := by
        simp
      rw [hset, hmem, hlen, hpre]
      exact ih _ post (W ++ encode ss) (Z.drop (encoded_size ss)) rest ht (by simp; omega)

/-- What `hash_table_rebuild` does with an arena that cannot hold the keys of
the first `HASH_TABLE_SIZE` chains. -/
theorem hash_table_rebuild_overflow (asserts : Bool) (fuel : Nat) (store : hash_table)
    (n : Nat) (m : Mem) (all : List (List Nat)) (hsize : HASH_TABLE_SIZE ≤ store.data.length)
    (hkeys : table_keys m fuel (store.data.take HASH_TABLE_SIZE) = some all)
    (hbig : n < encoded_size all) :
    hash_table_rebuild asserts true fuel store n m = .error .oob_write := by
  have h := rebuild_loop_overflow m fuel (store.data.take HASH_TABLE_SIZE) []
    (store.data.drop HASH_TABLE_SIZE) [] (List.replicate n 0) all hkeys (by simpa using hbig)
  simp only [List.length_take, Nat.min_eq_left hsize, List.nil_append, List.length_nil,
    List.take_append_drop] at h
  unfold hash_table_rebuild log_calloc
  simp only [if_true, Option.isNone_some, Bool.and_false, Bool.false_eq_true, if_false, h]

/-- C6, as the code has it. `hash_table_rebuild` makes no check of the size
hint: on a table of `HASH_TABLE_SIZE` chains (finite walks over readable keys)
and with a hint strictly below the sum of the encoded key lengths, the run,
with `log_assert` compiled in or not, reaches a `memcpy` that writes past the
end of the arena. -/
theorem undersized_arena_overflows (asserts : Bool) (fuel : Nat) (store : hash_table)
    (total_key_size : Nat) (m : Mem) (all : List (List Nat))
    (hsize : store.data.length = HASH_TABLE_SIZE)
    (hkeys : table_keys m fuel store.data = some all)
    (hbig : total_key_size < encoded_size all) :
    hash_table_rebuild asserts true fuel store total_key_size m = .error .oob_write := by
  have htake : store.data.take HASH_TABLE_SIZE = store.data := by
    rw [← hsize]; exact List.take_length _
  exact hash_table_rebuild_overflow asserts fuel store total_key_size m all
    (Nat.le_of_eq hsize.symm) (by rw [htake]; exact hkeys) hbig

/-- C6 at the small dictionary: an arena of 14 bytes for keys that need 15. -/
theorem undersized_arena_overflows_witness :
    (demo_store.data.length = HASH_TABLE_SIZE ∧
      table_keys demo_lexis.1 2 demo_store.data
        = some [[99, 97, 116], [100, 111, 103], [111, 120], [99, 111, 119]] ∧
      14 < encoded_size [[99, 97, 116], [100, 111, 103], [111, 120], [99, 111, 119]]) ∧
    hash_table_rebuild true true 2 demo_store 14 demo_lexis.1 = .error .oob_write :=
  ⟨⟨by decide!, by decide!, by decide!⟩,
    undersized_arena_overflows true 2 demo_store 14 demo_lexis.1
      [[99, 97, 116], [100, 111, 103], [111, 120], [99, 111, 119]] (by decide!) (by decide!)
      (by decide!)⟩

/-- C6 as stated fails: for the table `hash_table_init` builds from the single
key `cat` (so that 4 bytes are needed) and a hint of 3 bytes, the run does not
stop at a check; it ends in a write past the end of the arena, with
`log_assert` compiled in and without. -/
theorem undersized_arena_counterexample :
    cat_store.data.length = HASH_TABLE_SIZE ∧
    table_keys cat_mem 2 cat_store.data = some [[99, 97, 116]] ∧
    fault_of (hash_table_rebuild true true 2 cat_store 3 cat_mem) = some Fault.oob_write ∧
    fault_of (hash_table_rebuild false true 2 cat_store 3 cat_mem) = some Fault.oob_write := by
  refine ⟨by decide!, by decide!, ?_, ?_⟩
  · rw [hash_table_rebuild_overflow true 2 cat_store 3 cat_mem [[99, 97, 116]] (by decide!)
      (by decide!) (by decide!)]
    rfl
  · rw [hash_table_rebuild_overflow false 2 cat_store 3 cat_mem [[99, 97, 116]] (by decide!)
      (by decide!) (by decide!)]
    rfl

/-! ## C7: the arena allocation fails -/

theorem memcpy_null (m : Mem) {q : Ptr} {s : List Nat} (hq : read_cstr m q = some s) :
    memcpy m none (some q) (s.length + 1) = .error .null_deref := by
  unfold read_cstr at hq
  cases hb : m[q.blk]? with
  | none => simp [hb] at hq
  | some sb =>
    simp [hb] at hq
    obtain ⟨_, rest, hrest⟩ := cstr_eq_some hq
    have hlen : q.off + (s.length + 1) ≤ sb.length := by
      have h1 := congrArg List.length hrest
      simp at h1
      omega
    unfold memcpy
    simp only [hb, hlen, if_true]

/-- The inner loop when `next_key_addr` is the null pointer: nothing happens on
an empty chain, and the first copy of a non-empty chain goes through the null
pointer. -/
theorem rebuild_chain_null (m : Mem) (fuel : Nat) (nodes : List list_node) (cur : Nat)
    (p : List Nat) (ss : List (List Nat)) (hw : chain_walk fuel nodes cur = some p)
    (hk : walk_keys m nodes p = some ss) :
    rebuild_chain fuel m nodes cur none
      = if p = [] then .ok (m, nodes, none) else .error .null_deref := by
  cases fuel with
  | zero => simp [chain_walk] at hw
  | succ f =>
    rcases chain_walk_succ hw with ⟨hc, hp⟩ | ⟨hc, nd, p', hn, _, hp⟩
    · subst hp
      simp [rebuild_chain, hc]
    · subst hp
      obtain ⟨nd', q, s, ss', hn', hd, hq, _, _⟩ := walk_keys_cons hk
      rw [hn] at hn'
      simp at hn'
      subst hn'
      unfold rebuild_chain
      simp only [hc, if_false, hn, hd, strlen, hq]
      rw [memcpy_null m hq]
      simp

/-- The outer loop when `next_key_addr` is the null pointer. -/
theorem rebuild_loop_null (m : Mem) (fuel : Nat) :
    ∀ (mid pre post : List list) (all : List (List Nat)),
      table_keys m fuel mid = some all →
      rebuild_loop fuel mid.length pre.length m (pre ++ (mid ++ post)) none
        = if all = [] then .ok (m, pre ++ (mid ++ post), none) else .error .null_deref := by
  intro mid
  induction mid with
  | nil =>
    intro pre post all hk
    simp [table_keys] at hk
    subst hk
    simp [rebuild_loop]
  | cons l mid ih =>
    intro pre post all hk
    obtain ⟨ss, rest, hc, ht, hall⟩ := table_keys_cons hk
    subst hall
    obtain ⟨fict, p, hf, hw, hlw, hwk⟩ := chain_keys_some hc
    have hget : (pre ++ (l :: mid ++ post))[pre.length]? = some l := by
      rw [List.getElem?_append_right (Nat.le_refl _)]
      simp
    simp only [List.length_cons, rebuild_loop, hget, hf]
    rw [rebuild_chain_null m fuel l.fictional fict.next p ss hw hwk]
    have hlen := walk_keys_length hwk
    cases p with
    | nil =>
      have hss : ss = [] := List.length_eq_zero.mp (by simpa using hlen)
      subst hss
      simp only [if_true, List.nil_append]
      have hset : (pre ++ (l :: mid ++ post)).set pre.length ⟨l.fictional⟩
          = (pre ++ [l]) ++ (mid ++ post) := by simp
      have hpre : pre.length + 1 = (pre ++ [l]).length := by simp
      rw [hset, hpre, ih (pre ++ [l]) post rest ht]
      simp
    | cons i p =>
      have hss : ss ≠ [] := by
        intro e; subst e; simp at hlen
      have : ss ++ rest ≠ [] := by
        intro e; exact hss (List.append_eq_nil.mp e).1
      simp [this]

/-- What `hash_table_rebuild` does when the arena allocation fails and
`log_assert` is compiled out. -/
theorem hash_table_rebuild_null (fuel : Nat) (store : hash_table) (n : Nat) (m : Mem)
    (all : List (List Nat)) (hsize : store.data.length = HASH_TABLE_SIZE)
    (hkeys : table_keys m fuel store.data = some all) :
    hash_table_rebuild false false fuel store n m
      = if all = [] then .ok (store, m, none) else .error .null_deref := by
  have h := rebuild_loop_null m fuel store.data [] [] all hkeys
  simp only [List.nil_append, List.length_nil, List.append_nil, hsize] at h
  unfold hash_table_rebuild log_calloc
  simp only [Bool.false_eq_true, if_false, Bool.false_and, h]
  by_cases hall : all = []
  · simp [hall]
  · simp [hall]

/-- C7, as the code has it. When the arena allocation fails,
`hash_table_rebuild` hands no failure result to its caller for a table that
holds keys: with `log_assert` compiled in the run stops at the assertion, and
with `log_assert` compiled out the first copy goes through the null pointer.
Only for a table without nodes, and `log_assert` compiled out, does the call
return; it then returns the null pointer and leaves table and heap as they
were. -/
theorem allocation_failure (fuel : Nat) (store : hash_table) (total_key_size : Nat)
    (m : Mem) (all : List (List Nat)) (hsize : store.data.length = HASH_TABLE_SIZE)
    (hkeys : table_keys m fuel store.data = some all) :
    hash_table_rebuild true false fuel store total_key_size m = .error .assertion ∧
    (all ≠ [] →
      hash_table_rebuild false false fuel store total_key_size m = .error .null_deref) ∧
    (all = [] →
      hash_table_rebuild false false fuel store total_key_size m = .ok (store, m, none)) := by
  refine ⟨?_, ?_, ?_⟩
  · simp [hash_table_rebuild, log_calloc]
  · intro hall
    rw [hash_table_rebuild_null fuel store total_key_size m all hsize hkeys]
    simp [hall]
  · intro hall
    rw [hash_table_rebuild_null fuel store total_key_size m all hsize hkeys]
    simp [hall]

/-- C7 at the small dictionary, and at the table of `HASH_TABLE_SIZE` empty
chains. -/
theorem allocation_failure_witness :
    ((demo_store.data.length = HASH_TABLE_SIZE ∧
      table_keys demo_lexis.1 2 demo_store.data
        = some [[99, 97, 116], [100, 111, 103], [111, 120], [99, 111, 119]]) ∧
      hash_table_rebuild true false 2 demo_store 15 demo_lexis.1 = .error .assertion ∧
      hash_table_rebuild false false 2 demo_store 15 demo_lexis.1 = .error .null_deref) ∧
    ((empty_store.data.length = HASH_TABLE_SIZE ∧
      table_keys cat_mem 2 empty_store.data = some []) ∧
      hash_table_rebuild false false 2 empty_store 0 cat_mem
        = .ok (empty_store, cat_mem, none)) :=
  have h1 := allocation_failure 2 demo_store 15 demo_lexis.1
    [[99, 97, 116], [100, 111, 103], [111, 120], [99, 111, 119]] (by decide!) (by decide!)
  have h2 := allocation_failure 2 empty_store 0 cat_mem [] (by decide!) (by decide!)
  ⟨⟨⟨by decide!, by decide!⟩, h1.1, h1.2.1 (by decide)⟩, ⟨by decide!, by decide!⟩, h2.2.2 rfl⟩

/-- C7 as stated fails: for the table `hash_table_init` builds from the single
key `cat` and a failing arena allocation, the call does not return to its
caller with a failure result; it ends at the assertion when `log_assert` is
compiled in, and in a write through the null pointer when it is compiled
out. -/
theorem allocation_failure_counterexample :
    cat_store.data.length = HASH_TABLE_SIZE ∧
    table_keys cat_mem 2 cat_store.data = some [[99, 97, 116]] ∧
    fault_of (hash_table_rebuild true false 2 cat_store 4 cat_mem) = some Fault.assertion ∧
    fault_of (hash_table_rebuild false false 2 cat_store 4 cat_mem)
      = some Fault.null_deref := by
  refine ⟨by decide!, by decide!, by decide!, ?_⟩
  rw [hash_table_rebuild_null 2 cat_store 4 cat_mem [[99, 97, 116]] (by decide!) (by decide!)]
  rfl

/-! ## Loading a table -/

theorem getElem?_node_update (nodes : List list_node) (i j : Nat)
    (f : list_node → list_node) :
    (node_update nodes i f)[j]? = (nodes[j]?).map (fun nd => if i = j then f nd else nd) := by
  unfold node_update
  cases hi : nodes[i]? with
  | none =>
    by_cases hij : i = j
    · subst hij; simp [hi]
    · cases hj : nodes[j]? <;> simp [hij, hj]
  | some nd =>
    by_cases hij : i = j
    · subst hij
      have hlt : i < nodes.length := by
        rcases Nat.lt_or_ge i nodes.length with h | h
        · exact h
        · simp [List.getElem?_eq_none h] at hi
      simp [hi, List.getElem?_set_self hlt]
    · cases hj : nodes[j]? <;> simp [hij, hj, List.getElem?_set_ne hij]

theorem chain_walk_congr {nodes nodes' : List list_node} :
    ∀ {f : Nat} {cur : Nat} {p : List Nat}, chain_walk f nodes cur = some p →
      (∀ i ∈ p, (nodes'[i]?).map (fun nd => nd.next) = (nodes[i]?).map (fun nd => nd.next)) →
      chain_walk f nodes' cur = some p := by
  intro f
  induction f with
  | zero => intro cur p h; simp [chain_walk] at h
  | succ f ih =>
    intro cur p h hn
    rcases chain_walk_succ h with ⟨hc, hp⟩ | ⟨hc, nd, p', hnd, hw, hp⟩
    · subst hp; simp [chain_walk, hc]
    · subst hp
      have h1 := hn cur (by simp)
      rw [hnd] at h1
      cases hnd' : nodes'[cur]? with
      | none => simp [hnd'] at h1
      | some nd' =>
        simp [hnd'] at h1
        have := ih hw (fun i hi => hn i (List.mem_cons_of_mem _ hi))
        unfold chain_walk
        simp [hc, hnd', h1, this]

theorem walk_keys_congr {m : Mem} {nodes nodes' : List list_node} :
    ∀ {p : List Nat} {ss : List (List Nat)}, walk_keys m nodes p = some ss →
      (∀ i ∈ p, (nodes'[i]?).map (fun nd => nd.data) = (nodes[i]?).map (fun nd => nd.data)) →
      walk_keys m nodes' p = some ss := by
  intro p
  induction p with
  | nil => intro ss h _; exact h
  | cons i p ih =>
    intro ss h hd
    obtain ⟨nd, q, s, ss', hn, hdq, hq, hk', hss⟩ := walk_keys_cons h
    subst hss
    have h1 := hd i (by simp)
    rw [hn] at h1
    cases hnd' : nodes'[i]? with
    | none => simp [hnd'] at h1
    | some nd' =>
      simp [hnd'] at h1
      have := ih hk' (fun j hj => hd j (List.mem_cons_of_mem _ hj))
      simp [walk_keys, node_key, hnd', h1, hdq, key_bytes, hq, this]

theorem walk_keys_node {m : Mem} {nodes : List list_node} {p : List Nat}
    {ss : List (List Nat)} (h : walk_keys m nodes p = some ss) {i : Nat} (hi : i ∈ p) :
    ∃ nd, nodes[i]? = some nd := by
  obtain ⟨s, hs, _⟩ := walk_keys_agree h h i hi
  unfold node_key at hs
  cases hn : nodes[i]? with
  | none => simp [hn] at hs
  | some nd => exact ⟨nd, rfl⟩

/-- A chain after `list_push_front`: the new key in front of the old ones. -/
theorem chain_keys_push_front (m : Mem) (fuel : Nat) (l : list) (key : hash_key)
    (s : List Nat) (ss : List (List Nat)) (hk : chain_keys m fuel l = some ss)
    (hs : key_bytes m key = some s) :
    chain_keys m (fuel + 1) (list_push_front l key) = some (s :: ss) := by
  obtain ⟨fict, p, hf, hw, _, hwk⟩ := chain_keys_some hk
  have hpos : 0 < l.fictional.length := by
    rcases Nat.lt_or_ge 0 l.fictional.length with h | h
    · exact h
    · simp [List.getElem?_eq_none h] at hf
  have hidx : (0 : Nat) ≠ l.fictional.length := by omega
  have h0 : 0 ∉ p := chain_walk_ne_zero hw
  have hlt : ∀ i ∈ p, i < l.fictional.length := by
    intro i hi
    obtain ⟨nd, hnd⟩ := walk_keys_node hwk hi
    rcases Nat.lt_or_ge i l.fictional.length with h | h
    · exact h
    · simp [List.getElem?_eq_none h] at hnd
  have hnext : ∀ i ∈ p, ((list_push_front l key).fictional[i]?).map (fun nd => nd.next)
      = (l.fictional[i]?).map (fun nd => nd.next) := by
    intro i hi
    have hi0 : (0 : Nat) ≠ i := fun e => h0 (e ▸ hi)
    simp only [list_push_front, hf, getElem?_node_update,
      List.getElem?_append_left (hlt i hi)]
    cases l.fictional[i]? with
    | none => rfl
    | some nd => by_cases hfi : fict.next = i <;> simp [hi0, hfi]
  have hdata : ∀ i ∈ p, ((list_push_front l key).fictional[i]?).map (fun nd => nd.data)
      = (l.fictional[i]?).map (fun nd => nd.data) := by
    intro i hi
    have hi0 : (0 : Nat) ≠ i := fun e => h0 (e ▸ hi)
    simp only [list_push_front, hf, getElem?_node_update,
      List.getElem?_append_left (hlt i hi)]
    cases l.fictional[i]? with
    | none => rfl
    | some nd => by_cases hfi : fict.next = i <;> simp [hi0, hfi]
  have hw' := chain_walk_congr hw hnext
  have hwk' := walk_keys_congr hwk hdata
  have hnew : ∃ nd, (list_push_front l key).fictional[l.fictional.length]? = some nd ∧
      nd.next = fict.next ∧ nd.data = key := by
    simp only [list_push_front, hf, getElem?_node_update]
    have : (l.fictional ++ [(⟨key, fict.next, 0⟩ : list_node)])[l.fictional.length]?
        = some ⟨key, fict.next, 0⟩ := by simp
    rw [this]
    by_cases hfi : fict.next = l.fictional.length <;> simp [hidx, hfi]
  obtain ⟨ndn, hndn, hnn, hnd⟩ := hnew
  have hfict : ∃ nd, (list_push_front l key).fictional[0]? = some nd ∧
      nd.next = l.fictional.length := by
    simp only [list_push_front, hf, getElem?_node_update]
    rw [List.getElem?_append_left hpos, hf]
    by_cases hfi : fict.next = 0 <;> simp [hfi]
  obtain ⟨nd0, hnd0, hn0⟩ := hfict
  unfold chain_keys list_walk
  simp only [hnd0, hn0]
  have hwalk : chain_walk (fuel + 1) (list_push_front l key).fictional l.fictional.length
      = some (l.fictional.length :: p) := by
    unfold chain_walk
    simp [Ne.symm hidx, hndn, hnn, hw']
  rw [hwalk]
  simp [walk_keys, node_key, hndn, hnd, hs, hwk']

theorem chain_keys_mono {m : Mem} {f : Nat} {l : list} {ss : List (List Nat)}
    (h : chain_keys m f l = some ss) (f' : Nat) (hf : f ≤ f') :
    chain_keys m f' l = some ss := by
  obtain ⟨fict, p, hfi, hw, _, hwk⟩ := chain_keys_some h
  unfold chain_keys list_walk
  simp [hfi, chain_walk_mono hw f' hf, hwk]

theorem table_keys_mono {m : Mem} {f : Nat} :
    ∀ {data : List list} {all : List (List Nat)}, table_keys m f data = some all →
      ∀ f', f ≤ f' → table_keys m f' data = some all := by
  intro data
  induction data with
  | nil => intro all h f' _; simpa [table_keys] using h
  | cons l ls ih =>
    intro all h f' hf
    obtain ⟨ss, rest, hc, ht, hall⟩ := table_keys_cons h
    simp [table_keys, chain_keys_mono hc f' hf, ih ht f' hf, hall]

/-- The keys of a table one of whose chains got a key in front. -/
theorem table_keys_set {m : Mem} {fuel : Nat} :
    ∀ {data : List list} {all : List (List Nat)} {c : Nat} {l l' : list} {s : List Nat}
      {ss : List (List Nat)},
      table_keys m fuel data = some all → data[c]? = some l → chain_keys m fuel l = some ss →
      chain_keys m fuel l' = some (s :: ss) →
      ∃ all', table_keys m fuel (data.set c l') = some all' ∧ all'.Perm (s :: all) := by
  intro data
  induction data with
  | nil => intro all c l l' s ss _ hc; simp at hc
  | cons l0 ls ih =>
    intro all c l l' s ss h hc hl hl'
    obtain ⟨ss0, rest, hc0, ht, hall⟩ := table_keys_cons h
    cases c with
    | zero =>
      simp at hc
      subst hc
      rw [hl] at hc0
      simp at hc0
      subst hc0
      exact ⟨(s :: ss) ++ rest, by simp [table_keys, hl', ht], by simp [hall]⟩
    | succ c =>
      simp at hc
      obtain ⟨rest', hr, hperm⟩ := ih ht hc hl hl'
      refine ⟨ss0 ++ rest', by simp [table_keys, hc0, hr], ?_⟩
      rw [hall]
      exact (List.Perm.append_left ss0 hperm).trans List.perm_middle

theorem table_keys_replicate_empty (m : Mem) (fuel n : Nat) :
    table_keys m (fuel + 1) (List.replicate n list_empty) = some [] := by
  have hempty : chain_keys m (fuel + 1) list_empty = some [] := rfl
  induction n with
  | zero => rfl
  | succ n ih =>
    rw [List.replicate_succ]
    simp only [table_keys, hempty, ih]
    rfl

/-- The table `hash_table_new` returns holds no key. -/
theorem buckets_new (m : Mem) (fuel n : Nat) (hn : 0 < n) (hash : List Nat → Nat)
    (cmp : List Nat → List Nat → Int) :
    Buckets m (fuel + 1) ⟨List.replicate n list_empty, n, hash, cmp⟩ [] := by
  refine ⟨hn, by simp, ?_⟩
  intro c l hl
  have hl' : l = list_empty := by
    rw [List.getElem?_replicate] at hl
    by_cases hc : c < n
    · simp [hc] at hl; exact hl.symm
    · simp [hc] at hl
  subst hl'
  exact ⟨[], by simp [chain_keys, list_walk, list_empty, chain_walk, walk_keys], by simp⟩

theorem buckets_mono {m : Mem} {f : Nat} {store : hash_table} {ins : List (List Nat)}
    (h : Buckets m f store ins) (f' : Nat) (hf : f ≤ f') : Buckets m f' store ins := by
  obtain ⟨h1, h2, h3⟩ := h
  refine ⟨h1, h2, ?_⟩
  intro c l hl
  obtain ⟨ss, hss, hiff⟩ := h3 c l hl
  exact ⟨ss, chain_keys_mono hss f' hf, hiff⟩

/-- One `hash_table_push_forced` on a table in bucket discipline. -/
theorem push_forced_spec (m : Mem) (fuel : Nat) (store : hash_table)
    (ins all : List (List Nat)) (q : Ptr) (s : List Nat) (hb : Buckets m fuel store ins)
    (hk : table_keys m fuel store.data = some all) (hperm : all.Perm ins)
    (hq : read_cstr m q = some s) :
    ∃ store', hash_table_push_forced store m (some q) = .ok store' ∧
      store'.size = store.size ∧ store'.hash_calc = store.hash_calc ∧
      store'.key_cmp = store.key_cmp ∧ Buckets m (fuel + 1) store' (ins ++ [s]) ∧
      ∃ all', table_keys m (fuel + 1) store'.data = some all' ∧ all'.Perm (ins ++ [s]) := by
  obtain ⟨hpos, hlen, hch⟩ := hb
  have hlt : store.hash_calc s % store.size < store.data.length := by
    rw [hlen]; exact Nat.mod_lt _ hpos
  obtain ⟨l0, hget⟩ : ∃ l0, store.data[store.hash_calc s % store.size]? = some l0 :=
    ⟨_, List.getElem?_eq_getElem hlt⟩
  obtain ⟨ss, hss, hiff⟩ := hch _ _ hget
  have hpush := chain_keys_push_front m fuel l0 (some q) s ss hss
    (by simpa [key_bytes] using hq)
  let data' := store.data.set (store.hash_calc s % store.size) (list_push_front l0 (some q))
  refine ⟨{ store with data := data' },
    by simp [hash_table_push_forced, hq, hget, data'], rfl, rfl, rfl,
    ⟨hpos, by simpa [data'] using hlen, ?_⟩, ?_⟩
  · intro c l hl
    simp only [data'] at hl
    by_cases hc : store.hash_calc s % store.size = c
    · subst hc
      rw [List.getElem?_set_self hlt] at hl
      simp at hl
      subst hl
      refine ⟨s :: ss, hpush, ?_⟩
      intro t
      simp only [List.mem_cons, List.mem_append, List.not_mem_nil, or_false, hiff t]
      constructor
      · rintro (e | ⟨h1, h2⟩)
        · subst e; exact ⟨Or.inr rfl, rfl⟩
        · exact ⟨Or.inl h1, h2⟩
      · rintro ⟨h1 | h1, h2⟩
        · exact Or.inr ⟨h1, h2⟩
        · exact Or.inl h1
    · rw [List.getElem?_set_ne hc] at hl
      obtain ⟨ss', hss', hiff'⟩ := hch c l hl
      refine ⟨ss', chain_keys_mono hss' _ (Nat.le_succ _), ?_⟩
      intro t
      simp only [List.mem_append, List.mem_singleton, hiff' t]
      constructor
      · rintro ⟨h1, h2⟩; exact ⟨Or.inl h1, h2⟩
      · rintro ⟨h1 | h1, h2⟩
        · exact ⟨h1, h2⟩
        · subst h1; exact absurd h2 hc
  · obtain ⟨all', h1, h2⟩ := table_keys_set (table_keys_mono hk _ (Nat.le_succ _)) hget
      (chain_keys_mono hss _ (Nat.le_succ _)) hpush
    refine ⟨all', h1, ?_⟩
    refine h2.trans ?_
    refine (List.Perm.cons s hperm).trans ?_
    exact (List.perm_append_singleton s ins).symm

theorem read_keys_cons {m : Mem} {k : Ptr} {ks : List Ptr} {strs : List (List Nat)}
    (h : read_keys m (k :: ks) = some strs) :
    ∃ s rest, read_cstr m k = some s ∧ read_keys m ks = some rest ∧ strs = s :: rest := by
  unfold read_keys at h
  cases hk : read_cstr m k with
  | none => simp [hk] at h
  | some s =>
    simp only [hk] at h
    cases hr : read_keys m ks with
    | none => simp [hr] at h
    | some rest =>
      simp [hr] at h
      exact ⟨s, rest, rfl, rfl, h.symm⟩

theorem read_keys_length {m : Mem} :
    ∀ {ks : List Ptr} {strs : List (List Nat)}, read_keys m ks = some strs →
      strs.length = ks.length := by
  intro ks
  induction ks with
  | nil => intro strs h; simp [read_keys] at h; subst h; rfl
  | cons k ks ih =>
    intro strs h
    obtain ⟨s, rest, _, hr, hs⟩ := read_keys_cons h
    subst hs
    simp [ih hr]

theorem read_keys_mem {m : Mem} :
    ∀ {ks : List Ptr} {strs : List (List Nat)}, read_keys m ks = some strs →
      ∀ k ∈ ks, ∃ s ∈ strs, read_cstr m k = some s := by
  intro ks
  induction ks with
  | nil => intro strs _ k hk; simp at hk
  | cons k0 ks ih =>
    intro strs h k hk
    obtain ⟨s, rest, h0, hr, hs⟩ := read_keys_cons h
    subst hs
    rcases List.mem_cons.mp hk with e | e
    · subst e; exact ⟨s, by simp, h0⟩
    · obtain ⟨t, ht, hkt⟩ := ih hr k e
      exact ⟨t, List.mem_cons_of_mem _ ht, hkt⟩

/-- The loading loop of `hash_table_init` on a table in bucket discipline: one
push per key up to the end marker, whatever follows the marker. -/
theorem push_loop_spec (m : Mem) :
    ∀ (keys : List Ptr) (strs : List (List Nat)) (rest : List hash_key) (fuel : Nat)
      (store : hash_table) (ins all : List (List Nat)),
      read_keys m keys = some strs → Buckets m fuel store ins →
      table_keys m fuel store.data = some all → all.Perm ins →
      ∃ store', push_loop m store (keys.map some ++ none :: rest) = .ok store' ∧
        push_seq m store keys = .ok store' ∧
        store'.size = store.size ∧ store'.hash_calc = store.hash_calc ∧
        store'.key_cmp = store.key_cmp ∧ Buckets m (fuel + keys.length) store' (ins ++ strs) ∧
        ∃ all', table_keys m (fuel + keys.length) store'.data = some all' ∧
          all'.Perm (ins ++ strs) := by
  intro keys
  induction keys with
  | nil =>
    intro strs rest fuel store ins all hr hb hk hperm
    simp [read_keys] at hr
    subst hr
    exact ⟨store, by simp [push_loop], by simp [push_seq], rfl, rfl, rfl, by simpa using hb,
      all, by simpa using hk, by simpa using hperm⟩
  | cons k ks ih =>
    intro strs rest fuel store ins all hr hb hk hperm
    obtain ⟨s, strs', hks, hr', hs⟩ := read_keys_cons hr
    subst hs
    obtain ⟨store1, hp1, hsz1, hh1, hc1, hb1, all1, hk1, hperm1⟩ :=
      push_forced_spec m fuel store ins all k s hb hk hperm hks
    obtain ⟨store2, hp2, hq2, hsz2, hh2, hc2, hb2, all2, hk2, hperm2⟩ :=
      ih strs' rest (fuel + 1) store1 (ins ++ [s]) all1 hr' hb1 hk1 hperm1
    have hf : fuel + 1 + ks.length = fuel + (k :: ks).length := by simp; omega
    have happ : ins ++ [s] ++ strs' = ins ++ s :: strs' := by simp
    rw [hf, happ] at hb2
    rw [hf] at hk2
    rw [happ] at hperm2
    exact ⟨store2, by simp [push_loop, hp1, hp2], by simp [push_seq, hp1, hq2],
      by rw [hsz2, hsz1], by rw [hh2, hh1], by rw [hc2, hc1], hb2, all2, hk2, hperm2⟩

theorem hash_table_new_eq (n : Nat) (hn : 0 < n) (hash : List Nat → Nat)
    (cmp : List Nat → List Nat → Int) :
    hash_table_new true n hash cmp = some ⟨List.replicate n list_empty, n, hash, cmp⟩ := by
  have : n ≠ 0 := by omega
  simp [hash_table_new, this]

/-- Loading keys into a fresh table of `n` chains. -/
theorem load_spec (m : Mem) (n : Nat) (hn : 0 < n) (hash : List Nat → Nat)
    (cmp : List Nat → List Nat → Int) (keys : List Ptr) (strs : List (List Nat))
    (rest : List hash_key) (hr : read_keys m keys = some strs) :
    ∃ store, push_loop m ⟨List.replicate n list_empty, n, hash, cmp⟩
        (keys.map some ++ none :: rest) = .ok store ∧
      push_seq m ⟨List.replicate n list_empty, n, hash, cmp⟩ keys = .ok store ∧
      store.size = n ∧ store.hash_calc = hash ∧ store.key_cmp = cmp ∧
      Buckets m (keys.length + 1) store strs ∧
      ∃ all, table_keys m (keys.length + 1) store.data = some all ∧ all.Perm strs := by
  obtain ⟨store, h1, h2, h3, h4, h5, h6, all, h7, h8⟩ :=
    push_loop_spec m keys strs rest 1 ⟨List.replicate n list_empty, n, hash, cmp⟩ [] []
      hr (buckets_new m 0 n hn hash cmp) (table_keys_replicate_empty m 0 n) (List.Perm.refl _)
  rw [Nat.add_comm] at h6 h7
  simp only [List.nil_append] at h6 h8
  exact ⟨store, h1, h2, h3, h4, h5, h6, all, h7, h8⟩

theorem hash_table_size_pos : 0 < HASH_TABLE_SIZE := by decide

/-- The table `hash_table_init` builds from readable keys. -/
theorem hash_table_init_spec (verifies : Bool) (hash : List Nat → Nat) (m : Mem)
    (keys : List Ptr) (strs : List (List Nat)) (rest : List hash_key)
    (hr : read_keys m keys = some strs) :
    ∃ store, hash_table_init verifies true hash m (keys.map some ++ none :: rest)
        = .ok (some store) ∧
      push_seq m ⟨List.replicate HASH_TABLE_SIZE list_empty, HASH_TABLE_SIZE, hash, strcmp⟩ keys
        = .ok store ∧
      store.size = HASH_TABLE_SIZE ∧ store.hash_calc = hash ∧ store.key_cmp = strcmp ∧
      Buckets m (keys.length + 1) store strs ∧
      ∃ all, table_keys m (keys.length + 1) store.data = some all ∧ all.Perm strs := by
  obtain ⟨store, h1, h2, h3, h4, h5, h6, all, h7, h8⟩ :=
    load_spec m HASH_TABLE_SIZE hash_table_size_pos hash strcmp keys strs rest hr
  refine ⟨store, ?_, h2, h3, h4, h5, h6, all, h7, h8⟩
  unfold hash_table_init
  rw [hash_table_new_eq HASH_TABLE_SIZE hash_table_size_pos]
  simp only [h1]

/-! ## Lookups -/

theorem strcmp_eq_zero :
    ∀ (a b : List Nat), 0 ∉ a → 0 ∉ b → (strcmp a b = 0 ↔ a = b) := by
  intro a
  induction a with
  | nil =>
    intro b _ hb
    cases b with
    | nil => simp [strcmp]
    | cons y ys =>
      have hy : y ≠ 0 := fun e => hb (by simp [e])
      simp [strcmp]
      omega
  | cons x xs ih =>
    intro b ha hb
    have hx : x ≠ 0 := fun e => ha (by simp [e])
    have hxs : 0 ∉ xs := fun e => ha (List.mem_cons_of_mem _ e)
    cases b with
    | nil =>
      simp [strcmp]
      omega
    | cons y ys =>
      have hys : 0 ∉ ys := fun e => hb (List.mem_cons_of_mem _ e)
      unfold strcmp
      by_cases hxy : x = y
      · simp [hxy, ih ys hxs hys]
      · simp [hxy]
        omega

/-- The chain walk of `find` on a chain whose keys are `ss`. -/
theorem find_chain_spec (m : Mem) (cmp : List Nat → List Nat → Int) (key : List Nat) :
    ∀ (fuel : Nat) (nodes : List list_node) (cur : Nat) (p : List Nat)
      (ss : List (List Nat)),
      chain_walk fuel nodes cur = some p → walk_keys m nodes p = some ss →
      find_chain m cmp key fuel nodes cur = .ok (ss.any (fun t => decide (cmp t key = 0))) := by
  intro fuel
  induction fuel with
  | zero => intro nodes cur p ss h; simp [chain_walk] at h
  | succ f ih =>
    intro nodes cur p ss hw hk
    rcases chain_walk_succ hw with ⟨hc, hp⟩ | ⟨hc, nd, p', hn, hw', hp⟩
    · subst hp
      simp [walk_keys] at hk
      subst hk
      simp [find_chain, hc]
    · subst hp
      obtain ⟨nd', q, s, ss', hn', hd, hq, hk', hss⟩ := walk_keys_cons hk
      rw [hn] at hn'
      simp at hn'
      subst hn' hss
      unfold find_chain
      simp only [hc, if_false, hn, hd, hq]
      by_cases hcmp : cmp s key = 0
      · simp [hcmp]
      · simp [hcmp, ih nodes nd.next p' ss' hw' hk']

theorem chain_keys_zero_free {m : Mem} {fuel : Nat} {l : list} {ss : List (List Nat)}
    (h : chain_keys m fuel l = some ss) : ∀ s ∈ ss, 0 ∉ s := by
  obtain ⟨_, p, _, _, _, hwk⟩ := chain_keys_some h
  exact walk_keys_zero_free hwk

/-- The lookup `hash_table_find` on a table in bucket discipline that compares with
`strcmp`: the key is found exactly when its bytes were inserted. -/
theorem hash_table_find_spec (m : Mem) (fuel : Nat) (store : hash_table)
    (ins : List (List Nat)) (k : Ptr) (s : List Nat) (hb : Buckets m fuel store ins)
    (hcmp : store.key_cmp = strcmp) (hk : read_cstr m k = some s) :
    hash_table_find fuel store m (some k) = .ok (decide (s ∈ ins)) := by
  obtain ⟨hpos, hlen, hch⟩ := hb
  have hlt : store.hash_calc s % store.size < store.data.length := by
    rw [hlen]; exact Nat.mod_lt _ hpos
  obtain ⟨l, hget⟩ : ∃ l, store.data[store.hash_calc s % store.size]? = some l :=
    ⟨_, List.getElem?_eq_getElem hlt⟩
  obtain ⟨ss, hss, hiff⟩ := hch _ _ hget
  obtain ⟨fict, p, hf, hw, _, hwk⟩ := chain_keys_some hss
  have hz := chain_keys_zero_free hss
  have hs0 := read_cstr_zero_free hk
  unfold hash_table_find
  simp only [hk, hget, hf]
  rw [find_chain_spec m store.key_cmp s fuel l.fictional fict.next p ss hw hwk, hcmp]
  congr 1
  rw [Bool.eq_iff_iff]
  simp only [List.any_eq_true, decide_eq_true_eq]
  constructor
  · rintro ⟨t, ht, hts⟩
    have := (strcmp_eq_zero t s (hz t ht) hs0).mp hts
    subst this
    exact ((hiff t).mp ht).1
  · intro hin
    exact ⟨s, (hiff s).mpr ⟨hin, rfl⟩, (strcmp_eq_zero s s hs0 hs0).mpr rfl⟩

theorem encoded_size_perm {xs ys : List (List Nat)} (h : xs.Perm ys) :
    encoded_size xs = encoded_size ys := by
  induction h with
  | nil => rfl
  | cons x _ ih => simp [encoded_size, ih]
  | swap x y l => simp [encoded_size]; omega
  | trans _ _ ih1 ih2 => rw [ih1, ih2]

/-- Compaction keeps the bucket discipline: the table it returns holds the same
keys in the same chains, read in the heap with the arena. -/
theorem rebuild_keeps_buckets (asserts : Bool) (fuel : Nat) (store : hash_table) (n : Nat)
    (m : Mem) (all ins : List (List Nat)) (hb : Buckets m fuel store ins)
    (hsize : HASH_TABLE_SIZE ≤ store.data.length)
    (hkeys : table_keys m fuel store.data = some all) (hfit : encoded_size all ≤ n) :
    ∃ store' A, hash_table_rebuild asserts true fuel store n m
        = .ok (store', m ++ [A], some ⟨m.length, 0⟩) ∧
      store'.key_cmp = store.key_cmp ∧ Buckets (m ++ [A]) fuel store' ins := by
  have hsplit : table_keys m fuel
      (store.data.take HASH_TABLE_SIZE ++ store.data.drop HASH_TABLE_SIZE) = some all := by
    rw [List.take_append_drop]; exact hkeys
  obtain ⟨a, b, ha, _, hab⟩ := table_keys_append hsplit
  have hfit' : encoded_size a ≤ n := by
    rw [hab, encoded_size_append] at hfit; omega
  obtain ⟨hpos, hlen, hch⟩ := hb
  refine ⟨_, _, hash_table_rebuild_spec asserts fuel store n m a hsize ha hfit', rfl, hpos, ?_,
    ?_⟩
  · simp only [List.length_append, repoint_chains_length, List.length_take, List.length_drop]
    omega
  · intro c l' hl'
    simp only at hl'
    rcases Nat.lt_or_ge c HASH_TABLE_SIZE with hc | hc
    · have hclt : c < store.data.length := Nat.lt_of_lt_of_le hc hsize
      obtain ⟨l, hl⟩ : ∃ l, store.data[c]? = some l := ⟨_, List.getElem?_eq_getElem hclt⟩
      obtain ⟨ss0, hss0, hiff⟩ := hch c l hl
      obtain ⟨before, ss, after, p, h1, h2, h3, h4⟩ :=
        rebuilt_chain m fuel store.data a ha c l hc hl
      rw [h4] at hl'
      simp at hl'
      subst hl'
      have hss : ss0 = ss := by
        unfold chain_keys at hss0
        rw [h2] at hss0
        simp only [] at hss0
        rw [h3] at hss0
        exact (Option.some.inj hss0).symm
      subst hss
      refine ⟨ss0, ?_, hiff⟩
      have hnd : p.Nodup := by
        unfold list_walk at h2
        cases hf : l.fictional[0]? with
        | none => simp [hf] at h2
        | some fict => simp only [hf] at h2; exact chain_walk_nodup h2
      have hw := walk_keys_repoint m p ss0 l.fictional (encode before)
        (encode after ++ List.replicate (n - encoded_size a) 0) hnd h3
      have hmem : m ++ [encode a ++ List.replicate (n - encoded_size a) 0]
          = m ++ [encode before ++ (encode ss0 ++
              (encode after ++ List.replicate (n - encoded_size a) 0))] := by
        rw [h1]; simp [encode_append]
      rw [encode_length] at hw
      unfold chain_keys
      rw [list_walk_repoint _ _ _ _ _ _ h2]
      simp only []
      rw [hmem]
      exact hw
    · rw [rebuilt_chain_behind m fuel store.data c hc hsize] at hl'
      obtain ⟨ss0, hss0, hiff⟩ := hch c l' hl'
      refine ⟨ss0, ?_, hiff⟩
      obtain ⟨fict, p, hf, hw, hlw, hwk⟩ := chain_keys_some hss0
      unfold chain_keys
      rw [hlw]
      exact walk_keys_append_mem m _ l'.fictional hwk

/-! ## C2: loaded keys are found -/

theorem hash_table_search_spec (fuel : Nat) (store : hash_table) (m : Mem)
    (rest : List hash_key) :
    ∀ (keys : List Ptr), (∀ k ∈ keys, hash_table_find fuel store m (some k) = .ok true) →
      hash_table_search fuel store m (keys.map some ++ none :: rest)
        = .ok (List.replicate keys.length true) := by
  intro keys
  induction keys with
  | nil => intro _; rfl
  | cons k ks ih =>
    intro h
    have h1 := h k (by simp)
    have h2 := ih (fun k' hk' => h k' (List.mem_cons_of_mem _ hk'))
    simp [hash_table_search, h1, h2, List.replicate_succ]

/-- C2, as the code has it. For every sequence of readable keys followed by
the end marker, `hash_table_init` builds a table on which `hash_table_find`
succeeds for every key of the sequence (so that `hash_table_search` meets
only successes), and, for a size hint not below the sum of the encoded key
lengths, the same holds on the table that `hash_table_rebuild` returns. The
table has `HASH_TABLE_SIZE` chains, the size `hash_table_init` constructs. -/
theorem loaded_keys_found (verifies asserts : Bool) (hash : List Nat → Nat) (m : Mem)
    (keys : List Ptr) (strs : List (List Nat)) (rest : List hash_key)
    (fuel total_key_size : Nat) (hr : read_keys m keys = some strs)
    (hfuel : keys.length + 1 ≤ fuel) (hfit : encoded_size strs ≤ total_key_size) :
    ∃ store, hash_table_init verifies true hash m (keys.map some ++ none :: rest)
        = .ok (some store) ∧ store.data.length = HASH_TABLE_SIZE ∧
      (∀ k ∈ keys, hash_table_find fuel store m (some k) = .ok true) ∧
      hash_table_search fuel store m (keys.map some ++ none :: rest)
        = .ok (List.replicate keys.length true) ∧
      ∃ store' m' arena,
        hash_table_rebuild asserts true fuel store total_key_size m = .ok (store', m', arena) ∧
        (∀ k ∈ keys, hash_table_find fuel store' m' (some k) = .ok true) ∧
        hash_table_search fuel store' m' (keys.map some ++ none :: rest)
          = .ok (List.replicate keys.length true) := by
  obtain ⟨store, h1, _, h3, _, h5, h6, all, h7, h8⟩ :=
    hash_table_init_spec verifies hash m keys strs rest hr
  have hb := buckets_mono h6 fuel hfuel
  have hk := table_keys_mono h7 fuel hfuel
  have hlen : store.data.length = HASH_TABLE_SIZE := by rw [hb.2.1, h3]
  have hfind : ∀ k ∈ keys, hash_table_find fuel store m (some k) = .ok true := by
    intro k hkm
    obtain ⟨s, hs, hks⟩ := read_keys_mem hr k hkm
    rw [hash_table_find_spec m fuel store strs k s hb h5 hks]
    simp [hs]
  obtain ⟨store', A, hre, hcmp', hb'⟩ := rebuild_keeps_buckets asserts fuel store
    total_key_size m all strs hb (Nat.le_of_eq hlen.symm) hk
    (by rw [encoded_size_perm h8]; exact hfit)
  have hfind' : ∀ k ∈ keys, hash_table_find fuel store' (m ++ [A]) (some k) = .ok true := by
    intro k hkm
    obtain ⟨s, hs, hks⟩ := read_keys_mem hr k hkm
    rw [hash_table_find_spec (m ++ [A]) fuel store' strs k s hb' (by rw [hcmp', h5])
      (read_cstr_append m A hks)]
    simp [hs]
  exact ⟨store, h1, hlen, hfind, hash_table_search_spec fuel store m rest keys hfind,
    store', m ++ [A], _, hre, hfind', hash_table_search_spec fuel store' _ rest keys hfind'⟩

/-- C2 at the keys `cat`, `dog`, `cow`, `ox` with CRC-32 and an arena of
3 + 3 + 3 + 2 + 4 = 15 bytes. -/
theorem loaded_keys_found_witness :
    (read_keys tok_mem tok_keys = some tok_strs ∧ tok_keys.length + 1 ≤ 5 ∧
      encoded_size tok_strs ≤ 15) ∧
    ∃ store, hash_table_init true true hash_crc32 tok_mem (tok_keys.map some ++ none :: [])
        = .ok (some store) ∧ store.data.length = HASH_TABLE_SIZE ∧
      (∀ k ∈ tok_keys, hash_table_find 5 store tok_mem (some k) = .ok true) ∧
      hash_table_search 5 store tok_mem (tok_keys.map some ++ none :: [])
        = .ok (List.replicate tok_keys.length true) ∧
      ∃ store' m' arena,
        hash_table_rebuild false true 5 store 15 tok_mem = .ok (store', m', arena) ∧
        (∀ k ∈ tok_keys, hash_table_find 5 store' m' (some k) = .ok true) ∧
        hash_table_search 5 store' m' (tok_keys.map some ++ none :: [])
          = .ok (List.replicate tok_keys.length true) :=
  ⟨⟨by decide!, by decide!, by decide!⟩,
    loaded_keys_found true false hash_crc32 tok_mem tok_keys tok_strs [] 5 15 (by decide!)
      (by decide!) (by decide!)⟩

/-- C2 as stated fails at its own scenario: on the table of size 7 that holds
`cat`, `dog`, `cow`, `ox` (CRC-32) all four lookups succeed before compaction,
but `hash_table_rebuild` with an arena of 15 bytes goes on to `store->data[7]`,
outside the table, so there is no table after compaction to look the keys up
in. And on the table of `HASH_TABLE_SIZE` chains a size hint of 14 bytes, one
less than the keys need, ends in a write past the arena. -/
theorem loaded_keys_found_counterexample :
    ((tok_store 7).data.length = 7 ∧
      (∀ k ∈ tok_keys, result_of (hash_table_find 5 (tok_store 7) tok_mem (some k))
        = some true) ∧
      encoded_size tok_strs = 15 ∧
      fault_of (hash_table_rebuild false true 5 (tok_store 7) 15 tok_mem)
        = some Fault.oob_read) ∧
    ((tok_store HASH_TABLE_SIZE).data.length = HASH_TABLE_SIZE ∧
      fault_of (hash_table_rebuild false true 5 (tok_store HASH_TABLE_SIZE) 14 tok_mem)
        = some Fault.oob_write) := by
  refine ⟨by decide!, by decide!, ?_⟩
  rw [hash_table_rebuild_overflow false 5 (tok_store HASH_TABLE_SIZE) 14 tok_mem
    [[99, 97, 116], [100, 111, 103], [111, 120], [99, 111, 119]] (by decide!) (by decide!)
    (by decide!)]
  rfl

/-! ## C3: absent keys are not found -/

/-- C3, as the code has it. For every table size `n ≥ 1`, every hash function
and every sequence of readable keys loaded into a fresh table of `n` chains
that compares with `strcmp`, `hash_table_find` reports not-found for every
readable key whose bytes equal none of the loaded keys. After
`hash_table_rebuild` the same holds when the table has at least
`HASH_TABLE_SIZE` chains (and the size hint is not below the sum of the encoded
key lengths). -/
theorem absent_key_not_found (asserts : Bool) (n : Nat) (hash : List Nat → Nat) (m : Mem)
    (keys : List Ptr) (strs : List (List Nat)) (rest : List hash_key)
    (fuel total_key_size : Nat) (hn : 1 ≤ n) (hr : read_keys m keys = some strs)
    (hfuel : keys.length + 1 ≤ fuel) :
    ∃ store0 store, hash_table_new true n hash strcmp = some store0 ∧
      push_loop m store0 (keys.map some ++ none :: rest) = .ok store ∧
      store.data.length = n ∧
      (∀ k' s', read_cstr m k' = some s' → s' ∉ strs →
        hash_table_find fuel store m (some k') = .ok false) ∧
      (HASH_TABLE_SIZE ≤ n → encoded_size strs ≤ total_key_size →
        ∃ store' m' arena,
          hash_table_rebuild asserts true fuel store total_key_size m
            = .ok (store', m', arena) ∧
          ∀ k' s', read_cstr m k' = some s' → s' ∉ strs →
            hash_table_find fuel store' m' (some k') = .ok false) := by
  obtain ⟨store, h1, _, h3, _, h5, h6, all, h7, h8⟩ :=
    load_spec m n hn hash strcmp keys strs rest hr
  have hb := buckets_mono h6 fuel hfuel
  have hk := table_keys_mono h7 fuel hfuel
  have hlen : store.data.length = n := by rw [hb.2.1, h3]
  refine ⟨_, store, hash_table_new_eq n hn hash strcmp, h1, hlen, ?_, ?_⟩
  · intro k' s' hk' hs'
    rw [hash_table_find_spec m fuel store strs k' s' hb h5 hk']
    simp [hs']
  · intro hbig hfit
    obtain ⟨store', A, hre, hcmp', hb'⟩ := rebuild_keeps_buckets asserts fuel store
      total_key_size m all strs hb (by rw [hlen]; exact hbig) hk
      (by rw [encoded_size_perm h8]; exact hfit)
    refine ⟨store', m ++ [A], _, hre, ?_⟩
    intro k' s' hk' hs'
    rw [hash_table_find_spec (m ++ [A]) fuel store' strs k' s' hb' (by rw [hcmp', h5])
      (read_cstr_append m A hk')]
    simp [hs']

/-- C3 at the keys `cat`, `dog`, `cow`, `ox` in a table of `HASH_TABLE_SIZE`
chains: `pig` is not found, before and after compaction. -/
theorem absent_key_not_found_witness :
    (1 ≤ HASH_TABLE_SIZE ∧ read_keys tok_mem tok_keys = some tok_strs ∧
      tok_keys.length + 1 ≤ 5) ∧
    ∃ store0 store, hash_table_new true HASH_TABLE_SIZE hash_crc32 strcmp = some store0 ∧
      push_loop tok_mem store0 (tok_keys.map some ++ none :: []) = .ok store ∧
      store.data.length = HASH_TABLE_SIZE ∧
      hash_table_find 5 store tok_mem (some ⟨1, 0⟩) = .ok false ∧
      ∃ store' m' arena,
        hash_table_rebuild false true 5 store 15 tok_mem = .ok (store', m', arena) ∧
        hash_table_find 5 store' m' (some ⟨1, 0⟩) = .ok false := by
  refine ⟨⟨by decide!, by decide!, by decide!⟩, ?_⟩
  obtain ⟨store0, store, h1, h2, h3, h4, h5⟩ :=
    absent_key_not_found false HASH_TABLE_SIZE hash_crc32 tok_mem tok_keys tok_strs [] 5 15
      (by decide!) (by decide!) (by decide!)
  obtain ⟨store', m', arena, h6, h7⟩ := h5 (Nat.le_refl _) (by decide!)
  have hpig : read_cstr tok_mem ⟨1, 0⟩ = some [112, 105, 103] := by decide!
  have hno : [112, 105, 103] ∉ tok_strs := by decide!
  exact ⟨store0, store, h1, h2, h3, h4 _ _ hpig hno, store', m', arena, h6, h7 _ _ hpig hno⟩

/-- C3 as stated fails in the degenerate scenario: on the table of one chain
that holds `cat`, `dog`, `cow`, `ox` the absent key `pig` is reported
not-found before compaction, but `hash_table_rebuild` goes on to
`store->data[1]`, outside the table, so there is no lookup after
compaction. -/
theorem absent_key_not_found_counterexample :
    (tok_store 1).data.length = 1 ∧
    table_keys tok_mem 5 (tok_store 1).data
      = some [[111, 120], [99, 111, 119], [100, 111, 103], [99, 97, 116]] ∧
    result_of (hash_table_find 5 (tok_store 1) tok_mem (some ⟨1, 0⟩)) = some false ∧
    fault_of (hash_table_rebuild false true 5 (tok_store 1) 15 tok_mem)
      = some Fault.oob_read := by
  decide!

/-! ## C10: bulk load -/

theorem walk_refs_of_keys {m : Mem} {nodes : List list_node} :
    ∀ {p : List Nat} {ss : List (List Nat)}, walk_keys m nodes p = some ss →
      ∃ refs, walk_refs nodes p = some refs ∧ refs.length = ss.length := by
  intro p
  induction p with
  | nil => intro ss h; simp [walk_keys] at h; subst h; exact ⟨[], rfl, rfl⟩
  | cons i p ih =>
    intro ss h
    obtain ⟨nd, q, s, ss', hn, _, _, hk', hss⟩ := walk_keys_cons h
    subst hss
    obtain ⟨refs, hr, hl⟩ := ih hk'
    exact ⟨nd.data :: refs, by simp [walk_refs, hn, hr], by simp [hl]⟩

/-- The nodes of a table are as many as the keys read off them. -/
theorem table_refs_of_keys {m : Mem} {fuel : Nat} :
    ∀ {data : List list} {all : List (List Nat)}, table_keys m fuel data = some all →
      ∃ refs, table_refs fuel data = some refs ∧ refs.length = all.length := by
  intro data
  induction data with
  | nil => intro all h; simp [table_keys] at h; subst h; exact ⟨[], rfl, rfl⟩
  | cons l ls ih =>
    intro all h
    obtain ⟨ss, rest, hc, ht, hall⟩ := table_keys_cons h
    obtain ⟨_, p, _, _, hlw, hwk⟩ := chain_keys_some hc
    obtain ⟨r1, hr1, hl1⟩ := walk_refs_of_keys hwk
    obtain ⟨r2, hr2, hl2⟩ := ih ht
    exact ⟨r1 ++ r2, by simp [table_refs, chain_refs, hlw, hr1, hr2], by simp [hall, hl1, hl2]⟩

/-- C10. Bulk load: for every sequence of readable keys followed by the end
marker (whatever follows the marker), `hash_table_init` returns the table that
one `hash_table_push_forced` per key, in sequence order, makes of the fresh
table of `HASH_TABLE_SIZE` chains; that table has exactly as many nodes as the
sequence has keys, and the keys its nodes denote are the keys of the sequence
with their multiplicities, so a key that occurs twice is held by two nodes. -/
theorem bulk_load (verifies : Bool) (hash : List Nat → Nat) (m : Mem) (keys : List Ptr)
    (strs : List (List Nat)) (rest : List hash_key) (hr : read_keys m keys = some strs) :
    ∃ store, hash_table_init verifies true hash m (keys.map some ++ none :: rest)
        = .ok (some store) ∧
      push_seq m ⟨List.replicate HASH_TABLE_SIZE list_empty, HASH_TABLE_SIZE, hash, strcmp⟩ keys
        = .ok store ∧
      ∃ refs all, table_refs (keys.length + 1) store.data = some refs ∧
        refs.length = keys.length ∧
        table_keys m (keys.length + 1) store.data = some all ∧ all.length = keys.length ∧
        all.Perm strs ∧
        ∀ s, all.countP (fun t => decide (t = s)) = strs.countP (fun t => decide (t = s)) := by
  obtain ⟨store, h1, h2, _, _, _, _, all, h7, h8⟩ :=
    hash_table_init_spec verifies hash m keys strs rest hr
  obtain ⟨refs, hrefs, hlen⟩ := table_refs_of_keys h7
  have hl : all.length = keys.length := by rw [h8.length_eq, read_keys_length hr]
  exact ⟨store, h1, h2, refs, all, hrefs, by rw [hlen, hl], h7, hl, h8,
    fun s => h8.countP_eq _⟩

/-- C10 at a sequence in which `cat` occurs twice: three keys, three nodes, two
of them denoting `cat`. -/
theorem bulk_load_witness :
    read_keys tok_mem [⟨0, 0⟩, ⟨0, 4⟩, ⟨0, 0⟩]
      = some [[99, 97, 116], [100, 111, 103], [99, 97, 116]] ∧
    ∃ store, hash_table_init true true hash_crc32 tok_mem
        ([(⟨0, 0⟩ : Ptr), ⟨0, 4⟩, ⟨0, 0⟩].map some ++ none :: [some ⟨0, 8⟩])
        = .ok (some store) ∧
      push_seq tok_mem
        ⟨List.replicate HASH_TABLE_SIZE list_empty, HASH_TABLE_SIZE, hash_crc32, strcmp⟩
        [⟨0, 0⟩, ⟨0, 4⟩, ⟨0, 0⟩] = .ok store ∧
      ∃ refs all, table_refs ([(⟨0, 0⟩ : Ptr), ⟨0, 4⟩, ⟨0, 0⟩].length + 1) store.data
          = some refs ∧
        refs.length = [(⟨0, 0⟩ : Ptr), ⟨0, 4⟩, ⟨0, 0⟩].length ∧
        table_keys tok_mem ([(⟨0, 0⟩ : Ptr), ⟨0, 4⟩, ⟨0, 0⟩].length + 1) store.data
          = some all ∧
        all.length = [(⟨0, 0⟩ : Ptr), ⟨0, 4⟩, ⟨0, 0⟩].length ∧
        all.Perm [[99, 97, 116], [100, 111, 103], [99, 97, 116]] ∧
        ∀ s, all.countP (fun t => decide (t = s))
          = [[99, 97, 116], [100, 111, 103], [99, 97, 116]].countP (fun t => decide (t = s)) :=
  ⟨by decide!,
    bulk_load true hash_crc32 tok_mem [⟨0, 0⟩, ⟨0, 4⟩, ⟨0, 0⟩]
      [[99, 97, 116], [100, 111, 103], [99, 97, 116]] [some ⟨0, 8⟩] (by decide!)⟩

/-! ## Tokens -/

theorem tokens_aux_newlines (k : Nat) (r : List Nat) :
    tokens_aux [] (List.replicate k 10 ++ r) = tokens_aux [] r := by
  induction k with
  | zero => rfl
  | succ k ih => simp [List.replicate_succ, tokens_aux, ih]

theorem tokens_aux_run (t : List Nat) (ht : ∀ x ∈ t, x ≠ 0 ∧ x ≠ 10) (cur r : List Nat) :
    tokens_aux cur (t ++ r) = tokens_aux (cur ++ t) r := by
  induction t generalizing cur with
  | nil => simp
  | cons x t ih =>
    have hx := ht x (by simp)
    have := ih (fun y hy => ht y (List.mem_cons_of_mem _ hy)) (cur ++ [x])
    simp [tokens_aux, hx.1, hx.2, this]

theorem tokens_aux_zero (xs tail cur : List Nat) :
    tokens_aux cur (xs ++ 0 :: tail) = tokens_aux cur xs := by
  induction xs generalizing cur with
  | nil => simp [tokens_aux]
  | cons x xs ih =>
    rw [List.cons_append]
    unfold tokens_aux
    rw [ih, ih]

/-- The text ends: no token after newlines followed by the terminator. -/
theorem tokens_end (k : Nat) (r : List Nat) :
    tokens (List.replicate k 10 ++ 0 :: r) = [] := by
  unfold tokens
  rw [tokens_aux_newlines]
  simp [tokens_aux]

/-- The last token, ended by the terminator. -/
theorem tokens_last (k : Nat) (t r : List Nat) (hne : t ≠ [])
    (ht : ∀ x ∈ t, x ≠ 0 ∧ x ≠ 10) :
    tokens (List.replicate k 10 ++ (t ++ 0 :: r)) = [t] := by
  unfold tokens
  rw [tokens_aux_newlines, tokens_aux_run t ht]
  simp [tokens_aux, hne]

/-- A token ended by a newline. -/
theorem tokens_cut (k : Nat) (t r : List Nat) (hne : t ≠ [])
    (ht : ∀ x ∈ t, x ≠ 0 ∧ x ≠ 10) :
    tokens (List.replicate k 10 ++ (t ++ 10 :: r)) = t :: tokens r := by
  unfold tokens
  rw [tokens_aux_newlines, tokens_aux_run t ht]
  simp [tokens_aux, hne]

theorem run_split :
    ∀ (r1 : List Nat), 0 ∈ r1 →
      ∃ t d r, r1 = t ++ d :: r ∧ (∀ x ∈ t, x ≠ 0 ∧ x ≠ 10) ∧ (d = 0 ∨ (d = 10 ∧ 0 ∈ r)) := by
  intro r1
  induction r1 with
  | nil => intro h; simp at h
  | cons c r1 ih =>
    intro h
    by_cases h0 : c = 0
    · exact ⟨[], c, r1, rfl, by simp, Or.inl h0⟩
    · have hr : 0 ∈ r1 := by
        rcases List.mem_cons.mp h with e | e
        · exact absurd e.symm h0
        · exact e
      by_cases h10 : c = 10
      · exact ⟨[], c, r1, rfl, by simp, Or.inr ⟨h10, hr⟩⟩
      · obtain ⟨t, d, r, h1, h2, h3⟩ := ih hr
        refine ⟨c :: t, d, r, by simp [h1], ?_, h3⟩
        intro x hx
        rcases List.mem_cons.mp hx with e | e
        · subst e; exact ⟨h0, h10⟩
        · exact h2 x e

/-- What is left of a null-terminated text starts with newlines, followed by
the terminator or by a token and its end. -/
theorem text_split :
    ∀ (rem : List Nat), 0 ∈ rem →
      ∃ k, (∃ r, rem = List.replicate k 10 ++ 0 :: r) ∨
        (∃ t d r, rem = List.replicate k 10 ++ (t ++ d :: r) ∧ t ≠ [] ∧
          (∀ x ∈ t, x ≠ 0 ∧ x ≠ 10) ∧ (d = 0 ∨ (d = 10 ∧ 0 ∈ r))) := by
  intro rem
  induction rem with
  | nil => intro h; simp at h
  | cons c rem ih =>
    intro h
    by_cases h0 : c = 0
    · subst h0; exact ⟨0, Or.inl ⟨rem, rfl⟩⟩
    · have hr : 0 ∈ rem := by
        rcases List.mem_cons.mp h with e | e
        · exact absurd e.symm h0
        · exact e
      by_cases h10 : c = 10
      · subst h10
        obtain ⟨k, hk⟩ := ih hr
        refine ⟨k + 1, ?_⟩
        rcases hk with ⟨r, e⟩ | ⟨t, d, r, e, h1, h2, h3⟩
        · exact Or.inl ⟨r, by simp [List.replicate_succ, e]⟩
        · exact Or.inr ⟨t, d, r, by simp [List.replicate_succ, e], h1, h2, h3⟩
      · obtain ⟨t, d, r, h1, h2, h3⟩ := run_split (c :: rem) h
        refine ⟨0, Or.inr ⟨t, d, r, by simpa using h1, ?_, h2, h3⟩⟩
        intro e
        subst e
        simp at h1
        rcases h3 with e | ⟨e, _⟩
        · exact h0 (h1.1.trans e)
        · exact h10 (h1.1.trans e)

theorem strspn_nl_newlines (k : Nat) (c : Nat) (r : List Nat) (hc : c ≠ 10) :
    strspn_nl (List.replicate k 10 ++ c :: r) = some k := by
  induction k with
  | zero => simp [strspn_nl, hc]
  | succ k ih => simp [List.replicate_succ, strspn_nl, ih]

theorem strcspn_nl_run (t : List Nat) (ht : ∀ x ∈ t, x ≠ 0 ∧ x ≠ 10) (d : Nat) (r : List Nat)
    (hd : d = 0 ∨ d = 10) : strcspn_nl (t ++ d :: r) = some t.length := by
  induction t with
  | nil => simp [strcspn_nl, hd]
  | cons x t ih =>
    have hx := ht x (by simp)
    have := ih (fun y hy => ht y (List.mem_cons_of_mem _ hy))
    simp [strcspn_nl, hx.1, hx.2, this]

theorem getElem?_mid (xs : List Nat) (y : Nat) (ys : List Nat) :
    (xs ++ y :: ys)[xs.length]? = some y := by
  rw [List.getElem?_append_right (Nat.le_refl _)]
  simp

theorem set_mid (xs : List Nat) (y z : Nat) (ys : List Nat) :
    (xs ++ y :: ys).set xs.length z = xs ++ z :: ys := by
  induction xs with
  | nil => rfl
  | cons x xs ih => simp [ih]

theorem mem_set_self {m : Mem} {b : Nat} {blk : List Nat} (h : m[b]? = some blk) :
    m.set b blk = m := by
  induction m generalizing b with
  | nil => simp at h
  | cons x m ih =>
    cases b with
    | zero => simp at h; simp [h]
    | succ b => simp at h; simp [ih h]

theorem mem_getElem?_set {m : Mem} {b : Nat} {blk : List Nat} (new : List Nat)
    (h : m[b]? = some blk) : (m.set b new)[b]? = some new := by
  have hlt : b < m.length := by
    rcases Nat.lt_or_ge b m.length with h1 | h1
    · exact h1
    · simp [List.getElem?_eq_none h1] at h
  exact List.getElem?_set_self hlt

/-! ## `strtok` -/

/-- The call `strtok` at the end of the text: only newlines are left before the
terminator. -/
theorem strtok_none (m : Mem) (b k : Nat) (done r : List Nat)
    (hm : m[b]? = some (done ++ (List.replicate k 10 ++ 0 :: r))) :
    strtok m none (some ⟨b, done.length⟩) = .ok (m, none, some ⟨b, done.length + k⟩) := by
  have hget : (done ++ (List.replicate k 10 ++ 0 :: r))[done.length + k]? = some 0 := by
    have : done ++ (List.replicate k 10 ++ 0 :: r) = (done ++ List.replicate k 10) ++ 0 :: r := by
      simp
    rw [this]
    have hl : done.length + k = (done ++ List.replicate k 10).length := by simp
    rw [hl]
    exact getElem?_mid _ _ _
  unfold strtok
  simp only [hm, List.drop_left, strspn_nl_newlines k 0 r (by decide), hget, if_true]

/-- The call `strtok` at the last token, which the terminator of the text ends. -/
theorem strtok_last (m : Mem) (b k : Nat) (done t r : List Nat) (hne : t ≠ [])
    (ht : ∀ x ∈ t, x ≠ 0 ∧ x ≠ 10)
    (hm : m[b]? = some (done ++ (List.replicate k 10 ++ (t ++ 0 :: r)))) :
    strtok m none (some ⟨b, done.length⟩)
      = .ok (m, some ⟨b, done.length + k⟩, some ⟨b, done.length + k + t.length⟩) := by
  obtain ⟨c, t', hct⟩ : ∃ c t', t = c :: t' := by
    cases t with
    | nil => exact absurd rfl hne
    | cons c t' => exact ⟨c, t', rfl⟩
  have hc := ht c (by simp [hct])
  have hspn : strspn_nl (List.replicate k 10 ++ (t ++ 0 :: r)) = some k := by
    rw [hct]; exact strspn_nl_newlines k c _ hc.2
  have hb1 : done ++ (List.replicate k 10 ++ (t ++ 0 :: r))
      = (done ++ List.replicate k 10) ++ (c :: (t' ++ 0 :: r)) := by simp [hct]
  have hl1 : done.length + k = (done ++ List.replicate k 10).length := by simp
  have hget1 : (done ++ (List.replicate k 10 ++ (t ++ 0 :: r)))[done.length + k]? = some c := by
    rw [hb1, hl1]; exact getElem?_mid _ _ _
  have hdrop : (done ++ (List.replicate k 10 ++ (t ++ 0 :: r))).drop (done.length + k)
      = t ++ 0 :: r := by
    have : done ++ (List.replicate k 10 ++ (t ++ 0 :: r))
        = (done ++ List.replicate k 10) ++ (t ++ 0 :: r) := by simp
    rw [this, hl1, List.drop_left]
  have hb2 : done ++ (List.replicate k 10 ++ (t ++ 0 :: r))
      = (done ++ List.replicate k 10 ++ t) ++ 0 :: r := by simp
  have hl2 : done.length + k + t.length = (done ++ List.replicate k 10 ++ t).length := by
    simp; omega
  have hget2 : (done ++ (List.replicate k 10 ++ (t ++ 0 :: r)))[done.length + k + t.length]?
      = some 0 := by
    rw [hb2, hl2]; exact getElem?_mid _ _ _
  unfold strtok
  simp only [hm, List.drop_left, hspn, hget1, hc.1, if_false, hdrop,
    strcspn_nl_run t ht 0 r (Or.inl rfl), hget2, if_true]

/-- The call `strtok` at a token that a newline ends: the newline is overwritten by a
terminator. -/
theorem strtok_cut (m : Mem) (b k : Nat) (done t r : List Nat) (hne : t ≠ [])
    (ht : ∀ x ∈ t, x ≠ 0 ∧ x ≠ 10)
    (hm : m[b]? = some (done ++ (List.replicate k 10 ++ (t ++ 10 :: r)))) :
    strtok m none (some ⟨b, done.length⟩)
      = .ok (m.set b (done ++ (List.replicate k 10 ++ (t ++ 0 :: r))),
          some ⟨b, done.length + k⟩, some ⟨b, done.length + k + t.length + 1⟩) := by
  obtain ⟨c, t', hct⟩ : ∃ c t', t = c :: t' := by
    cases t with
    | nil => exact absurd rfl hne
    | cons c t' => exact ⟨c, t', rfl⟩
  have hc := ht c (by simp [hct])
  have hspn : strspn_nl (List.replicate k 10 ++ (t ++ 10 :: r)) = some k := by
    rw [hct]; exact strspn_nl_newlines k c _ hc.2
  have hb1 : done ++ (List.replicate k 10 ++ (t ++ 10 :: r))
      = (done ++ List.replicate k 10) ++ (c :: (t' ++ 10 :: r)) := by simp [hct]
  have hl1 : done.length + k = (done ++ List.replicate k 10).length := by simp
  have hget1 : (done ++ (List.replicate k 10 ++ (t ++ 10 :: r)))[done.length + k]? = some c := by
    rw [hb1, hl1]; exact getElem?_mid _ _ _
  have hdrop : (done ++ (List.replicate k 10 ++ (t ++ 10 :: r))).drop (done.length + k)
      = t ++ 10 :: r := by
    have : done ++ (List.replicate k 10 ++ (t ++ 10 :: r))
        = (done ++ List.replicate k 10) ++ (t ++ 10 :: r) := by simp
    rw [this, hl1, List.drop_left]
  have hb2 : done ++ (List.replicate k 10 ++ (t ++ 10 :: r))
      = (done ++ List.replicate k 10 ++ t) ++ 10 :: r := by simp
  have hl2 : done.length + k + t.length = (done ++ List.replicate k 10 ++ t).length := by
    simp; omega
  have hget2 : (done ++ (List.replicate k 10 ++ (t ++ 10 :: r)))[done.length + k + t.length]?
      = some 10 := by
    rw [hb2, hl2]; exact getElem?_mid _ _ _
  have hset : (done ++ (List.replicate k 10 ++ (t ++ 10 :: r))).set
      (done.length + k + t.length) 0 = done ++ (List.replicate k 10 ++ (t ++ 0 :: r)) := by
    rw [hb2, hl2, set_mid]; simp
  unfold strtok
  simp only [hm, List.drop_left, hspn, hget1, hc.1, if_false, hdrop,
    strcspn_nl_run t ht 10 r (Or.inr rfl), hget2, hset]
  simp

/-! ## The tokenising loop -/

theorem array_write (pre : List hash_key) (cap : Nat) (x : hash_key)
    (h : pre.length < cap) :
    (pre ++ List.replicate (cap - pre.length) none).set pre.length x
      = (pre ++ [x]) ++ List.replicate (cap - (pre ++ [x]).length) none := by
  have hc : cap - pre.length = (cap - (pre ++ [x]).length) + 1 := by simp; omega
  rw [hc, List.replicate_succ]
  induction pre with
  | nil => simp
  | cons y pre ih => simp

theorem array_write_none (pre : List hash_key) (cap : Nat) (h : pre.length < cap) :
    (pre ++ List.replicate (cap - pre.length) none).set pre.length none
      = pre ++ List.replicate (cap - pre.length) none := by
  rw [array_write pre cap none h]
  have hc : cap - pre.length = (cap - (pre ++ [(none : hash_key)]).length) + 1 := by
    simp; omega
  rw [hc, List.replicate_succ]
  simp

theorem read_cstr_set (m : Mem) (b : Nat) (blk xs t r : List Nat) (hm : m[b]? = some blk)
    (ht : ∀ x ∈ t, x ≠ 0 ∧ x ≠ 10) :
    read_cstr (m.set b (xs ++ (t ++ 0 :: r))) ⟨b, xs.length⟩ = some t := by
  unfold read_cstr
  simp only [mem_getElem?_set _ hm, List.drop_left]
  exact cstr_append_zero t r (fun h0 => (ht 0 h0).1 rfl)

/-- The loop of `lexis_array_init` from a saved position: `done` is the part of
the block in front of that position, `rem` the part from it on, and `pre` the
entries of the pointer array written so far. The loop stores one pointer per
token of `rem` and the end marker, and the stored pointers denote the
tokens. -/
theorem lexis_loop_spec (cap b : Nat) :
    ∀ (n : Nat) (rem done : List Nat) (m : Mem) (pre : List hash_key) (fuel : Nat),
      rem.length ≤ n → m[b]? = some (done ++ rem) → 0 ∈ rem →
      pre.length + (tokens rem).length < cap → (tokens rem).length + 1 ≤ fuel →
      ∃ m1 lexis save1, strtok m none (some ⟨b, done.length⟩) = .ok (m1, lexis, save1) ∧
        ∃ ptrs rem',
          lexis_loop cap fuel m1 (some (pre ++ List.replicate (cap - pre.length) none))
              pre.length lexis save1
            = .ok (m.set b (done ++ rem'),
                pre ++ (ptrs.map some
                  ++ List.replicate (cap - pre.length - ptrs.length) none)) ∧
          rem'.length = rem.length ∧
          read_keys (m.set b (done ++ rem')) ptrs = some (tokens rem) ∧
          ∀ p ∈ ptrs, p.blk = b ∧ done.length ≤ p.off := by
  intro n
  induction n with
  | zero =>
    intro rem done m pre fuel hlen _ h0
    have : rem = [] := List.length_eq_zero.mp (by omega)
    subst this
    simp at h0
  | succ n ih =>
    intro rem done m pre fuel hlen hm h0 hcap hfuel
    obtain ⟨k, hsplit⟩ := text_split rem h0
    rcases hsplit with ⟨r, hrem⟩ | ⟨t, d, r, hrem, hne, ht, hd⟩
    · -- only newlines are left
      subst hrem
      rw [tokens_end] at hcap hfuel ⊢
      refine ⟨m, none, _, strtok_none m b k done r hm, [], _, ?_, rfl, ?_, by simp⟩
      · obtain ⟨f, hf⟩ : ∃ f, fuel = f + 1 := ⟨fuel - 1, by omega⟩
        subst hf
        have hlt : pre.length < cap := by simpa using hcap
        simp only [lexis_loop, lexis_write, hlt, if_true, array_write_none pre cap hlt,
          mem_set_self hm, List.map_nil, List.nil_append, List.length_nil, Nat.sub_zero]
      · simp [read_keys]
    · rcases hd with hd | ⟨hd, hr0⟩
      · -- the last token, ended by the terminator of the text
        subst hd hrem
        rw [tokens_last k t r hne ht] at hcap hfuel ⊢
        simp only [List.length_singleton] at hcap hfuel
        refine ⟨m, _, _, strtok_last m b k done t r hne ht hm,
          [⟨b, done.length + k⟩], _, ?_, rfl, ?_, ?_⟩
        · obtain ⟨f, hf⟩ : ∃ f, fuel = f + 2 := ⟨fuel - 2, by omega⟩
          subst hf
          have hlt : pre.length < cap := by omega
          have hlt2 : (pre ++ [some (⟨b, done.length + k⟩ : Ptr)]).length < cap := by
            simp; omega
          have hm2 : m[b]? = some ((done ++ List.replicate k 10 ++ t)
              ++ (List.replicate 0 10 ++ 0 :: r)) := by
            rw [hm]; simp
          have hl2 : done.length + k + t.length
              = (done ++ List.replicate k 10 ++ t).length := by simp; omega
          have hnext := strtok_none m b 0 (done ++ List.replicate k 10 ++ t) r hm2
          rw [← hl2] at hnext
          have hidx : pre.length + 1 = (pre ++ [some (⟨b, done.length + k⟩ : Ptr)]).length := by
            simp
          simp only [lexis_loop, lexis_write, hlt, if_true, array_write pre cap _ hlt, hnext]
          rw [hidx]
          simp only [hlt2, if_true, array_write_none _ cap hlt2, mem_set_self hm]
          simp
          omega
        · have hb1 : done ++ (List.replicate k 10 ++ (t ++ 0 :: r))
              = (done ++ List.replicate k 10) ++ (t ++ 0 :: r) := by simp
          have hl1 : done.length + k = (done ++ List.replicate k 10).length := by simp
          simp only [read_keys]
          rw [hb1, hl1, read_cstr_set m b _ _ t r hm ht]
          rfl
        · intro p hp
          simp at hp
          subst hp
          exact ⟨rfl, Nat.le_add_right _ _⟩
      · -- a token ended by a newline
        subst hd hrem
        rw [tokens_cut k t r hne ht] at hcap hfuel ⊢
        simp only [List.length_cons] at hcap hfuel
        have hrlen : r.length ≤ n := by
          simp at hlen; omega
        obtain ⟨f, hf⟩ : ∃ f, fuel = f + 1 := ⟨fuel - 1, by omega⟩
        subst hf
        have hlt : pre.length < cap := by omega
        have hm1 : (m.set b (done ++ (List.replicate k 10 ++ (t ++ 0 :: r))))[b]?
            = some ((done ++ (List.replicate k 10 ++ (t ++ [0]))) ++ r) := by
          rw [mem_getElem?_set _ hm]; simp
        obtain ⟨m2, lexis2, save2, hst2, ptrs2, rem2, hloop2, hlen2, hread2, hptr2⟩ :=
          ih r (done ++ (List.replicate k 10 ++ (t ++ [0])))
            (m.set b (done ++ (List.replicate k 10 ++ (t ++ 0 :: r))))
            (pre ++ [some ⟨b, done.length + k⟩]) f hrlen hm1 hr0 (by simp; omega) (by omega)
        have hl3 : (done ++ (List.replicate k 10 ++ (t ++ [0]))).length
            = done.length + k + t.length + 1 := by simp; omega
        rw [hl3] at hst2
        have hsetset : (m.set b (done ++ (List.replicate k 10 ++ (t ++ 0 :: r)))).set b
            (done ++ (List.replicate k 10 ++ (t ++ [0])) ++ rem2)
            = m.set b (done ++ (List.replicate k 10 ++ (t ++ 0 :: rem2))) := by
          rw [List.set_set]; simp
        rw [hsetset] at hloop2 hread2
        refine ⟨_, _, _, strtok_cut m b k done t r hne ht hm,
          ⟨b, done.length + k⟩ :: ptrs2, List.replicate k 10 ++ (t ++ 0 :: rem2), ?_, ?_, ?_, ?_⟩
        · have hidx : pre.length + 1 = (pre ++ [some (⟨b, done.length + k⟩ : Ptr)]).length := by
            simp
          simp only [lexis_loop, lexis_write, hlt, if_true, array_write pre cap _ hlt, hst2]
          rw [hidx, hloop2]
          simp
          omega
        · simp [hlen2]
        · have hb1 : done ++ (List.replicate k 10 ++ (t ++ 0 :: rem2))
              = (done ++ List.replicate k 10) ++ (t ++ 0 :: rem2) := by simp
          have hl1 : done.length + k = (done ++ List.replicate k 10).length := by simp
          simp only [read_keys, hread2]
          rw [hb1, hl1, read_cstr_set m b _ _ t rem2 hm ht]
          rfl
        · intro p hp
          rcases List.mem_cons.mp hp with e | e
          · subst e; exact ⟨rfl, Nat.le_add_right _ _⟩
          · obtain ⟨h1, h2⟩ := hptr2 p e
            exact ⟨h1, by simp at h2; omega⟩

theorem lexis_keys_map_some (ptrs : List Ptr) (rest : List hash_key) :
    lexis_keys (ptrs.map some ++ none :: rest) = ptrs := by
  induction ptrs with
  | nil => rfl
  | cons p ptrs ih => simp [lexis_keys, ih]

/-- What `lexis_array_init` returns for a buffer block that holds `text` and its
terminator, when the array can hold the tokens and the end marker: the pointers
to the tokens of the text, in text order, followed by null pointers. -/
theorem lexis_array_init_cap_spec (cap b : Nat) (m : Mem) (text tail : List Nat)
    (size fuel : Nat) (hm : m[b]? = some (text ++ 0 :: tail))
    (hcap : (tokens text).length < cap) (hfuel : (tokens text).length + 1 ≤ fuel) :
    ∃ m' ptrs rest,
      lexis_array_init_cap cap true fuel m ⟨some ⟨b, 0⟩, size⟩
        = .ok (m', ptrs.map some ++ none :: rest) ∧
      ptrs.length + 1 + rest.length = cap ∧ (∀ x ∈ rest, x = none) ∧
      read_keys m' ptrs = some (tokens text) ∧
      m'.length = m.length ∧ ∀ b', b' ≠ b → m'[b']? = m[b']? := by
  have htok : tokens (text ++ 0 :: tail) = tokens text := tokens_aux_zero text tail []
  obtain ⟨m1, lexis, save1, hst, ptrs, rem', hloop, _, hread, _⟩ :=
    lexis_loop_spec cap b (text ++ 0 :: tail).length (text ++ 0 :: tail) [] m [] fuel
      (Nat.le_refl _) (by simpa using hm) (by simp) (by simpa [htok] using hcap)
      (by rw [htok]; exact hfuel)
  rw [htok] at hread
  have hplen : ptrs.length = (tokens text).length := by
    rw [← read_keys_length hread]
  have hrep : List.replicate (cap - ptrs.length) (none : hash_key)
      = none :: List.replicate (cap - ptrs.length - 1) none := by
    have : cap - ptrs.length = (cap - ptrs.length - 1) + 1 := by omega
    rw [this, List.replicate_succ]
    simp
  refine ⟨m.set b ([] ++ rem'), ptrs, List.replicate (cap - ptrs.length - 1) none, ?_, ?_, ?_,
    hread, by simp, ?_⟩
  · unfold lexis_array_init_cap
    have hfirst : strtok m (some ⟨b, 0⟩) none = strtok m none (some ⟨b, 0⟩) := rfl
    simp only [if_true, hfirst]
    simp only [List.length_nil] at hst hloop
    rw [hst]
    simp only [List.nil_append, Nat.sub_zero] at hloop
    simp only []
    rw [hloop, hrep]
    rfl
  · simp; omega
  · intro x hx
    exact (List.mem_replicate.mp hx).2
  · intro b' hb'
    exact List.getElem?_set_ne (Ne.symm hb')

/-! ## C8 and C9: the size of the arena in the driver -/

theorem encoded_size_tokens_aux (bs : List Nat) :
    ∀ cur, encoded_size (tokens_aux cur bs) ≤ cur.length + bs.length + 1 := by
  induction bs with
  | nil =>
    intro cur
    by_cases hc : cur = [] <;> simp [tokens_aux, hc, encoded_size]
  | cons x bs ih =>
    intro cur
    unfold tokens_aux
    by_cases h0 : x = 0
    · by_cases hc : cur = [] <;> simp [h0, hc, encoded_size]
    · by_cases h10 : x = 10
      · have := ih []
        by_cases hc : cur = [] <;> simp [h10, hc, encoded_size] <;> simp at this <;> omega
      · have := ih (cur ++ [x])
        simp [h0, h10]
        simp at this
        omega

theorem encoded_size_tokens_aux_newline (xs : List Nat) :
    ∀ cur, encoded_size (tokens_aux cur (xs ++ [10])) ≤ cur.length + xs.length + 1 := by
  induction xs with
  | nil =>
    intro cur
    by_cases hc : cur = [] <;> simp [tokens_aux, hc, encoded_size]
  | cons x xs ih =>
    intro cur
    rw [List.cons_append]
    unfold tokens_aux
    by_cases h0 : x = 0
    · by_cases hc : cur = [] <;> simp [h0, hc, encoded_size]
    · by_cases h10 : x = 10
      · have := ih []
        by_cases hc : cur = [] <;> simp [h10, hc, encoded_size] <;> simp at this <;> omega
      · have := ih (cur ++ [x])
        simp [h0, h10]
        simp at this
        omega

theorem tokens_lines_text (ks : List (List Nat))
    (h : ∀ k ∈ ks, k ≠ [] ∧ ∀ x ∈ k, x ≠ 0 ∧ x ≠ 10) : tokens (lines_text ks) = ks := by
  induction ks with
  | nil => rfl
  | cons k ks ih =>
    have hk := h k (by simp)
    have := tokens_cut 0 k (lines_text ks) hk.1 hk.2
    simp only [List.replicate_zero, List.nil_append] at this
    simp only [lines_text]
    rw [this, ih (fun k' hk' => h k' (List.mem_cons_of_mem _ hk'))]

theorem encoded_size_lines_text (ks : List (List Nat)) :
    encoded_size ks = (lines_text ks).length := by
  induction ks with
  | nil => rfl
  | cons k ks ih => simp [encoded_size, lines_text, ih]; omega

/-- The three calls of `run_search` behind the buffer (lines 65-67) go through
when the pointer array can hold the tokens and the size hint is not below the
sum of the encoded token lengths. -/
theorem driver_build (verifies asserts : Bool) (hash : List Nat → Nat) (b : Nat) (m : Mem)
    (text tail : List Nat) (size fuel : Nat) (hm : m[b]? = some (text ++ 0 :: tail))
    (hcap : (tokens text).length < MAX_DICTIONARY_SIZE)
    (hfuel : (tokens text).length + 1 ≤ fuel) (hsize : encoded_size (tokens text) ≤ size) :
    ∃ m' arr, lexis_array_init true fuel m ⟨some ⟨b, 0⟩, size⟩ = .ok (m', arr) ∧
      read_keys m' (lexis_keys arr) = some (tokens text) ∧
      ∃ store store' m'' arena, hash_table_init verifies true hash m' arr = .ok (some store) ∧
        hash_table_rebuild asserts true fuel store size m' = .ok (store', m'', arena) := by
  obtain ⟨m', ptrs, rest, h1, _, _, h4, _, _⟩ :=
    lexis_array_init_cap_spec MAX_DICTIONARY_SIZE b m text tail size fuel hm hcap hfuel
  have hkeys : lexis_keys (ptrs.map some ++ none :: rest) = ptrs := lexis_keys_map_some _ _
  have hplen : ptrs.length = (tokens text).length := by rw [← read_keys_length h4]
  obtain ⟨store, i1, _, i3, _, _, i6, all, i7, i8⟩ :=
    hash_table_init_spec verifies hash m' ptrs (tokens text) rest h4
  have hb := buckets_mono i6 fuel (by omega)
  have hk := table_keys_mono i7 fuel (by omega)
  have hlen : store.data.length = HASH_TABLE_SIZE := by rw [hb.2.1, i3]
  obtain ⟨store', A, hre, _, _⟩ := rebuild_keeps_buckets asserts fuel store size m' all
    (tokens text) hb (Nat.le_of_eq hlen.symm) hk (by rw [encoded_size_perm i8]; exact hsize)
  exact ⟨m', _, h1, by rw [hkeys]; exact h4, store, store', _, _, i1, hre⟩

/-- C8. Exact arena size in the driver: for a dictionary text made of
non-empty lines (free of zero bytes), each ended by exactly one newline, and
fewer than `MAX_DICTIONARY_SIZE` in number, the keys `lexis_array_init`
produces are the lines, and the sum of their lengths plus one terminator each
equals the number of bytes of the text; with that number as `buff_size` the
three calls of `run_search` behind the buffer go through. -/
theorem exact_arena_size (verifies asserts : Bool) (hash : List Nat → Nat) (b : Nat)
    (m : Mem) (ks : List (List Nat)) (tail : List Nat) (fuel : Nat)
    (hlines : ∀ k ∈ ks, k ≠ [] ∧ ∀ x ∈ k, x ≠ 0 ∧ x ≠ 10)
    (hm : m[b]? = some (lines_text ks ++ 0 :: tail))
    (hcap : ks.length < MAX_DICTIONARY_SIZE) (hfuel : ks.length + 1 ≤ fuel) :
    ∃ m' arr, lexis_array_init true fuel m ⟨some ⟨b, 0⟩, (lines_text ks).length⟩
        = .ok (m', arr) ∧
      read_keys m' (lexis_keys arr) = some ks ∧
      encoded_size ks = (lines_text ks).length ∧
      ∃ store store' m'' arena, hash_table_init verifies true hash m' arr = .ok (some store) ∧
        hash_table_rebuild asserts true fuel store (lines_text ks).length m'
          = .ok (store', m'', arena) := by
  have htok := tokens_lines_text ks hlines
  obtain ⟨m', arr, h1, h2, h3⟩ := driver_build verifies asserts hash b m (lines_text ks) tail
    (lines_text ks).length fuel hm (by rw [htok]; exact hcap) (by rw [htok]; exact hfuel)
    (by rw [htok, encoded_size_lines_text])
  rw [htok] at h2
  exact ⟨m', arr, h1, h2, encoded_size_lines_text ks, h3⟩

/-- C8 at the text `cat\ndog\ncow\nox\n` of 15 bytes. -/
theorem exact_arena_size_witness :
    ((∀ k ∈ tok_strs, k ≠ [] ∧ ∀ x ∈ k, x ≠ 0 ∧ x ≠ 10) ∧
      demo_mem[0]? = some (lines_text tok_strs ++ 0 :: []) ∧
      tok_strs.length < MAX_DICTIONARY_SIZE ∧ tok_strs.length + 1 ≤ 5) ∧
    ∃ m' arr, lexis_array_init true 5 demo_mem ⟨some ⟨0, 0⟩, (lines_text tok_strs).length⟩
        = .ok (m', arr) ∧
      read_keys m' (lexis_keys arr) = some tok_strs ∧
      encoded_size tok_strs = (lines_text tok_strs).length ∧
      ∃ store store' m'' arena,
        hash_table_init true true hash_crc32 m' arr = .ok (some store) ∧
        hash_table_rebuild false true 5 store (lines_text tok_strs).length m'
          = .ok (store', m'', arena) :=
  ⟨⟨by decide!, by decide!, by decide!, by decide!⟩,
    exact_arena_size true false hash_crc32 0 demo_mem tok_strs [] 5 (by decide!) (by decide!)
      (by decide!) (by decide!)⟩

/-- C9. The compaction precondition in the driver: for every dictionary text of
`n` bytes with fewer than `MAX_DICTIONARY_SIZE` tokens, held with its
terminator in the buffer block, `lexis_array_init` produces keys whose lengths
plus one terminator each sum to at most `n + 1`, and to at most `n` when the
text ends with a newline; so with a `buff_size` of at least `n + 1` the three
calls of `run_search` behind the buffer go through. -/
theorem arena_size_bound (verifies asserts : Bool) (hash : List Nat → Nat) (b : Nat)
    (m : Mem) (text tail : List Nat) (size fuel : Nat)
    (hm : m[b]? = some (text ++ 0 :: tail))
    (hcap : (tokens text).length < MAX_DICTIONARY_SIZE)
    (hfuel : (tokens text).length + 1 ≤ fuel) :
    ∃ m' arr strs, lexis_array_init true fuel m ⟨some ⟨b, 0⟩, size⟩ = .ok (m', arr) ∧
      read_keys m' (lexis_keys arr) = some strs ∧
      encoded_size strs ≤ text.length + 1 ∧
      (∀ front, text = front ++ [10] → encoded_size strs ≤ text.length) ∧
      (text.length + 1 ≤ size →
        ∃ store store' m'' arena,
          hash_table_init verifies true hash m' arr = .ok (some store) ∧
          hash_table_rebuild asserts true fuel store size m' = .ok (store', m'', arena)) := by
  have hbound : encoded_size (tokens text) ≤ text.length + 1 := by
    have := encoded_size_tokens_aux text []
    simpa [tokens] using this
  obtain ⟨m', ptrs, rest, h1, _, _, h4, _, _⟩ :=
    lexis_array_init_cap_spec MAX_DICTIONARY_SIZE b m text tail size fuel hm hcap hfuel
  refine ⟨m', _, tokens text, h1, by rw [lexis_keys_map_some]; exact h4, hbound, ?_, ?_⟩
  · intro front hfront
    have := encoded_size_tokens_aux_newline front []
    rw [hfront]
    simpa [tokens] using this
  · intro hsize
    obtain ⟨m2, arr2, g1, _, g3⟩ := driver_build verifies asserts hash b m text tail size fuel
      hm hcap hfuel (by omega)
    have h1' : lexis_array_init true fuel m ⟨some ⟨b, 0⟩, size⟩
        = .ok (m', ptrs.map some ++ none :: rest) := h1
    rw [g1] at h1'
    injection h1' with h1'
    injection h1' with hm' harr
    subst hm' harr
    exact g3

/-- C9 at a text with a blank line and without a final newline,
`cat\n\ndog` of 8 bytes: the keys `cat` and `dog` need 8 bytes. -/
theorem arena_size_bound_witness :
    ([[99, 97, 116, 10, 10, 100, 111, 103, 0]][0]?
        = some ([99, 97, 116, 10, 10, 100, 111, 103] ++ 0 :: []) ∧
      (tokens [99, 97, 116, 10, 10, 100, 111, 103]).length < MAX_DICTIONARY_SIZE ∧
      (tokens [99, 97, 116, 10, 10, 100, 111, 103]).length + 1 ≤ 3) ∧
    ∃ m' arr strs,
      lexis_array_init true 3 [[99, 97, 116, 10, 10, 100, 111, 103, 0]] ⟨some ⟨0, 0⟩, 9⟩
        = .ok (m', arr) ∧
      read_keys m' (lexis_keys arr) = some strs ∧
      encoded_size strs ≤ [99, 97, 116, 10, 10, 100, 111, 103].length + 1 ∧
      (∀ front, [99, 97, 116, 10, 10, 100, 111, 103] = front ++ [10] →
        encoded_size strs ≤ [99, 97, 116, 10, 10, 100, 111, 103].length) ∧
      ([99, 97, 116, 10, 10, 100, 111, 103].length + 1 ≤ 9 →
        ∃ store store' m'' arena,
          hash_table_init true true hash_crc32 m' arr = .ok (some store) ∧
          hash_table_rebuild false true 3 store 9 m' = .ok (store', m'', arena)) :=
  ⟨⟨by decide!, by decide!, by decide!⟩,
    arena_size_bound true false hash_crc32 0 [[99, 97, 116, 10, 10, 100, 111, 103, 0]]
      [99, 97, 116, 10, 10, 100, 111, 103] [] 9 3 (by decide!) (by decide!) (by decide!)⟩

/-! ## C11: the key sequence -/

theorem split_lines_cons (bs : List Nat) : ∃ l ls, split_lines bs = l :: ls := by
  induction bs with
  | nil => exact ⟨[], [], rfl⟩
  | cons b bs ih =>
    obtain ⟨l, ls, h⟩ := ih
    by_cases hb : b = 10
    · exact ⟨[], split_lines bs, by simp [split_lines, hb]⟩
    · exact ⟨b :: l, ls, by simp [split_lines, hb, h]⟩

/-- Cutting a text at its newlines loses nothing. -/
theorem join_split_lines (bs : List Nat) : join_lines (split_lines bs) = bs := by
  induction bs with
  | nil => rfl
  | cons b bs ih =>
    obtain ⟨l, ls, h⟩ := split_lines_cons bs
    by_cases hb : b = 10
    · simp only [split_lines, hb, if_true]
      rw [h] at ih ⊢
      simp [join_lines, ih]
    · simp only [split_lines, hb, if_false, h]
      rw [h] at ih
      cases ls with
      | nil => simp [join_lines] at ih ⊢; exact ih
      | cons l' ls => simp [join_lines] at ih ⊢; exact ih

theorem split_lines_newline_free (bs : List Nat) : ∀ l ∈ split_lines bs, 10 ∉ l := by
  induction bs with
  | nil => intro l hl; simp [split_lines] at hl; subst hl; simp
  | cons b bs ih =>
    obtain ⟨l0, ls, h⟩ := split_lines_cons bs
    intro l hl
    by_cases hb : b = 10
    · simp only [split_lines, hb, if_true] at hl
      rcases List.mem_cons.mp hl with e | e
      · subst e; simp
      · exact ih l e
    · simp only [split_lines, hb, if_false, h] at hl
      rw [h] at ih
      rcases List.mem_cons.mp hl with e | e
      · subst e
        intro hmem
        rcases List.mem_cons.mp hmem with e1 | e1
        · exact hb e1.symm
        · exact ih l0 (by simp) e1
      · exact ih l (List.mem_cons_of_mem _ e)

/-- The tokens `strtok` cuts from a zero-free text are the non-empty pieces
between its newlines; `cur` is the run in front of the text. -/
theorem tokens_aux_split (bs : List Nat) (hz : 0 ∉ bs) :
    ∀ cur, ∃ l ls, split_lines bs = l :: ls ∧
      tokens_aux cur bs = ((cur ++ l) :: ls).filter (fun x => decide (x ≠ [])) := by
  induction bs with
  | nil =>
    intro cur
    refine ⟨[], [], rfl, ?_⟩
    by_cases hc : cur = [] <;> simp [tokens_aux, hc]
  | cons b bs ih =>
    intro cur
    have hb0 : b ≠ 0 := fun e => hz (by simp [e])
    have hz' : 0 ∉ bs := fun e => hz (List.mem_cons_of_mem _ e)
    by_cases hb : b = 10
    · obtain ⟨l, ls, h1, h2⟩ := ih hz' []
      refine ⟨[], split_lines bs, by simp [split_lines, hb], ?_⟩
      unfold tokens_aux
      simp only [hb0, if_false, hb, if_true, h2, h1, List.nil_append, List.append_nil]
      by_cases hc : cur = [] <;> simp [hc, List.filter_cons]
    · obtain ⟨l, ls, h1, h2⟩ := ih hz' (cur ++ [b])
      refine ⟨b :: l, ls, by simp [split_lines, hb, h1], ?_⟩
      unfold tokens_aux
      simp only [hb0, if_false, hb, h2]
      simp

theorem tokens_eq_segments (text : List Nat) (hz : 0 ∉ text) : tokens text = segments text := by
  obtain ⟨l, ls, h1, h2⟩ := tokens_aux_split text hz []
  unfold tokens segments
  rw [h2, h1]
  simp

theorem segments_spec (text : List Nat) : ∀ s ∈ segments text, s ≠ [] ∧ 10 ∉ s := by
  intro s hs
  unfold segments at hs
  obtain ⟨h1, h2⟩ := List.mem_filter.mp hs
  exact ⟨by simpa using h2, split_lines_newline_free text s h1⟩

/-- C11. Key sequence producer: for every zero-free dictionary text with fewer
than `MAX_DICTIONARY_SIZE` segments, held with its terminator in the buffer
block, `lexis_array_init` returns an array whose entries `0 .. k-1` point to
the maximal non-empty newline-free segments of the text (the non-empty pieces
between its newlines), in text order, and whose entry `k`, the number of
keys, is the end marker. No key is empty and no key contains a newline. -/
theorem key_sequence (b : Nat) (m : Mem) (text tail : List Nat) (size fuel : Nat)
    (hm : m[b]? = some (text ++ 0 :: tail)) (hz : 0 ∉ text)
    (hcap : (segments text).length < MAX_DICTIONARY_SIZE)
    (hfuel : (segments text).length + 1 ≤ fuel) :
    ∃ m' arr keys, lexis_array_init true fuel m ⟨some ⟨b, 0⟩, size⟩ = .ok (m', arr) ∧
      lexis_keys arr = keys ∧ keys.length = (segments text).length ∧
      read_keys m' keys = some (segments text) ∧
      (∀ i, i < keys.length → arr[i]? = some (keys[i]?)) ∧
      arr[keys.length]? = some none ∧
      join_lines (split_lines text) = text ∧ (∀ l ∈ split_lines text, 10 ∉ l) ∧
      ∀ s ∈ segments text, s ≠ [] ∧ 10 ∉ s := by
  have htok := tokens_eq_segments text hz
  obtain ⟨m', ptrs, rest, h1, _, _, h4, _, _⟩ :=
    lexis_array_init_cap_spec MAX_DICTIONARY_SIZE b m text tail size fuel hm
      (by rw [htok]; exact hcap) (by rw [htok]; exact hfuel)
  rw [htok] at h4
  refine ⟨m', _, ptrs, h1, lexis_keys_map_some ptrs rest, (read_keys_length h4).symm, h4, ?_, ?_,
    join_split_lines text, split_lines_newline_free text, segments_spec text⟩
  · intro i hi
    rw [List.getElem?_append_left (by simpa using hi), List.getElem?_map,
      List.getElem?_eq_getElem hi]
    rfl
  · have hl : ptrs.length = (ptrs.map some).length := by simp
    rw [hl]
    exact List.getElem?_append_right (Nat.le_refl _) ▸ by simp

/-- C11 at the text `cat\n\ndog` (a blank line, no final newline): the keys
are `cat` and `dog`, and entry 2 of the array is the end marker. -/
theorem key_sequence_witness :
    ([[99, 97, 116, 10, 10, 100, 111, 103, 0]][0]?
        = some ([99, 97, 116, 10, 10, 100, 111, 103] ++ 0 :: []) ∧
      0 ∉ [99, 97, 116, 10, 10, 100, 111, 103] ∧
      (segments [99, 97, 116, 10, 10, 100, 111, 103]).length < MAX_DICTIONARY_SIZE ∧
      (segments [99, 97, 116, 10, 10, 100, 111, 103]).length + 1 ≤ 3 ∧
      segments [99, 97, 116, 10, 10, 100, 111, 103] = [[99, 97, 116], [100, 111, 103]]) ∧
    ∃ m' arr keys,
      lexis_array_init true 3 [[99, 97, 116, 10, 10, 100, 111, 103, 0]] ⟨some ⟨0, 0⟩, 9⟩
        = .ok (m', arr) ∧
      lexis_keys arr = keys ∧
      keys.length = (segments [99, 97, 116, 10, 10, 100, 111, 103]).length ∧
      read_keys m' keys = some (segments [99, 97, 116, 10, 10, 100, 111, 103]) ∧
      (∀ i, i < keys.length → arr[i]? = some (keys[i]?)) ∧
      arr[keys.length]? = some none ∧
      join_lines (split_lines [99, 97, 116, 10, 10, 100, 111, 103])
        = [99, 97, 116, 10, 10, 100, 111, 103] ∧
      (∀ l ∈ split_lines [99, 97, 116, 10, 10, 100, 111, 103], 10 ∉ l) ∧
      ∀ s ∈ segments [99, 97, 116, 10, 10, 100, 111, 103], s ≠ [] ∧ 10 ∉ s :=
  ⟨⟨by decide!, by decide!, by decide!, by decide!, by decide!⟩,
    key_sequence 0 [[99, 97, 116, 10, 10, 100, 111, 103, 0]]
      [99, 97, 116, 10, 10, 100, 111, 103] [] 9 3 (by decide!) (by decide!) (by decide!)
      (by decide!)⟩

/-! ## C14: the bound of the key array -/

/-- The loop of `lexis_array_init` when the tokens that are left, and the end
marker, do not fit behind index `ind` of an array of `cap` pointers: some
write goes to an index that is not below `cap`. -/
theorem lexis_loop_overflow (cap b : Nat) :
    ∀ (n : Nat) (rem done : List Nat) (m : Mem) (arr : List hash_key) (ind fuel : Nat),
      rem.length ≤ n → m[b]? = some (done ++ rem) → 0 ∈ rem →
      cap ≤ ind + (tokens rem).length → (tokens rem).length + 1 ≤ fuel →
      ∃ m1 lexis save1, strtok m none (some ⟨b, done.length⟩) = .ok (m1, lexis, save1) ∧
        lexis_loop cap fuel m1 (some arr) ind lexis save1 = .error .oob_write := by
  intro n
  induction n with
  | zero =>
    intro rem done m arr ind fuel hlen _ h0
    have : rem = [] := List.length_eq_zero.mp (by omega)
    subst this
    simp at h0
  | succ n ih =>
    intro rem done m arr ind fuel hlen hm h0 hcap hfuel
    obtain ⟨k, hsplit⟩ := text_split rem h0
    rcases hsplit with ⟨r, hrem⟩ | ⟨t, d, r, hrem, hne, ht, hd⟩
    · subst hrem
      rw [tokens_end] at hcap hfuel
      refine ⟨m, none, _, strtok_none m b k done r hm, ?_⟩
      obtain ⟨f, hf⟩ : ∃ f, fuel = f + 1 := ⟨fuel - 1, by omega⟩
      subst hf
      have hnlt : ¬ ind < cap := by simp at hcap; omega
      simp [lexis_loop, lexis_write, hnlt]
    · rcases hd with hd | ⟨hd, hr0⟩
      · subst hd hrem
        rw [tokens_last k t r hne ht] at hcap hfuel
        simp only [List.length_singleton] at hcap hfuel
        refine ⟨m, _, _, strtok_last m b k done t r hne ht hm, ?_⟩
        obtain ⟨f, hf⟩ : ∃ f, fuel = f + 2 := ⟨fuel - 2, by omega⟩
        subst hf
        by_cases hlt : ind < cap
        · have hm2 : m[b]? = some ((done ++ List.replicate k 10 ++ t)
              ++ (List.replicate 0 10 ++ 0 :: r)) := by
            rw [hm]; simp
          have hl2 : done.length + k + t.length
              = (done ++ List.replicate k 10 ++ t).length := by simp; omega
          have hnext := strtok_none m b 0 (done ++ List.replicate k 10 ++ t) r hm2
          rw [← hl2] at hnext
          have hnlt : ¬ ind + 1 < cap := by omega
          simp [lexis_loop, lexis_write, hlt, hnext, hnlt]
        · simp [lexis_loop, lexis_write, hlt]
      · subst hd hrem
        rw [tokens_cut k t r hne ht] at hcap hfuel
        simp only [List.length_cons] at hcap hfuel
        have hrlen : r.length ≤ n := by
          simp at hlen; omega
        obtain ⟨f, hf⟩ : ∃ f, fuel = f + 1 := ⟨fuel - 1, by omega⟩
        subst hf
        refine ⟨_, _, _, strtok_cut m b k done t r hne ht hm, ?_⟩
        by_cases hlt : ind < cap
        · have hm1 : (m.set b (done ++ (List.replicate k 10 ++ (t ++ 0 :: r))))[b]?
              = some ((done ++ (List.replicate k 10 ++ (t ++ [0]))) ++ r) := by
            rw [mem_getElem?_set _ hm]; simp
          obtain ⟨m2, lexis2, save2, hst2, hloop2⟩ :=
            ih r (done ++ (List.replicate k 10 ++ (t ++ [0])))
              (m.set b (done ++ (List.replicate k 10 ++ (t ++ 0 :: r))))
              (arr.set ind (some ⟨b, done.length + k⟩)) (ind + 1) f hrlen hm1 hr0
              (by omega) (by omega)
          have hl3 : (done ++ (List.replicate k 10 ++ (t ++ [0]))).length
              = done.length + k + t.length + 1 := by simp; omega
          rw [hl3] at hst2
          simp only [lexis_loop, lexis_write, hlt, if_true, hst2, hloop2]
        · simp [lexis_loop, lexis_write, hlt]

/-- What `lexis_array_init` does when the tokens of the text and the end marker
do not fit in an array of `cap` pointers. -/
theorem lexis_array_init_cap_overflow (cap b : Nat) (m : Mem) (text tail : List Nat)
    (size fuel : Nat) (hm : m[b]? = some (text ++ 0 :: tail))
    (hcap : cap ≤ (tokens text).length) (hfuel : (tokens text).length + 1 ≤ fuel) :
    lexis_array_init_cap cap true fuel m ⟨some ⟨b, 0⟩, size⟩ = .error .oob_write := by
  have htok : tokens (text ++ 0 :: tail) = tokens text := tokens_aux_zero text tail []
  obtain ⟨m1, lexis, save1, hst, hloop⟩ :=
    lexis_loop_overflow cap b (text ++ 0 :: tail).length (text ++ 0 :: tail) [] m
      (List.replicate cap none) 0 fuel (Nat.le_refl _) (by simpa using hm) (by simp)
      (by rw [htok]; omega) (by rw [htok]; exact hfuel)
  unfold lexis_array_init_cap
  have hfirst : strtok m (some ⟨b, 0⟩) none = strtok m none (some ⟨b, 0⟩) := rfl
  simp only [if_true, hfirst]
  simp only [List.length_nil] at hst
  rw [hst]
  exact hloop

theorem tokens_full_text : tokens full_text = List.replicate MAX_DICTIONARY_SIZE [97] := by
  unfold full_text
  apply tokens_lines_text
  intro k hk
  have := List.eq_of_mem_replicate hk
  subst this
  decide

/-- C14. Bounded key array: for a dictionary text held with its terminator in
the buffer block, every write of `lexis_array_init` to the pointer array, the
end marker included, goes to an index below `MAX_DICTIONARY_SIZE` if and only
if the text has at most `MAX_DICTIONARY_SIZE - 1` keys, and then the call
returns; for a text with `MAX_DICTIONARY_SIZE` keys or more the unchecked loop
reaches a write outside the array. -/
theorem bounded_key_array (b : Nat) (m : Mem) (text tail : List Nat) (size fuel : Nat)
    (hm : m[b]? = some (text ++ 0 :: tail)) (hfuel : (tokens text).length + 1 ≤ fuel) :
    (fault_of (lexis_array_init true fuel m ⟨some ⟨b, 0⟩, size⟩) ≠ some Fault.oob_write
      ↔ (tokens text).length ≤ MAX_DICTIONARY_SIZE - 1) ∧
    ((tokens text).length ≤ MAX_DICTIONARY_SIZE - 1 →
      ∃ m' arr, lexis_array_init true fuel m ⟨some ⟨b, 0⟩, size⟩ = .ok (m', arr) ∧
        arr.length = MAX_DICTIONARY_SIZE ∧ (lexis_keys arr).length = (tokens text).length) ∧
    (MAX_DICTIONARY_SIZE ≤ (tokens text).length →
      lexis_array_init true fuel m ⟨some ⟨b, 0⟩, size⟩ = .error .oob_write) := by
  have hpos : 0 < MAX_DICTIONARY_SIZE := by decide
  have hok : (tokens text).length ≤ MAX_DICTIONARY_SIZE - 1 →
      ∃ m' arr, lexis_array_init true fuel m ⟨some ⟨b, 0⟩, size⟩ = .ok (m', arr) ∧
        arr.length = MAX_DICTIONARY_SIZE ∧
        (lexis_keys arr).length = (tokens text).length := by
    intro hle
    obtain ⟨m', ptrs, rest, h1, h2, _, h4, _, _⟩ :=
      lexis_array_init_cap_spec MAX_DICTIONARY_SIZE b m text tail size fuel hm (by omega) hfuel
    refine ⟨m', _, h1, ?_, ?_⟩
    · simp; omega
    · rw [lexis_keys_map_some, ← read_keys_length h4]
  have hbad : MAX_DICTIONARY_SIZE ≤ (tokens text).length →
      lexis_array_init true fuel m ⟨some ⟨b, 0⟩, size⟩ = .error .oob_write := fun hge =>
    lexis_array_init_cap_overflow MAX_DICTIONARY_SIZE b m text tail size fuel hm hge hfuel
  refine ⟨⟨?_, ?_⟩, hok, hbad⟩
  · intro hne
    by_contra hgt
    exact hne (by rw [hbad (by omega)]; rfl)
  · intro hle
    obtain ⟨m', arr, h1, _⟩ := hok hle
    rw [h1]
    simp [fault_of]

/-- C14 at a text of two keys, and at the text of `MAX_DICTIONARY_SIZE` lines
`a`, for which the end marker would go to index `MAX_DICTIONARY_SIZE`. -/
theorem bounded_key_array_witness :
    (([[99, 97, 116, 10, 10, 100, 111, 103, 0]][0]?
          = some ([99, 97, 116, 10, 10, 100, 111, 103] ++ 0 :: []) ∧
        (tokens [99, 97, 116, 10, 10, 100, 111, 103]).length + 1 ≤ 3) ∧
      ∃ m' arr,
        lexis_array_init true 3 [[99, 97, 116, 10, 10, 100, 111, 103, 0]] ⟨some ⟨0, 0⟩, 9⟩
          = .ok (m', arr) ∧
        arr.length = MAX_DICTIONARY_SIZE ∧
        (lexis_keys arr).length = (tokens [99, 97, 116, 10, 10, 100, 111, 103]).length) ∧
    (([full_text ++ 0 :: []][0]? = some (full_text ++ 0 :: []) ∧
        (tokens full_text).length + 1 ≤ MAX_DICTIONARY_SIZE + 1) ∧
      lexis_array_init true (MAX_DICTIONARY_SIZE + 1) [full_text ++ 0 :: []]
          ⟨some ⟨0, 0⟩, 2 * MAX_DICTIONARY_SIZE + 1⟩
        = .error .oob_write) := by
  have hlen : (tokens full_text).length = MAX_DICTIONARY_SIZE := by
    rw [tokens_full_text, List.length_replicate]
  have hfuel : (tokens full_text).length + 1 ≤ MAX_DICTIONARY_SIZE + 1 := by
    rw [hlen]
  have hmem : [full_text ++ 0 :: []][0]? = some (full_text ++ 0 :: []) := by simp
  refine ⟨⟨⟨by decide!, by decide!⟩, ?_⟩, ⟨hmem, hfuel⟩, ?_⟩
  · exact (bounded_key_array 0 [[99, 97, 116, 10, 10, 100, 111, 103, 0]]
      [99, 97, 116, 10, 10, 100, 111, 103] [] 9 3 (by decide!) (by decide!)).2.1 (by decide!)
  · exact (bounded_key_array 0 [full_text ++ 0 :: []] full_text []
      (2 * MAX_DICTIONARY_SIZE + 1) (MAX_DICTIONARY_SIZE + 1) hmem hfuel).2.2
      (by rw [hlen])

/-! ## C13: the frame of compaction -/

theorem same_links_refl (nodes : List list_node) : same_links nodes nodes :=
  ⟨rfl, rfl, fun _ => rfl⟩

theorem same_links_trans {a b c : List list_node} (h1 : same_links a b)
    (h2 : same_links b c) : same_links a c :=
  ⟨h2.1.trans h1.1, h2.2.1.trans h1.2.1, fun j => (h2.2.2 j).trans (h1.2.2 j)⟩

theorem same_links_set_key (nodes : List list_node) (i : Nat) (k : hash_key) (hi : i ≠ 0) :
    same_links nodes (set_key nodes i k) := by
  refine ⟨set_key_length nodes i k, ?_, ?_⟩
  · rw [getElem?_set_key]
    cases nodes[0]? <;> simp [hi]
  · intro j
    rw [getElem?_set_key]
    cases nodes[j]? with
    | none => rfl
    | some nd => by_cases hij : i = j <;> simp [hij]

theorem memcpy_frame {m m' : Mem} {dst src : Option Ptr} {n : Nat}
    (h : memcpy m dst src n = .ok m') :
    ∃ dp, dst = some dp ∧ m'.length = m.length ∧ ∀ b, b ≠ dp.blk → m'[b]? = m[b]? := by
  unfold memcpy at h
  cases src with
  | none => simp at h
  | some sp =>
    simp only at h
    cases hsb : m[sp.blk]? with
    | none => simp [hsb] at h
    | some sb =>
      simp only [hsb] at h
      by_cases h1 : sp.off + n ≤ sb.length
      · simp only [h1, if_true] at h
        cases dst with
        | none => simp at h
        | some dp =>
          simp only at h
          cases hdb : m[dp.blk]? with
          | none => simp [hdb] at h
          | some db =>
            simp only [hdb] at h
            by_cases h2 : dp.off + n ≤ db.length
            · simp only [h2, if_true] at h
              injection h with h
              subst h
              exact ⟨dp, rfl, by simp, fun b hb => List.getElem?_set_ne (Ne.symm hb)⟩
            · simp [h2] at h
      · simp [h1] at h

/-- The inner loop of `hash_table_rebuild`, whenever it returns: the node array
keeps its length, its sentinel and all links; the heap keeps its blocks, except
the one `next_key_addr` points into. -/
theorem rebuild_chain_frame :
    ∀ (fuel : Nat) (m : Mem) (nodes : List list_node) (cur : Nat) (addr : Option Ptr)
      (m' : Mem) (nodes' : List list_node) (addr' : Option Ptr),
      rebuild_chain fuel m nodes cur addr = .ok (m', nodes', addr') →
      same_links nodes nodes' ∧ m'.length = m.length ∧
      addr'.map (fun a => a.blk) = addr.map (fun a => a.blk) ∧
      ∀ b, (∀ dp, addr = some dp → b ≠ dp.blk) → m'[b]? = m[b]? := by
  intro fuel
  induction fuel with
  | zero => intro m nodes cur addr m' nodes' addr' h; simp [rebuild_chain] at h
  | succ f ih =>
    intro m nodes cur addr m' nodes' addr' h
    unfold rebuild_chain at h
    by_cases hc : cur = 0
    · simp only [hc, if_true] at h
      injection h with h
      injection h with h1 h
      injection h with h2 h3
      subst h1 h2 h3
      exact ⟨same_links_refl _, rfl, rfl, fun _ _ => rfl⟩
    · simp only [hc, if_false] at h
      cases hn : nodes[cur]? with
      | none => simp [hn] at h
      | some nd =>
        simp only [hn] at h
        cases hs : strlen m nd.data with
        | error e => simp [hs] at h
        | ok len =>
          simp only [hs] at h
          cases hm : memcpy m addr nd.data (len + 1) with
          | error e => simp [hm] at h
          | ok m1 =>
            simp only [hm] at h
            obtain ⟨dp, hdp, hlen1, hblk1⟩ := memcpy_frame hm
            rw [set_key_eq_set hn addr] at h
            obtain ⟨g1, g2, g3, g4⟩ := ih _ _ _ _ _ _ _ h
            refine ⟨same_links_trans (same_links_set_key nodes cur addr hc) g1,
              g2.trans hlen1, ?_, ?_⟩
            · rw [g3, hdp]; rfl
            · intro b hb
              have hb' : b ≠ dp.blk := hb dp hdp
              rw [g4 b (by
                intro dq hdq
                rw [hdp] at hdq
                simp at hdq
                rw [← hdq]
                exact hb'), hblk1 b hb']

/-- The outer loop of `hash_table_rebuild`, whenever it returns. -/
theorem rebuild_loop_frame (fuel : Nat) :
    ∀ (r chain : Nat) (m : Mem) (data : List list) (addr : Option Ptr) (m' : Mem)
      (data' : List list) (addr' : Option Ptr),
      rebuild_loop fuel r chain m data addr = .ok (m', data', addr') →
      data'.length = data.length ∧
      (∀ (c : Nat) (l : list), data[c]? = some l →
        ∃ l', data'[c]? = some l' ∧ same_links l.fictional l'.fictional) ∧
      m'.length = m.length ∧ addr'.map (fun a => a.blk) = addr.map (fun a => a.blk) ∧
      ∀ b, (∀ dp, addr = some dp → b ≠ dp.blk) → m'[b]? = m[b]? := by
  intro r
  induction r with
  | zero =>
    intro chain m data addr m' data' addr' h
    simp only [rebuild_loop] at h
    injection h with h
    injection h with h1 h
    injection h with h2 h3
    subst h1 h2 h3
    exact ⟨rfl, fun c l hl => ⟨l, hl, same_links_refl _⟩, rfl, rfl, fun _ _ => rfl⟩
  | succ r ih =>
    intro chain m data addr m' data' addr' h
    unfold rebuild_loop at h
    cases hd : data[chain]? with
    | none => simp [hd] at h
    | some l0 =>
      simp only [hd] at h
      cases hf : l0.fictional[0]? with
      | none => simp [hf] at h
      | some fict =>
        simp only [hf] at h
        cases hch : rebuild_chain fuel m l0.fictional fict.next addr with
        | error e => simp [hch] at h
        | ok res =>
          obtain ⟨m1, nodes1, addr1⟩ := res
          simp only [hch] at h
          obtain ⟨c1, c2, c3, c4⟩ := rebuild_chain_frame _ _ _ _ _ _ _ _ hch
          obtain ⟨g1, g2, g3, g4, g5⟩ := ih _ _ _ _ _ _ _ h
          have hlt : chain < data.length := by
            rcases Nat.lt_or_ge chain data.length with h1 | h1
            · exact h1
            · simp [List.getElem?_eq_none h1] at hd
          refine ⟨by simpa using g1, ?_, g3.trans c2, g4.trans c3, ?_⟩
          · intro c l hl
            by_cases hcc : chain = c
            · subst hcc
              rw [hd] at hl
              injection hl with hl
              subst hl
              obtain ⟨l', hl', hs'⟩ := g2 chain ⟨nodes1⟩ (List.getElem?_set_self hlt)
              exact ⟨l', hl', same_links_trans c1 hs'⟩
            · exact g2 c l (by rw [List.getElem?_set_ne hcc]; exact hl)
          · intro b hb
            rw [g5 b (by
              intro dq hdq
              rw [hdq] at c3
              cases haddr : addr with
              | none => simp [haddr] at c3
              | some dp =>
                simp [haddr] at c3
                rw [c3]
                exact hb dp haddr), c4 b hb]

theorem chain_walk_links {nodes nodes' : List list_node}
    (h : ∀ j : Nat, (nodes'[j]?).map (fun nd => (nd.next, nd.prev))
      = (nodes[j]?).map (fun nd => (nd.next, nd.prev))) :
    ∀ (f cur : Nat), chain_walk f nodes' cur = chain_walk f nodes cur := by
  intro f
  induction f with
  | zero => intro cur; rfl
  | succ f ih =>
    intro cur
    unfold chain_walk
    by_cases hc : cur = 0
    · simp [hc]
    · simp only [hc, if_false]
      have hj := h cur
      cases hn : nodes[cur]? with
      | none =>
        cases hn' : nodes'[cur]? with
        | none => rfl
        | some nd' => simp [hn, hn'] at hj
      | some nd =>
        cases hn' : nodes'[cur]? with
        | none => simp [hn, hn'] at hj
        | some nd' =>
          simp [hn, hn'] at hj
          simp only [hj.1, ih]

theorem list_walk_same_links {l l' : list} (h : same_links l.fictional l'.fictional)
    (f : Nat) : list_walk f l' = list_walk f l := by
  unfold list_walk
  rw [h.2.1]
  cases l.fictional[0]? with
  | none => rfl
  | some fict => exact chain_walk_links h.2.2 f fict.next

/-- C13. Frame of compaction: whenever `hash_table_rebuild` returns, the table
it returns has the size, the hash function and the comparator of the table it
was given, and as many chains; chain by chain the node array has the same
length, the same sentinel and, node by node, the same `next` and `prev` links,
so that nodes differ at most in their key reference and every chain has the
same walk (the same nodes in the same order) for every bound on the number of
steps; and every block of the heap that existed before the call is
unchanged. -/
theorem compaction_frame (asserts calloc_ok : Bool) (fuel : Nat) (store : hash_table)
    (total_key_size : Nat) (m : Mem) (store' : hash_table) (m' : Mem) (arena : Option Ptr)
    (h : hash_table_rebuild asserts calloc_ok fuel store total_key_size m
      = .ok (store', m', arena)) :
    store'.size = store.size ∧ store'.hash_calc = store.hash_calc ∧
    store'.key_cmp = store.key_cmp ∧ store'.data.length = store.data.length ∧
    (∀ (c : Nat) (l : list), store.data[c]? = some l →
      ∃ l', store'.data[c]? = some l' ∧ l'.fictional.length = l.fictional.length ∧
        l'.fictional[0]? = l.fictional[0]? ∧
        (∀ (j : Nat) (nd : list_node), l.fictional[j]? = some nd →
          ∃ nd', l'.fictional[j]? = some nd' ∧ nd'.next = nd.next ∧ nd'.prev = nd.prev) ∧
        ∀ f, list_walk f l' = list_walk f l) ∧
    ∀ b, b < m.length → m'[b]? = m[b]? := by
  unfold hash_table_rebuild at h
  simp only at h
  by_cases ha : (asserts && (log_calloc calloc_ok m total_key_size).2.isNone) = true
  · simp [ha] at h
  · simp only [ha, Bool.false_eq_true, if_false] at h
    cases hl : rebuild_loop fuel HASH_TABLE_SIZE 0 (log_calloc calloc_ok m total_key_size).1
        store.data (log_calloc calloc_ok m total_key_size).2 with
    | error e => simp [hl] at h
    | ok res =>
      obtain ⟨m1, data1, addr1⟩ := res
      simp only [hl] at h
      injection h with h
      injection h with h1 h
      injection h with h2 h3
      subst h1 h2
      obtain ⟨g1, g2, _, _, g5⟩ := rebuild_loop_frame fuel _ _ _ _ _ _ _ _ hl
      refine ⟨rfl, rfl, rfl, g1, ?_, ?_⟩
      · intro c l hc
        obtain ⟨l', hl', hs⟩ := g2 c l hc
        refine ⟨l', hl', hs.1, hs.2.1, ?_, list_walk_same_links hs⟩
        intro j nd hj
        have := hs.2.2 j
        rw [hj] at this
        cases hj' : l'.fictional[j]? with
        | none => simp [hj'] at this
        | some nd' =>
          simp [hj'] at this
          exact ⟨nd', rfl, this.1, this.2⟩
      · intro b hb
        cases calloc_ok with
        | false =>
          simp only [log_calloc, Bool.false_eq_true, if_false] at g5
          exact g5 b (fun dp hdp => by simp at hdp)
        | true =>
          simp only [log_calloc, if_true] at g5
          rw [g5 b (fun dp hdp => by
            simp at hdp
            rw [← hdp]
            exact Nat.ne_of_lt hb)]
          exact List.getElem?_append_left hb

/-- C13 at the small dictionary: the table of `cat`, `dog`, `cow`, `ox` and its
compaction into an arena of 15 bytes. -/
theorem compaction_frame_witness :
    hash_table_rebuild false true 2 demo_store 15 demo_lexis.1
      = .ok (demo_rebuilt,
          demo_lexis.1 ++ [encode [[99, 97, 116], [100, 111, 103], [111, 120], [99, 111, 119]]
            ++ List.replicate
              (15 - encoded_size [[99, 97, 116], [100, 111, 103], [111, 120], [99, 111, 119]])
              0],
          some ⟨demo_lexis.1.length, 0⟩) ∧
    (demo_rebuilt.size = demo_store.size ∧ demo_rebuilt.hash_calc = demo_store.hash_calc ∧
      demo_rebuilt.key_cmp = demo_store.key_cmp ∧
      demo_rebuilt.data.length = demo_store.data.length ∧
      (∀ (c : Nat) (l : list), demo_store.data[c]? = some l →
        ∃ l', demo_rebuilt.data[c]? = some l' ∧ l'.fictional.length = l.fictional.length ∧
          l'.fictional[0]? = l.fictional[0]? ∧
          (∀ (j : Nat) (nd : list_node), l.fictional[j]? = some nd →
            ∃ nd', l'.fictional[j]? = some nd' ∧ nd'.next = nd.next ∧ nd'.prev = nd.prev) ∧
          ∀ f, list_walk f l' = list_walk f l) ∧
      ∀ b, b < demo_lexis.1.length →
        (demo_lexis.1 ++ [encode [[99, 97, 116], [100, 111, 103], [111, 120], [99, 111, 119]]
            ++ List.replicate
              (15 - encoded_size [[99, 97, 116], [100, 111, 103], [111, 120], [99, 111, 119]])
              0])[b]? = demo_lexis.1[b]?) :=
  have hrun := hash_table_rebuild_spec false 2 demo_store 15 demo_lexis.1
    [[99, 97, 116], [100, 111, 103], [111, 120], [99, 111, 119]] (by decide!) (by decide!)
    (by decide!)
  ⟨hrun, compaction_frame false true 2 demo_store 15 demo_lexis.1 _ _ _ hrun⟩

/-! ## C12: termination of compaction -/

theorem forget_chain_copies :
    ∀ (fuel : Nat) (m : Mem) (nodes : List list_node) (cur : Nat) (addr : Option Ptr),
      forget_copies (rebuild_chain_copies fuel m nodes cur addr)
        = rebuild_chain fuel m nodes cur addr := by
  intro fuel
  induction fuel with
  | zero => intro m nodes cur addr; rfl
  | succ f ih =>
    intro m nodes cur addr
    unfold rebuild_chain_copies rebuild_chain
    by_cases hc : cur = 0
    · simp [hc, forget_copies]
    · simp only [hc, if_false]
      cases hn : nodes[cur]? with
      | none => rfl
      | some nd =>
        simp only []
        cases hs : strlen m nd.data with
        | error e => rfl
        | ok len =>
          simp only []
          cases hm : memcpy m addr nd.data (len + 1) with
          | error e => rfl
          | ok m1 =>
            simp only []
            rw [← ih]
            cases rebuild_chain_copies f m1 (nodes.set cur { nd with data := addr }) nd.next
                (addr.map (fun a => { a with off := a.off + (len + 1) })) with
            | error e => rfl
            | ok res => rfl

theorem forget_loop_copies (fuel : Nat) :
    ∀ (r chain : Nat) (m : Mem) (data : List list) (addr : Option Ptr),
      forget_copies (rebuild_loop_copies fuel r chain m data addr)
        = rebuild_loop fuel r chain m data addr := by
  intro r
  induction r with
  | zero => intro chain m data addr; rfl
  | succ r ih =>
    intro chain m data addr
    unfold rebuild_loop_copies rebuild_loop
    cases hd : data[chain]? with
    | none => rfl
    | some l0 =>
      simp only []
      cases hf : l0.fictional[0]? with
      | none => rfl
      | some fict =>
        simp only []
        rw [← forget_chain_copies]
        cases rebuild_chain_copies fuel m l0.fictional fict.next addr with
        | error e => rfl
        | ok res =>
          obtain ⟨m1, nodes1, addr1, tr⟩ := res
          simp only [forget_copies]
          rw [← ih]
          cases rebuild_loop_copies fuel r (chain + 1) m1
              (data.set chain { l0 with fictional := nodes1 }) addr1 with
          | error e => rfl
          | ok res2 => rfl

/-- Forgetting the copies of `hash_table_rebuild_copies` gives
`hash_table_rebuild`. -/
theorem forget_rebuild_copies (asserts calloc_ok : Bool) (fuel : Nat) (store : hash_table)
    (total_key_size : Nat) (m : Mem) :
    forget_copies (hash_table_rebuild_copies asserts calloc_ok fuel store total_key_size m)
      = hash_table_rebuild asserts calloc_ok fuel store total_key_size m := by
  unfold hash_table_rebuild_copies hash_table_rebuild
  simp only []
  by_cases ha : (asserts && (log_calloc calloc_ok m total_key_size).2.isNone) = true
  · simp [ha, forget_copies]
  · simp only [ha, Bool.false_eq_true, if_false]
    rw [← forget_loop_copies]
    cases rebuild_loop_copies fuel HASH_TABLE_SIZE 0 (log_calloc calloc_ok m total_key_size).1
        store.data (log_calloc calloc_ok m total_key_size).2 with
    | error e => rfl
    | ok res => rfl

theorem forget_copies_ok {α β γ δ : Type} {x : Except Fault (α × β × γ × δ)} {a : α} {b : β}
    {c : γ} (h : forget_copies x = .ok (a, b, c)) : ∃ d, x = .ok (a, b, c, d) := by
  cases x with
  | error e => simp [forget_copies] at h
  | ok res =>
    obtain ⟨a', b', c', d⟩ := res
    simp only [forget_copies] at h
    injection h with h
    injection h with h1 h
    injection h with h2 h3
    subst h1 h2 h3
    exact ⟨d, rfl⟩

/-- The copies of the inner loop, whenever it returns, are the nodes of the
walk from `cur`, in link order. -/
theorem chain_copies_walk :
    ∀ (fuel : Nat) (m : Mem) (nodes : List list_node) (cur : Nat) (addr : Option Ptr)
      (m' : Mem) (nodes' : List list_node) (addr' : Option Ptr) (copies : List Nat),
      rebuild_chain_copies fuel m nodes cur addr = .ok (m', nodes', addr', copies) →
      chain_walk fuel nodes cur = some copies := by
  intro fuel
  induction fuel with
  | zero => intro m nodes cur addr m' nodes' addr' copies h; simp [rebuild_chain_copies] at h
  | succ f ih =>
    intro m nodes cur addr m' nodes' addr' copies h
    unfold rebuild_chain_copies at h
    unfold chain_walk
    by_cases hc : cur = 0
    · simp only [hc, if_true] at h ⊢
      injection h with h
      injection h with _ h
      injection h with _ h
      injection h with _ h
      rw [h]
    · simp only [hc, if_false] at h ⊢
      cases hn : nodes[cur]? with
      | none => simp [hn] at h
      | some nd =>
        simp only [hn] at h ⊢
        cases hs : strlen m nd.data with
        | error e => simp [hs] at h
        | ok len =>
          simp only [hs] at h
          cases hm : memcpy m addr nd.data (len + 1) with
          | error e => simp [hm] at h
          | ok m1 =>
            simp only [hm] at h
            cases hrec : rebuild_chain_copies f m1 (nodes.set cur { nd with data := addr })
                nd.next (addr.map (fun a => { a with off := a.off + (len + 1) })) with
            | error e => simp [hrec] at h
            | ok res =>
              obtain ⟨m2, nodes2, addr2, tr⟩ := res
              simp only [hrec] at h
              injection h with h
              injection h with _ h
              injection h with _ h
              injection h with _ h
              have hw := ih _ _ _ _ _ _ _ _ hrec
              rw [set_key_eq_set hn addr, chain_walk_set_key] at hw
              rw [hw, ← h]
              rfl

theorem drop_of_getElem? {α : Type} :
    ∀ {data : List α} {c : Nat} {l : α}, data[c]? = some l →
      data.drop c = l :: data.drop (c + 1) := by
  intro data
  induction data with
  | nil => intro c l h; simp at h
  | cons x xs ih =>
    intro c l h
    cases c with
    | zero => simp at h; simp [h]
    | succ c => simp at h; simpa using ih h

theorem drop_succ_set {α : Type} :
    ∀ (data : List α) (c : Nat) (x : α), (data.set c x).drop (c + 1) = data.drop (c + 1) := by
  intro data
  induction data with
  | nil => intro c x; rfl
  | cons y ys ih =>
    intro c x
    cases c with
    | zero => rfl
    | succ c => simpa using ih c x

/-- The copies of the outer loop, whenever it returns, are the stored nodes of
the chains it went through. -/
theorem loop_copies_nodes (fuel : Nat) :
    ∀ (r chain : Nat) (m : Mem) (data : List list) (addr : Option Ptr) (m' : Mem)
      (data' : List list) (addr' : Option Ptr) (copies : List (Nat × Nat)),
      rebuild_loop_copies fuel r chain m data addr = .ok (m', data', addr', copies) →
      table_nodes fuel chain ((data.drop chain).take r) = some copies := by
  intro r
  induction r with
  | zero =>
    intro chain m data addr m' data' addr' copies h
    simp only [rebuild_loop_copies] at h
    injection h with h
    injection h with _ h
    injection h with _ h
    injection h with _ h
    rw [← h]
    simp [table_nodes]
  | succ r ih =>
    intro chain m data addr m' data' addr' copies h
    unfold rebuild_loop_copies at h
    cases hd : data[chain]? with
    | none => simp [hd] at h
    | some l0 =>
      simp only [hd] at h
      cases hf : l0.fictional[0]? with
      | none => simp [hf] at h
      | some fict =>
        simp only [hf] at h
        cases hch : rebuild_chain_copies fuel m l0.fictional fict.next addr with
        | error e => simp [hch] at h
        | ok res =>
          obtain ⟨m1, nodes1, addr1, tr⟩ := res
          simp only [hch] at h
          cases hrec : rebuild_loop_copies fuel r (chain + 1) m1
              (data.set chain { l0 with fictional := nodes1 }) addr1 with
          | error e => simp [hrec] at h
          | ok res2 =>
            obtain ⟨m2, data2, addr2, trs⟩ := res2
            simp only [hrec] at h
            injection h with h
            injection h with _ h
            injection h with _ h
            injection h with _ h
            have hw := chain_copies_walk _ _ _ _ _ _ _ _ _ hch
            have hrest := ih _ _ _ _ _ _ _ _ hrec
            rw [drop_succ_set] at hrest
            rw [drop_of_getElem? hd, List.take_succ_cons]
            simp only [table_nodes, list_walk, hf, hw, hrest, Option.map, ← h]

theorem table_nodes_ge (fuel : Nat) :
    ∀ (data : List list) (c : Nat) (tn : List (Nat × Nat)),
      table_nodes fuel c data = some tn → ∀ x ∈ tn, c ≤ x.1 := by
  intro data
  induction data with
  | nil => intro c tn h x hx; simp [table_nodes] at h; subst h; simp at hx
  | cons l ls ih =>
    intro c tn h x hx
    unfold table_nodes at h
    cases hw : list_walk fuel l with
    | none => simp [hw] at h
    | some p =>
      simp only [hw] at h
      cases ht : table_nodes fuel (c + 1) ls with
      | none => simp [ht] at h
      | some rest =>
        simp [ht] at h
        subst h
        rcases List.mem_append.mp hx with e | e
        · obtain ⟨i, _, hi⟩ := List.mem_map.mp e
          rw [← hi]
        · have := ih (c + 1) rest ht x e
          omega

theorem list_walk_nodup {fuel : Nat} {l : list} {p : List Nat}
    (h : list_walk fuel l = some p) : p.Nodup := by
  unfold list_walk at h
  cases hf : l.fictional[0]? with
  | none => simp [hf] at h
  | some fict => simp only [hf] at h; exact chain_walk_nodup h

/-- No stored node is listed twice. -/
theorem table_nodes_nodup (fuel : Nat) :
    ∀ (data : List list) (c : Nat) (tn : List (Nat × Nat)),
      table_nodes fuel c data = some tn → tn.Nodup := by
  intro data
  induction data with
  | nil => intro c tn h; simp [table_nodes] at h; subst h; simp
  | cons l ls ih =>
    intro c tn h
    unfold table_nodes at h
    cases hw : list_walk fuel l with
    | none => simp [hw] at h
    | some p =>
      simp only [hw] at h
      cases ht : table_nodes fuel (c + 1) ls with
      | none => simp [ht] at h
      | some rest =>
        simp [ht] at h
        subst h
        refine List.nodup_append.mpr ⟨?_, ih (c + 1) rest ht, ?_⟩
        · exact (list_walk_nodup hw).map (fun a b hab => by injection hab)
        · intro x hx1 hx2
          obtain ⟨i, _, hi⟩ := List.mem_map.mp hx1
          have := table_nodes_ge fuel ls (c + 1) rest ht x hx2
          rw [← hi] at this
          simp at this

/-- The stored nodes are the nodes on the walks of the chains. -/
theorem table_nodes_mem (fuel : Nat) :
    ∀ (data : List list) (c : Nat) (tn : List (Nat × Nat)),
      table_nodes fuel c data = some tn →
      ∀ (k i : Nat), (c + k, i) ∈ tn ↔
        ∃ l p, data[k]? = some l ∧ list_walk fuel l = some p ∧ i ∈ p := by
  intro data
  induction data with
  | nil =>
    intro c tn h k i
    simp [table_nodes] at h
    subst h
    simp
  | cons l ls ih =>
    intro c tn h k i
    unfold table_nodes at h
    cases hw : list_walk fuel l with
    | none => simp [hw] at h
    | some p =>
      simp only [hw] at h
      cases ht : table_nodes fuel (c + 1) ls with
      | none => simp [ht] at h
      | some rest =>
        simp [ht] at h
        subst h
        cases k with
        | zero =>
          constructor
          · intro hm
            rcases List.mem_append.mp hm with e | e
            · obtain ⟨j, hj, hji⟩ := List.mem_map.mp e
              injection hji with _ hji
              subst hji
              exact ⟨l, p, by simp, hw, hj⟩
            · have := table_nodes_ge fuel ls (c + 1) rest ht _ e
              simp at this
          · rintro ⟨l', p', h1, h2, h3⟩
            simp at h1
            subst h1
            rw [hw] at h2
            injection h2 with h2
            subst h2
            exact List.mem_append_left _ (List.mem_map.mpr ⟨i, h3, rfl⟩)
        | succ k =>
          have hkey := ih (c + 1) rest ht k i
          have hc : c + 1 + k = c + (k + 1) := by omega
          rw [hc] at hkey
          constructor
          · intro hm
            rcases List.mem_append.mp hm with e | e
            · obtain ⟨j, _, hji⟩ := List.mem_map.mp e
              injection hji with hji _
              omega
            · obtain ⟨l', p', h1, h2, h3⟩ := hkey.mp e
              exact ⟨l', p', by simpa using h1, h2, h3⟩
          · rintro ⟨l', p', h1, h2, h3⟩
            exact List.mem_append_right _ (hkey.mpr ⟨l', p', by simpa using h1, h2, h3⟩)

/-- The stored nodes are as many as the stored keys. -/
theorem table_nodes_length {m : Mem} {fuel : Nat} :
    ∀ (data : List list) (c : Nat) (all : List (List Nat)),
      table_keys m fuel data = some all →
      ∃ tn, table_nodes fuel c data = some tn ∧ tn.length = all.length := by
  intro data
  induction data with
  | nil => intro c all h; simp [table_keys] at h; subst h; exact ⟨[], rfl, rfl⟩
  | cons l ls ih =>
    intro c all h
    obtain ⟨ss, rest, hc, ht, hall⟩ := table_keys_cons h
    obtain ⟨_, p, _, _, hlw, hwk⟩ := chain_keys_some hc
    obtain ⟨tn, htn, hlen⟩ := ih (c + 1) rest ht
    refine ⟨p.map (fun i => (c, i)) ++ tn, by simp [table_nodes, hlw, htn], ?_⟩
    simp [hall, hlen, walk_keys_length hwk]

theorem strlen_ne_no_fuel (m : Mem) (k : hash_key) : strlen m k ≠ .error .no_fuel := by
  unfold strlen
  cases k with
  | none => simp
  | some q =>
    simp only []
    cases hq : read_cstr m q <;> simp

theorem memcpy_ne_no_fuel (m : Mem) (dst src : Option Ptr) (n : Nat) :
    memcpy m dst src n ≠ .error .no_fuel := by
  unfold memcpy
  cases src with
  | none => simp
  | some sp =>
    simp only []
    cases m[sp.blk]? with
    | none => simp
    | some sb =>
      simp only []
      by_cases h1 : sp.off + n ≤ sb.length
      · simp only [h1, if_true]
        cases dst with
        | none => simp
        | some dp =>
          simp only []
          cases m[dp.blk]? with
          | none => simp
          | some db =>
            simp only []
            by_cases h2 : dp.off + n ≤ db.length <;> simp [h2]
      · simp [h1]

/-- The inner loop on a chain that leads back to the sentinel within `fuel`
loop tests never runs out of fuel, whatever the heap and the arena. -/
theorem rebuild_chain_no_fuel :
    ∀ (fuel : Nat) (nodes : List list_node) (cur : Nat) (p : List Nat),
      chain_walk fuel nodes cur = some p →
      ∀ (m : Mem) (addr : Option Ptr), rebuild_chain fuel m nodes cur addr ≠ .error .no_fuel := by
  intro fuel
  induction fuel with
  | zero => intro nodes cur p h; simp [chain_walk] at h
  | succ f ih =>
    intro nodes cur p hw m addr
    rcases chain_walk_succ hw with ⟨hc, _⟩ | ⟨hc, nd, p', hn, hw', _⟩
    · simp [rebuild_chain, hc]
    · unfold rebuild_chain
      simp only [hc, if_false, hn]
      cases hs : strlen m nd.data with
      | error e =>
        simp only []
        intro he
        injection he with he
        exact strlen_ne_no_fuel m nd.data (by rw [hs, he])
      | ok len =>
        simp only []
        cases hm : memcpy m addr nd.data (len + 1) with
        | error e =>
          simp only []
          intro he
          injection he with he
          exact memcpy_ne_no_fuel m addr nd.data (len + 1) (by rw [hm, he])
        | ok m1 =>
          simp only []
          rw [set_key_eq_set hn addr]
          exact ih _ _ p' (by rw [chain_walk_set_key]; exact hw') _ _

theorem list_walk_mono {f : Nat} {l : list} (h : (list_walk f l).isSome = true) (f' : Nat)
    (hf : f ≤ f') : (list_walk f' l).isSome = true := by
  unfold list_walk at h ⊢
  cases hfi : l.fictional[0]? with
  | none => simp [hfi] at h
  | some fict =>
    simp only [hfi] at h ⊢
    cases hw : chain_walk f l.fictional fict.next with
    | none => simp [hw] at h
    | some p => simp [chain_walk_mono hw f' hf]

/-- The outer loop on chains that all lead back to their sentinel within `fuel`
loop tests never runs out of fuel. -/
theorem rebuild_loop_no_fuel (fuel : Nat) :
    ∀ (r chain : Nat) (m : Mem) (data : List list) (addr : Option Ptr),
      (∀ l ∈ data, (list_walk fuel l).isSome = true) →
      rebuild_loop fuel r chain m data addr ≠ .error .no_fuel := by
  intro r
  induction r with
  | zero => intro chain m data addr _; simp [rebuild_loop]
  | succ r ih =>
    intro chain m data addr hinv
    unfold rebuild_loop
    cases hd : data[chain]? with
    | none => simp
    | some l0 =>
      simp only []
      have hmem : l0 ∈ data := List.getElem?_mem hd
      have hw0 := hinv l0 hmem
      cases hf : l0.fictional[0]? with
      | none => simp
      | some fict =>
        simp only []
        have hcw : ∃ p, chain_walk fuel l0.fictional fict.next = some p := by
          unfold list_walk at hw0
          simp only [hf] at hw0
          cases hx : chain_walk fuel l0.fictional fict.next with
          | none => simp [hx] at hw0
          | some p => exact ⟨p, rfl⟩
        obtain ⟨p, hp⟩ := hcw
        cases hch : rebuild_chain fuel m l0.fictional fict.next addr with
        | error e =>
          simp only []
          intro he
          injection he with he
          exact rebuild_chain_no_fuel fuel _ _ p hp m addr (by rw [hch, he])
        | ok res =>
          obtain ⟨m1, nodes1, addr1⟩ := res
          simp only []
          obtain ⟨c1, _, _, _⟩ := rebuild_chain_frame _ _ _ _ _ _ _ _ hch
          apply ih
          intro l hl
          rcases List.mem_or_eq_of_mem_set hl with e | e
          · exact hinv l e
          · subst e
            have hsame : list_walk fuel ⟨nodes1⟩ = list_walk fuel l0 :=
              @list_walk_same_links l0 ⟨nodes1⟩ c1 fuel
            rw [hsame]
            exact hw0

/-- The copies of `hash_table_rebuild`, whenever it returns, are the stored
nodes of the first `HASH_TABLE_SIZE` chains. -/
theorem rebuild_copies_nodes (asserts calloc_ok : Bool) (fuel : Nat) (store : hash_table)
    (total_key_size : Nat) (m : Mem) (store' : hash_table) (m' : Mem) (arena : Option Ptr)
    (copies : List (Nat × Nat))
    (h : hash_table_rebuild_copies asserts calloc_ok fuel store total_key_size m
      = .ok (store', m', arena, copies)) :
    table_nodes fuel 0 (store.data.take HASH_TABLE_SIZE) = some copies := by
  unfold hash_table_rebuild_copies at h
  simp only at h
  by_cases ha : (asserts && (log_calloc calloc_ok m total_key_size).2.isNone) = true
  · simp [ha] at h
  · simp only [ha, Bool.false_eq_true, if_false] at h
    cases hl : rebuild_loop_copies fuel HASH_TABLE_SIZE 0
        (log_calloc calloc_ok m total_key_size).1 store.data
        (log_calloc calloc_ok m total_key_size).2 with
    | error e => simp [hl] at h
    | ok res =>
      obtain ⟨m1, data1, addr1, tr⟩ := res
      simp only [hl] at h
      injection h with h
      injection h with _ h
      injection h with _ h
      injection h with _ h
      have := loop_copies_nodes fuel _ _ _ _ _ _ _ _ _ hl
      rw [List.drop_zero] at this
      rw [← h]
      exact this

/-- C12. Termination of compaction: if every chain of the table leads from the
sentinel's successor back to the sentinel within `fuel0` loop tests, then
`hash_table_rebuild` never runs out of steps when each inner loop is allowed
`fuel0` tests or more, whatever the outcome of the allocation and the size
hint. If moreover the table has `HASH_TABLE_SIZE` chains with readable keys and
the hint is not below the sum of the encoded key lengths, the call returns and
its copies are exactly the stored nodes, chain after chain in link order: each
node of each chain once, as many copies as stored keys. -/
theorem compaction_terminates (fuel0 fuel : Nat) (store : hash_table) (m : Mem)
    (hfuel : fuel0 ≤ fuel) (hinv : ∀ l ∈ store.data, (list_walk fuel0 l).isSome = true) :
    (∀ (asserts calloc_ok : Bool) (total_key_size : Nat),
      fault_of (hash_table_rebuild asserts calloc_ok fuel store total_key_size m)
        ≠ some Fault.no_fuel) ∧
    (∀ (asserts : Bool) (total_key_size : Nat) (all : List (List Nat)),
      store.data.length = HASH_TABLE_SIZE → table_keys m fuel0 store.data = some all →
      encoded_size all ≤ total_key_size →
      ∃ store' m' arena copies,
        hash_table_rebuild_copies asserts true fuel store total_key_size m
          = .ok (store', m', arena, copies) ∧
        hash_table_rebuild asserts true fuel store total_key_size m
          = .ok (store', m', arena) ∧
        table_nodes fuel 0 store.data = some copies ∧ copies.Nodup ∧
        copies.length = all.length ∧
        ∀ (c i : Nat), (c, i) ∈ copies ↔
          ∃ l p, store.data[c]? = some l ∧ list_walk fuel l = some p ∧ i ∈ p) := by
  constructor
  · intro asserts calloc_ok total_key_size
    have hloop := rebuild_loop_no_fuel fuel HASH_TABLE_SIZE 0
      (log_calloc calloc_ok m total_key_size).1 store.data
      (log_calloc calloc_ok m total_key_size).2
      (fun l hl => list_walk_mono (hinv l hl) fuel hfuel)
    unfold hash_table_rebuild
    simp only []
    by_cases ha : (asserts && (log_calloc calloc_ok m total_key_size).2.isNone) = true
    · simp [ha, fault_of]
    · simp only [ha, Bool.false_eq_true, if_false]
      cases hl : rebuild_loop fuel HASH_TABLE_SIZE 0 (log_calloc calloc_ok m total_key_size).1
          store.data (log_calloc calloc_ok m total_key_size).2 with
      | error e =>
        simp only [fault_of]
        intro he
        injection he with he
        exact hloop (by rw [hl, he])
      | ok res => simp [fault_of]
  · intro asserts total_key_size all hsize hkeys hfit
    have htake : store.data.take HASH_TABLE_SIZE = store.data := by
      rw [← hsize]; exact List.take_length _
    have hdrop : store.data.drop HASH_TABLE_SIZE = [] := by
      rw [← hsize]; exact List.drop_length _
    have hk := table_keys_mono hkeys fuel hfuel
    have hspec := hash_table_rebuild_spec asserts fuel store total_key_size m all
      (Nat.le_of_eq hsize.symm) (by rw [htake]; exact hk) hfit
    rw [htake, hdrop, List.append_nil] at hspec
    have hforget := forget_rebuild_copies asserts true fuel store total_key_size m
    rw [hspec] at hforget
    obtain ⟨copies, hcopies⟩ := forget_copies_ok hforget
    have hnodes := rebuild_copies_nodes asserts true fuel store total_key_size m _ _ _ _ hcopies
    rw [htake] at hnodes
    obtain ⟨tn, htn, hlen⟩ := @table_nodes_length m fuel store.data 0 all hk
    rw [hnodes] at htn
    injection htn with htn
    subst htn
    refine ⟨_, _, _, copies, hcopies, hspec, hnodes, table_nodes_nodup fuel _ 0 _ hnodes, hlen,
      ?_⟩
    intro c i
    have := table_nodes_mem fuel store.data 0 copies hnodes c i
    rw [Nat.zero_add] at this
    exact this

/-- C12 at the small dictionary: every chain of the table of `cat`, `dog`,
`cow`, `ox` is back at its sentinel within two loop tests, and compaction into
an arena of 15 bytes makes four copies. -/
theorem compaction_terminates_witness :
    ((2 : Nat) ≤ 2 ∧ (∀ l ∈ demo_store.data, (list_walk 2 l).isSome = true) ∧
      demo_store.data.length = HASH_TABLE_SIZE ∧
      table_keys demo_lexis.1 2 demo_store.data
        = some [[99, 97, 116], [100, 111, 103], [111, 120], [99, 111, 119]] ∧
      encoded_size [[99, 97, 116], [100, 111, 103], [111, 120], [99, 111, 119]] ≤ 15) ∧
    (∀ (asserts calloc_ok : Bool) (total_key_size : Nat),
      fault_of (hash_table_rebuild asserts calloc_ok 2 demo_store total_key_size demo_lexis.1)
        ≠ some Fault.no_fuel) ∧
    ∃ store' m' arena copies,
      hash_table_rebuild_copies false true 2 demo_store 15 demo_lexis.1
        = .ok (store', m', arena, copies) ∧
      hash_table_rebuild false true 2 demo_store 15 demo_lexis.1 = .ok (store', m', arena) ∧
      table_nodes 2 0 demo_store.data = some copies ∧ copies.Nodup ∧
      copies.length = [[99, 97, 116], [100, 111, 103], [111, 120], [99, 111, 119]].length ∧
      ∀ (c i : Nat), (c, i) ∈ copies ↔
        ∃ l p, demo_store.data[c]? = some l ∧ list_walk 2 l = some p ∧ i ∈ p :=
  have hinv : ∀ l ∈ demo_store.data, (list_walk 2 l).isSome = true := by decide!
  have h := compaction_terminates 2 2 demo_store demo_lexis.1 (Nat.le_refl 2) hinv
  ⟨⟨Nat.le_refl 2, hinv, by decide!, by decide!, by decide!⟩, h.1,
    h.2 false 15 [[99, 97, 116], [100, 111, 103], [111, 120], [99, 111, 119]] (by decide!)
      (by decide!) (by decide!)⟩

end HashTableOpt
